import Mathlib

/-!
# miniShell: the command-line planner and executor

A shallow embedding of `src/parser.c`, `src/processus.c` and `src/builtins.c`.

* A C string is the list of its characters before the terminating NUL.
* Pointers into the two per-line arrays (`commands`, `flow`) are array indices;
  a NULL pointer is `none`.
* `argv` is represented by its NULL-terminated prefix.
* The operating system is a parameter: every system call whose result the code
  branches on (`open`, `pipe`, `fork`, `waitpid`, `getenv`, `chdir`, ...) is
  answered by a field of `PlanOS` / `ExecOS`.
* The header that fixes `MAX_CMD_LINE`, `MAX_ARGS` and `MAX_CMDS` is not part of
  the sources, so the three constants are the fields of `Limits`.
* Sizes are natural numbers. The subtractions `max - 1` and `max - 2` of the
  string functions are those of the naturals: they agree with the unsigned
  ones of C for the bounds from 2 on that a buffer `char buffer[MAX_CMD_LINE]`
  of any use has; wrap-around below that is not modelled. The one signed cast,
  `(int)max` in `strcut`, is modelled (`int_of_size`).
-/

namespace MiniShell

/-! ## Data model -/

/-- C string: the characters before the terminating NUL. -/
abbrev CStr := List Char

/-- The compile-time capacities used by the sources (`MAX_CMD_LINE`, `MAX_ARGS`,
`MAX_CMDS`); their defining header is not among the source files. -/
structure Limits where
  MAX_CMD_LINE : Nat
  MAX_ARGS : Nat
  MAX_CMDS : Nat

/-- Modelled from the spec: the header that defines the three constants is
missing; section 3 gives 32 as an example capacity of the command array, the
other two values are chosen for the examples. The instance serves to evaluate
the code on concrete lines; every statement that does not name it holds for
all limits. -/
def demoLimits : Limits := { MAX_CMD_LINE := 1024, MAX_ARGS := 16, MAX_CMDS := 32 }

/-- A deliberately tiny instance, used to exhibit the capacity checks on short inputs. -/
def tinyLimits : Limits := { MAX_CMD_LINE := 8, MAX_ARGS := 3, MAX_CMDS := 2 }

/-- Command node (`processus_t`). -/
structure processus_t where
  path : Option CStr
  argv : List CStr
  stdin_fd : Int
  stdout_fd : Int
  stderr_fd : Int
  is_background : Bool
  invert : Bool
  status : Int
  pid : Int
  cf : Option Nat

/-- Flow node (`control_flow_t`); `cmdl` tells whether the back reference to the
owning command line is set. -/
structure control_flow_t where
  proc : Option Nat
  cmdl : Bool
  unconditionnal_next : Option Nat
  on_success_next : Option Nat
  on_failure_next : Option Nat

/-- The three ways `add_processus` links a new node to its predecessor. -/
inductive control_flow_mode_t
  | UNCONDITIONAL
  | ON_SUCCESS
  | ON_FAILURE
  deriving DecidableEq, Repr

/-- One parsed line (`command_line_t`). The arrays `commands` and `flow` are maps
from the index; `opened_descriptors` is the descriptor registry. -/
structure command_line_t where
  command_line : CStr
  tokens : List CStr
  commands : Nat → processus_t
  flow : Nat → control_flow_t
  num_commands : Nat
  opened_descriptors : List Int

/-- The all-zero command node left by `memset`. -/
def zero_processus : processus_t :=
  { path := none, argv := [], stdin_fd := 0, stdout_fd := 0, stderr_fd := 0,
    is_background := false, invert := false, status := 0, pid := 0, cf := none }

/-- `init_processus`: everything zero, then the three standard descriptors. -/
def init_processus : processus_t :=
  { zero_processus with stdin_fd := 0, stdout_fd := 1, stderr_fd := 2 }

/-- `init_control_flow`: everything zero (all pointers NULL). -/
def init_control_flow : control_flow_t :=
  { proc := none, cmdl := false, unconditionnal_next := none,
    on_success_next := none, on_failure_next := none }

/-- Number of slots of the descriptor registry, `MAX_CMDS * 3 + 1`. -/
def max_fds (L : Limits) : Nat := L.MAX_CMDS * 3 + 1

/-- `init_command_line`: everything zero, every registry slot set to -1. -/
def init_command_line (L : Limits) : command_line_t :=
  { command_line := [], tokens := [],
    commands := fun _ => zero_processus,
    flow := fun _ => init_control_flow,
    num_commands := 0,
    opened_descriptors := List.replicate (max_fds L) (-1) }

/-! ## Line normaliser (`parser.c`) -/

/-- C `isspace` in the "C" locale: space, `\t`, `\n`, `\v`, `\f`, `\r`. -/
def isspace (c : Char) : Bool := c.toNat = 32 || (9 ≤ c.toNat && c.toNat ≤ 13)

/-- C `isalnum` in the "C" locale. -/
def isalnum (c : Char) : Bool :=
  (48 ≤ c.toNat && c.toNat ≤ 57) || (65 ≤ c.toNat && c.toNat ≤ 90) ||
    (97 ≤ c.toNat && c.toNat ≤ 122)

/-- `trim`: the trailing loop (white space or `\n`), then the leading loop. -/
def trim (str : CStr) : CStr :=
  ((str.reverse.dropWhile (fun c => isspace c || c = '\n')).reverse).dropWhile isspace

/-- The copying loop of `clean`; the flag is `space_found`. -/
def clean_loop : Bool → CStr → CStr
  | _, [] => []
  | space_found, c :: src =>
    if isspace c then
      if space_found then clean_loop true src else ' ' :: clean_loop true src
    else c :: clean_loop false src

/-- `clean`: collapse runs of white space into one space, then `trim` again. -/
def clean (str : CStr) : CStr := trim (clean_loop false str)

/-- The main loop of `separate_s`: `j` is the write index into `buffer`, the
result is what the loop has written from index `j` on. -/
def separate_loop (s : CStr) (max : Nat) : CStr → Nat → CStr
  | [], _ => []
  | c :: str, j =>
    if j < max - 2 then
      if s.contains c then ' ' :: c :: ' ' :: separate_loop s max str (j + 3)
      else c :: separate_loop s max str (j + 1)
    else []

/-- `separate_s`: `none` is the return value -1. The final value of `j` is the
length of what was written. (When `j` reaches `max` the terminator lands one
past a buffer of `max` bytes; only the return value is modelled.) -/
def separate_s (str : CStr) (s : CStr) (max : Nat) : Option CStr :=
  let buffer := separate_loop s max str 0
  if buffer.length ≥ max then none else some (clean buffer)

/-- The name characters of the `$VAR` form: `isalnum` or underscore. -/
def isnamechar (c : Char) : Bool := isalnum c || c = '_'

/-- What follows a `$`: the variable name and the text after it, for the forms
`${VAR}` (up to the closing brace, which is skipped when present) and `$VAR`. -/
def read_varname : CStr → CStr × CStr
  | '{' :: str => (str.takeWhile (fun c => c ≠ '}'), (str.dropWhile (fun c => c ≠ '}')).drop 1)
  | str => (str.takeWhile isnamechar, str.dropWhile isnamechar)

/-- The loop of `substenv`; `j` is the write index, `none` the return value -1.
The first argument bounds the number of iterations: every iteration reads at
least one character, so the length of the text is enough (`substenv` passes it)
and with no iteration left the text is exhausted. (The capacity of the
`varname` scratch array is not modelled.) -/
def substenv_loop (getenv : CStr → Option CStr) (max : Nat) : Nat → CStr → Nat → Option CStr
  | 0, _, _ => some []
  | _ + 1, [], _ => some []
  | n + 1, c :: str, j =>
    if j < max - 1 then
      if c = '$' then
        match getenv (read_varname str).1 with
        | some val =>
          if j + val.length ≥ max then none
          else (substenv_loop getenv max n (read_varname str).2 (j + val.length)).map (val ++ ·)
        | none => substenv_loop getenv max n (read_varname str).2 j
      else (substenv_loop getenv max n str (j + 1)).map (c :: ·)
    else some []

/-- `substenv`: `none` is the return value -1. -/
def substenv (getenv : CStr → Option CStr) (str : CStr) (max : Nat) : Option CStr :=
  substenv_loop getenv max str.length str 0

/-- The tokens `strtok_r` yields for the one-character delimiter `sep`: the
maximal runs of other characters; `cur` is the run being read (reversed). -/
def strtok_all (sep : Char) : CStr → CStr → List CStr
  | [], cur => if cur.isEmpty then [] else [cur.reverse]
  | c :: str, cur =>
    if c = sep then
      (if cur.isEmpty then strtok_all sep str [] else cur.reverse :: strtok_all sep str [])
    else strtok_all sep str (c :: cur)

/-- The cast `(int)max` of a `size_t`, for an `int` of 32 bits: the value
modulo 2^32 read as a signed number. -/
def int_of_size (n : Nat) : Int :=
  if n % 4294967296 < 2147483648 then ((n % 4294967296 : Nat) : Int)
  else ((n % 4294967296 : Nat) : Int) - 4294967296

/-- `strcut`: a token is stored while `count < (int)max - 1` (then the NULL
marker); the result is the stored tokens, its length the return value. (When
`(int)max` is the least `int` the subtraction overflows; the model takes its
mathematical value, so that no token is stored.) -/
def strcut (str : CStr) (sep : Char) (max : Nat) : List CStr :=
  (strtok_all sep str []).take (int_of_size max - 1).toNat

/-- Steps 1 to 3 of `parse_command_line`: bounded copy, `trim`, `clean`,
`separate_s`, `substenv`; `none` when one of them returns non-zero. The result
is the text handed to `strcut`. -/
def normalise (L : Limits) (getenv : CStr → Option CStr) (line : CStr) : Option CStr :=
  match separate_s (clean (trim (line.take (L.MAX_CMD_LINE - 1))))
      [';', '|', '&', '<', '>', '!'] L.MAX_CMD_LINE with
  | none => none
  | some s => substenv getenv s L.MAX_CMD_LINE

/-- The token array built by step 3 of `parse_command_line`. -/
def tokenize (L : Limits) (getenv : CStr → Option CStr) (line : CStr) : Option (List CStr) :=
  (normalise L getenv line).map (fun s => strcut s ' ' (L.MAX_CMD_LINE / 2 + 1))

/-! ## Descriptor registry and node allocation (`processus.c`) -/

/-- The search loop of `add_fd` over the first `n` slots: the first slot holding
-1 receives `fd`; `none` when there is none (table full). -/
def add_fd_loop : Nat → List Int → Int → Option (List Int)
  | 0, _, _ => none
  | _ + 1, [], _ => none
  | n + 1, x :: xs, fd =>
    if x = -1 then some (fd :: xs) else (add_fd_loop n xs fd).map (x :: ·)

/-- `add_fd`: the return value and the updated line. -/
def add_fd (L : Limits) (cmdl : command_line_t) (fd : Int) : Int × command_line_t :=
  if fd < 0 then (-1, cmdl)
  else
    match add_fd_loop (max_fds L) cmdl.opened_descriptors fd with
    | some od => (0, { cmdl with opened_descriptors := od })
    | none => (-1, cmdl)

/-- The loop of `close_fds` over the first `n` slots: the descriptors passed to
`close`, in order, and the slots afterwards. -/
def close_fds_loop : Nat → List Int → List Int × List Int
  | 0, xs => ([], xs)
  | _ + 1, [] => ([], [])
  | n + 1, x :: xs =>
    let r := close_fds_loop n xs
    if x ≠ -1 then (x :: r.1, -1 :: r.2) else (r.1, x :: r.2)

/-- `close_fds`: the descriptors it closes and the updated line. -/
def close_fds (L : Limits) (cmdl : command_line_t) : List Int × command_line_t :=
  let r := close_fds_loop (max_fds L) cmdl.opened_descriptors
  (r.1, { cmdl with opened_descriptors := r.2 })

/-- The `switch (mode)` of `add_processus`: store `target` in one link of `cf`. -/
def set_link (cf : control_flow_t) (mode : control_flow_mode_t) (target : Nat) : control_flow_t :=
  match mode with
  | .UNCONDITIONAL => { cf with unconditionnal_next := some target }
  | .ON_SUCCESS => { cf with on_success_next := some target }
  | .ON_FAILURE => { cf with on_failure_next := some target }

/-- `add_processus`: the returned node (NULL when the line is full) and the
updated line. -/
def add_processus (L : Limits) (cmdl : command_line_t) (mode : control_flow_mode_t) :
    Option Nat × command_line_t :=
  if cmdl.num_commands ≥ L.MAX_CMDS then (none, cmdl)
  else
    let n := cmdl.num_commands
    let commands := Function.update cmdl.commands n { init_processus with cf := some n }
    let flow := Function.update cmdl.flow n { init_control_flow with proc := some n, cmdl := true }
    let flow :=
      if n > 0 then Function.update flow (n - 1) (set_link (flow (n - 1)) mode n) else flow
    (some n, { cmdl with commands := commands, flow := flow, num_commands := n + 1 })

/-! ## Planner (step 4 of `parse_command_line`) -/

/-- The modes `open` is called with by the planner. -/
inductive OpenFlags
  | rdonly
  | wr_trunc
  | wr_append
  deriving DecidableEq, Repr

/-- The operating system as the planner sees it. The first argument of both
calls is the number of `open`/`pipe` calls made before on this line.
`sys_open` gives the returned descriptor (negative on failure), `sys_pipe` the
pair `(pfd[0], pfd[1])`, or `none` when `pipe` returns -1. -/
structure PlanOS where
  sys_open : Nat → CStr → OpenFlags → Int
  sys_pipe : Nat → Option (Int × Int)

/-- The local state of the planning loop. `rest` is the token array from
`token_index` on (up to the NULL marker), `calls` counts the system calls made. -/
structure PlanState where
  cmdl : command_line_t
  calls : Nat
  rest : List CStr
  argv_index : Nat
  current_proc : Option Nat

/-- How `parse_command_line` ends: `ret` is its return value, `none` when the
planner wrote through a NULL `current_proc` and so never returns. -/
structure PlanResult where
  ret : Option Int
  cmdl : command_line_t
  calls : Nat

/-- One iteration of the loop either continues or leaves the function. -/
inductive PlanStep
  | next (s : PlanState)
  | stop (r : PlanResult)

/-- Leave `parse_command_line` with return value `code`. -/
def PlanState.leave (s : PlanState) (code : Int) : PlanStep :=
  .stop { ret := some code, cmdl := s.cmdl, calls := s.calls }

/-- A write `current_proc->field = ...`: undefined (no return) when
`current_proc` is NULL. -/
def PlanState.write (s : PlanState) (f : processus_t → processus_t)
    (k : PlanState → PlanStep) : PlanStep :=
  match s.current_proc with
  | none => .stop { ret := none, cmdl := s.cmdl, calls := s.calls }
  | some i =>
    k { s with cmdl := { s.cmdl with commands := Function.update s.cmdl.commands i (f (s.cmdl.commands i)) } }

/-- The statement pair `current_proc = add_processus(cmdl, mode); argv_index = 0;`. -/
def PlanState.new_proc (L : Limits) (s : PlanState) (mode : control_flow_mode_t) : PlanState :=
  let r := add_processus L s.cmdl mode
  { s with cmdl := r.2, current_proc := r.1, argv_index := 0 }

/-- The call `add_fd(cmdl, fd)` whose result the planner ignores. -/
def PlanState.register (L : Limits) (s : PlanState) (fd : Int) : PlanState :=
  { s with cmdl := (add_fd L s.cmdl fd).2 }

/-- The end of an iteration: `token_index` has advanced by `k` in all. -/
def PlanState.advance (s : PlanState) (k : Nat) : PlanStep :=
  .next { s with rest := s.rest.drop k }

/-- The block "Arguments normaux" for a token that is no operator. -/
def plan_argument (L : Limits) (s : PlanState) (token : CStr) : PlanStep :=
  if s.argv_index < L.MAX_ARGS - 1 then
    s.write (fun p =>
        { p with path := if s.argv_index = 0 then some token else p.path,
                 argv := p.argv.take s.argv_index ++ [token] })
      (fun s1 => PlanState.advance { s1 with argv_index := s.argv_index + 1 } 1)
  else s.leave (-1)

/-- The stderr redirection once `2 >` (and a second `>` when `flags` is append)
has been read; `f` is the index, relative to `token_index`, of the target. -/
def plan_stderr (L : Limits) (os : PlanOS) (s : PlanState) (flags : OpenFlags) (f : Nat) :
    PlanStep :=
  match s.rest.get? f with
  | none => s.leave (-1)
  | some file =>
    if file = ['&'] ∧ s.rest.get? (f + 1) = some ['1'] then
      s.write (fun p => { p with stderr_fd := p.stdout_fd }) (fun s1 => s1.advance (f + 2))
    else
      let fd := os.sys_open s.calls file flags
      let s := { s with calls := s.calls + 1 }
      if fd ≥ 0 then
        s.write (fun p => { p with stderr_fd := fd })
          (fun s1 => (s1.register L fd).advance (f + 1))
      else s.advance (f + 1)

/-- The stdout redirection; `f` is the index of the target relative to `token_index`. -/
def plan_stdout (L : Limits) (os : PlanOS) (s : PlanState) (flags : OpenFlags) (f : Nat) :
    PlanStep :=
  match s.rest.get? f with
  | none => s.leave (-1)
  | some file =>
    let fd := os.sys_open s.calls file flags
    let s := { s with calls := s.calls + 1 }
    if fd < 0 then s.advance (f + 1)
    else
      s.write (fun p => { p with stdout_fd := fd })
        (fun s1 => (s1.register L fd).advance (f + 1))

/-- The body of the `while` loop of `parse_command_line` for the current token
`token` (the head of `s.rest`). -/
def plan_step (L : Limits) (os : PlanOS) (s : PlanState) (token : CStr) : PlanStep :=
  let next_token := s.rest.get? 1
  if token = [';'] then
    if next_token.isSome then (s.new_proc L .UNCONDITIONAL).advance 1 else s.advance 1
  else if token = ['|'] then
    if next_token = some ['|'] then
      if (s.rest.get? 2).isSome then (s.new_proc L .ON_FAILURE).advance 2 else s.advance 2
    else
      match os.sys_pipe s.calls with
      | none =>
        .stop { ret := some (-1), cmdl := (close_fds L s.cmdl).2, calls := s.calls + 1 }
      | some pfd =>
        let s := { s with calls := s.calls + 1 }
        s.write (fun p => { p with stdout_fd := pfd.2 }) (fun s1 =>
          let s2 := (s1.register L pfd.2).new_proc L .UNCONDITIONAL
          match s2.current_proc with
          | none => s2.leave (-1)
          | some _ =>
            s2.write (fun p => { p with stdin_fd := pfd.1 })
              (fun s3 => (s3.register L pfd.1).advance 1))
  else if token = ['&'] then
    if next_token = some ['&'] then
      if (s.rest.get? 2).isSome then (s.new_proc L .ON_SUCCESS).advance 2 else s.advance 2
    else
      s.write (fun p => { p with is_background := true }) (fun s1 =>
        if next_token.isSome ∧ next_token ≠ some [';'] ∧ next_token ≠ some ['|'] then
          (s1.new_proc L .UNCONDITIONAL).advance 1
        else s1.advance 1)
  else if token = ['<'] then
    match next_token with
    | none => s.leave (-1)
    | some file =>
      let fd := os.sys_open s.calls file .rdonly
      let s := { s with calls := s.calls + 1 }
      if fd < 0 then s.write (fun p => { p with status := 1 }) (fun s1 => s1.advance 2)
      else
        s.write (fun p => { p with stdin_fd := fd })
          (fun s1 => (s1.register L fd).advance 2)
  else if token = ['>'] then
    if next_token = some ['>'] then plan_stdout L os s .wr_append 2
    else plan_stdout L os s .wr_trunc 1
  else if token = ['2'] ∧ next_token = some ['>'] then
    if s.rest.get? 2 = some ['>'] then plan_stderr L os s .wr_append 3
    else plan_stderr L os s .wr_trunc 2
  else if token = ['!'] ∧ s.argv_index = 0 then
    s.write (fun p => { p with invert := true }) (fun s1 => s1.advance 1)
  else plan_argument L s token

/-- The `while (cmdl->tokens[token_index] != NULL)` loop and the final
`return 0`. The first argument bounds the number of iterations: every
iteration advances `token_index`, so the number of tokens is enough
(`plan` passes it) and with no iteration left no token is left. -/
def plan_loop (L : Limits) (os : PlanOS) : Nat → PlanState → PlanResult
  | 0, s => { ret := some 0, cmdl := s.cmdl, calls := s.calls }
  | n + 1, s =>
    match s.rest with
    | [] => { ret := some 0, cmdl := s.cmdl, calls := s.calls }
    | token :: _ =>
      match plan_step L os s token with
      | .stop r => r
      | .next s1 => plan_loop L os n s1

/-- Step 4 of `parse_command_line` ("Analyse logique") on a line whose token
array holds `tokens`. -/
def plan (L : Limits) (os : PlanOS) (cmdl : command_line_t) (tokens : List CStr) : PlanResult :=
  let cmdl := { cmdl with tokens := tokens }
  match tokens with
  | [] => { ret := some 0, cmdl := cmdl, calls := 0 }
  | _ :: _ =>
    let r := add_processus L cmdl .UNCONDITIONAL
    match r.1 with
    | none => { ret := some (-1), cmdl := r.2, calls := 0 }
    | some i =>
      plan_loop L os tokens.length
        { cmdl := r.2, calls := 0, rest := tokens, argv_index := 0, current_proc := some i }

/-- `parse_command_line`. The field `command_line` holds the text as far as the
normaliser got (the cuts `strtok_r` makes in it are not modelled). -/
def parse_command_line (L : Limits) (os : PlanOS) (getenv : CStr → Option CStr)
    (cmdl : command_line_t) (line : CStr) : PlanResult :=
  let copy := clean (trim (line.take (L.MAX_CMD_LINE - 1)))
  match separate_s copy [';', '|', '&', '<', '>', '!'] L.MAX_CMD_LINE with
  | none => { ret := some (-1), cmdl := { cmdl with command_line := copy }, calls := 0 }
  | some sep =>
    match substenv getenv sep L.MAX_CMD_LINE with
    | none => { ret := some (-1), cmdl := { cmdl with command_line := sep }, calls := 0 }
    | some text =>
      plan L os { cmdl with command_line := text } (strcut text ' ' (L.MAX_CMD_LINE / 2 + 1))

/-! ## Built-in commands (`builtins.c`) -/

/-- The operating system as the executor sees it. The first argument of every
field is the number of `launch_processus` calls made before on this line.
`fork` gives the value `fork` returns in the shell (negative on failure, the
child's pid otherwise); `waitpid` the `wstatus` it stores, or `none` when it
returns -1; the other fields tell whether the library call of that name
succeeds, `home` being `getenv("HOME")`. -/
structure ExecOS where
  fork : Nat → processus_t → Int
  waitpid : Nat → processus_t → Option Nat
  home : Nat → Option CStr
  chdir : Nat → CStr → Bool
  getcwd : Nat → Bool
  setenv : Nat → Bool
  unsetenv : Nat → Bool

/-- What a built-in does: return a code, or end the shell process (`exit`). -/
inductive BuiltinRet
  | code (ret : Int)
  | exits

/-- `is_builtin`. -/
def is_builtin (cmd : processus_t) : Bool :=
  match cmd.argv.head? with
  | none => false
  | some name =>
    name = "cd".toList || name = "exit".toList || name = "export".toList ||
      name = "unset".toList || name = "pwd".toList

/-- `builtin_cd`. -/
def builtin_cd (os : ExecOS) (n : Nat) (cmd : processus_t) : Int :=
  match (match cmd.argv.get? 1 with
         | some path => some path
         | none => os.home n) with
  | none => 1
  | some path => if os.chdir n path then 0 else 1

/-- `builtin_export`. -/
def builtin_export (os : ExecOS) (n : Nat) (cmd : processus_t) : Int :=
  match cmd.argv.get? 1 with
  | none => 0
  | some arg => if arg.contains '=' then (if os.setenv n then 0 else 1) else 0

/-- `builtin_unset`. -/
def builtin_unset (os : ExecOS) (n : Nat) (cmd : processus_t) : Int :=
  match cmd.argv.get? 1 with
  | none => 1
  | some _ => if os.unsetenv n then 0 else 1

/-- `builtin_pwd`. -/
def builtin_pwd (os : ExecOS) (n : Nat) : Int :=
  if os.getcwd n then 0 else 1

/-- `exec_builtin`; `builtin_exit` calls `exit` and does not return. -/
def exec_builtin (os : ExecOS) (n : Nat) (cmd : processus_t) : BuiltinRet :=
  match cmd.argv.head? with
  | none => .code (-1)
  | some name =>
    if name = "cd".toList then .code (builtin_cd os n cmd)
    else if name = "exit".toList then .exits
    else if name = "export".toList then .code (builtin_export os n cmd)
    else if name = "unset".toList then .code (builtin_unset os n cmd)
    else if name = "pwd".toList then .code (builtin_pwd os n)
    else .code (-1)

/-! ## Executor (`processus.c`) -/

/-- `WIFEXITED` of the C library: the low seven bits of `wstatus` are zero. -/
def WIFEXITED (wstatus : Nat) : Bool := wstatus % 128 = 0

/-- `WEXITSTATUS` of the C library: bits 8 to 15 of `wstatus`. -/
def WEXITSTATUS (wstatus : Nat) : Nat := (wstatus / 256) % 256

/-- The C expression `!status`. -/
def lnot (status : Int) : Int := if status = 0 then 1 else 0

/-- The statement `if (proc->invert) proc->status = !proc->status;`. -/
def apply_invert (proc : processus_t) : processus_t :=
  if proc.invert then { proc with status := lnot proc.status } else proc

/-- The descriptors closed in the shell process by the three statements
`if (proc->X_fd != X_FILENO) close(proc->X_fd);`, in order. -/
def close_assigned (proc : processus_t) : List Int :=
  (if proc.stdin_fd ≠ 0 then [proc.stdin_fd] else []) ++
  (if proc.stdout_fd ≠ 1 then [proc.stdout_fd] else []) ++
  (if proc.stderr_fd ≠ 2 then [proc.stderr_fd] else [])

/-- The status the parent branch of `launch_processus` stores before the
inversion ("Gestion de l'attente"). -/
def wait_status (os : ExecOS) (n : Nat) (proc : processus_t) : Int :=
  if !proc.is_background then
    match os.waitpid n proc with
    | none => 1
    | some wstatus => if WIFEXITED wstatus then (WEXITSTATUS wstatus : Int) else 1
  else 0

/-- How a call of `launch_processus` ends: it returns `code`, leaving the node
as `proc` and having closed `closed` in the shell process, or the shell process
ends inside it (built-in `exit`). -/
inductive LaunchResult
  | returned (code : Int) (proc : processus_t) (closed : List Int)
  | exited

/-- `launch_processus` on a non-NULL node, seen from the shell process. (The
`dup`/`dup2` calls around a built-in, and the child's side of `fork`, act on
the descriptor table only and are not tracked.) -/
def launch_processus (os : ExecOS) (n : Nat) (proc : processus_t) : LaunchResult :=
  if is_builtin proc then
    match exec_builtin os n proc with
    | .exits => .exited
    | .code ret =>
      let proc := apply_invert { proc with status := ret }
      .returned 0 proc (close_assigned proc)
  else
    let pid := os.fork n proc
    if pid < 0 then .returned (-1) proc []
    else
      let proc := { proc with pid := pid }
      let closed := close_assigned proc
      let proc := apply_invert { proc with status := wait_status os n proc }
      .returned 0 proc closed

/-- The choice of the next flow node in `launch_command_line`. -/
def next_flow (current : control_flow_t) (status : Int) : Option Nat :=
  if status = 0 then
    if current.on_success_next ≠ none then current.on_success_next
    else current.unconditionnal_next
  else
    if current.on_failure_next ≠ none then current.on_failure_next
    else current.unconditionnal_next

/-- One call of `launch_processus` made by `launch_command_line`: the index of
the command node, and its status when the call returned 0 (`none` when the call
returned -1 or the shell ended in it). -/
structure LaunchRec where
  idx : Nat
  status : Option Int
  deriving DecidableEq, Repr

/-- The state `launch_command_line` works on: the line, the global
`last_status`, the calls of `launch_processus` so far and the descriptors the
shell process has closed so far. -/
structure ExecState where
  cmdl : command_line_t
  last_status : Int
  trace : List LaunchRec
  closed : List Int

/-- How `launch_command_line` ends. `unfinished` only says that the bound on
the number of iterations given to the model was reached. -/
inductive Ending
  | returned (code : Int)
  | exited
  | unfinished
  deriving DecidableEq, Repr

/-- The final state of `launch_command_line` and how it ended. -/
structure ExecResult where
  ending : Ending
  st : ExecState

/-- The statements after the loop: `close_fds(cmdl); return 0;`. -/
def finish_line (L : Limits) (st : ExecState) : ExecResult :=
  let r := close_fds L st.cmdl
  { ending := .returned 0, st := { st with cmdl := r.2, closed := st.closed ++ r.1 } }

/-- The loop `while (current != NULL)` of `launch_command_line` followed by the
final clean-up; the first argument bounds the number of iterations. -/
def flow_loop (L : Limits) (os : ExecOS) : Nat → Option Nat → ExecState → ExecResult
  | _, none, st => finish_line L st
  | 0, some _, st => { ending := .unfinished, st := st }
  | n + 1, some cur, st =>
    match (st.cmdl.flow cur).proc with
    | none => finish_line L st
    | some i =>
      match launch_processus os st.trace.length (st.cmdl.commands i) with
      | .exited =>
        { ending := .exited, st := { st with trace := st.trace ++ [{ idx := i, status := none }] } }
      | .returned code proc closed =>
        if code ≠ 0 then
          finish_line L { st with trace := st.trace ++ [{ idx := i, status := none }] }
        else
          flow_loop L os n (next_flow (st.cmdl.flow cur) proc.status)
            { cmdl := { st.cmdl with commands := Function.update st.cmdl.commands i proc },
              last_status := proc.status,
              trace := st.trace ++ [{ idx := i, status := some proc.status }],
              closed := st.closed ++ closed }

/-- `launch_command_line`, run for at most `fuel` iterations of its loop, from
the global `last_status`. -/
def launch_command_line (L : Limits) (os : ExecOS) (fuel : Nat) (cmdl : command_line_t)
    (last_status : Int) : ExecResult :=
  let st : ExecState := { cmdl := cmdl, last_status := last_status, trace := [], closed := [] }
  if cmdl.num_commands = 0 then { ending := .returned 0, st := st }
  else flow_loop L os fuel (some 0) st

/-- Whether `launch_command_line` called `launch_processus` on command node `i`. -/
def launched (r : ExecResult) (i : Nat) : Prop := ∃ e ∈ r.st.trace, e.idx = i

/-- Whether `launch_processus` on command node `i` returned 0 leaving status `s`. -/
def launched_with (r : ExecResult) (i : Nat) (s : Int) : Prop :=
  { idx := i, status := some s } ∈ r.st.trace

instance (r : ExecResult) (i : Nat) : Decidable (launched r i) := by
  unfold launched; infer_instance

instance (r : ExecResult) (i : Nat) (s : Int) : Decidable (launched_with r i s) := by
  unfold launched_with; infer_instance

/-! ## Concrete operating systems, to evaluate the code on examples -/

/-- A planner-side system in which `open` fails exactly for the path `missing`
and otherwise, like `pipe`, hands out fresh descriptors from 3 on. -/
def demoPlanOS : PlanOS :=
  { sys_open := fun n path _ => if path = "missing".toList then -1 else 3 + 2 * (n : Int),
    sys_pipe := fun n => some (3 + 2 * (n : Int), 4 + 2 * (n : Int)) }

/-- An executor-side system in which `fork` and `waitpid` succeed, the program
`false` exits with status 1 and every other program with status 0. -/
def demoExecOS : ExecOS :=
  { fork := fun n _ => 100 + (n : Int),
    waitpid := fun _ p => some (if p.argv.head? = some "false".toList then 256 else 0),
    home := fun _ => some "/root".toList,
    chdir := fun _ _ => true,
    getcwd := fun _ => true,
    setenv := fun _ => true,
    unsetenv := fun _ => true }

/-- An environment without any variable. -/
def emptyEnv : CStr → Option CStr := fun _ => none

/-- Plan `line` on a freshly initialised command line. -/
def demoParse (line : String) : PlanResult :=
  parse_command_line demoLimits demoPlanOS emptyEnv (init_command_line demoLimits) line.toList

/-- Plan `line` on a fresh command line and execute the result, `last_status`
being 0 before. -/
def demoRun (line : String) : ExecResult :=
  launch_command_line demoLimits demoExecOS 64 (demoParse line).cmdl 0

/-- Command node `i` of the line `line` as planned by `demoParse`. -/
def demoNode (line : String) (i : Nat) : processus_t := (demoParse line).cmdl.commands i

/-- The state in which `launch_command_line` starts on the plan of `line`. -/
def demoState (line : String) : ExecState :=
  { cmdl := (demoParse line).cmdl, last_status := 0, trace := [], closed := [] }

/-! ## Vocabulary of the proofs -/

/-- Two lines with the same flow array and the same number of nodes. -/
def SameSkel (c c1 : command_line_t) : Prop :=
  c1.flow = c.flow ∧ c1.num_commands = c.num_commands

/-- How one planner iteration may change the flow array and the node count:
not at all, or by one successful `add_processus`. -/
def SkelStep (L : Limits) (c c1 : command_line_t) : Prop :=
  SameSkel c c1 ∨
    ∃ mode c0, SameSkel c c0 ∧ c0.num_commands < L.MAX_CMDS ∧
      SameSkel (add_processus L c0 mode).2 c1

/-- A property of the outcome of one planner iteration. -/
def PlanStep.Holds (P : PlanState → Prop) (Q : PlanResult → Prop) : PlanStep → Prop
  | .next s => P s
  | .stop r => Q r

/-- What one iteration does to the loop state. -/
def StepOk (L : Limits) (s : PlanState) : PlanStep → Prop :=
  PlanStep.Holds
    (fun s1 => SkelStep L s.cmdl s1.cmdl ∧ ∃ k, 1 ≤ k ∧ s1.rest = s.rest.drop k)
    (fun r => SkelStep L s.cmdl r.cmdl)

/-- Loop states with the same flow array, node count and token cursor. -/
def Same (s s1 : PlanState) : Prop := SameSkel s.cmdl s1.cmdl ∧ s1.rest = s.rest

/-- Loop states with the same token cursor whose lines differ by a `SkelStep`. -/
def Near (L : Limits) (s s1 : PlanState) : Prop := SkelStep L s.cmdl s1.cmdl ∧ s1.rest = s.rest

/-- A flow node without successor. -/
def no_link (cf : control_flow_t) : Prop :=
  cf.unconditionnal_next = none ∧ cf.on_success_next = none ∧ cf.on_failure_next = none

/-- A flow node with exactly one of its three links set, pointing to `t`. -/
def one_link (cf : control_flow_t) (t : Nat) : Prop :=
  (cf.unconditionnal_next = some t ∧ cf.on_success_next = none ∧ cf.on_failure_next = none) ∨
  (cf.unconditionnal_next = none ∧ cf.on_success_next = some t ∧ cf.on_failure_next = none) ∨
  (cf.unconditionnal_next = none ∧ cf.on_success_next = none ∧ cf.on_failure_next = some t)

/-- The shape of the flow array of a planned line: node `j` refers to command
`j`; every node but the last has exactly one link, to its right neighbour; the
last has none. -/
def FlowInv (c : command_line_t) : Prop :=
  ∀ j, (j < c.num_commands → (c.flow j).proc = some j) ∧
    (j + 1 < c.num_commands → one_link (c.flow j) (j + 1)) ∧
    (j + 1 = c.num_commands → no_link (c.flow j))

/-- A word without operator character (`;`, `|`, `&`, `<`, `>`, `!`). -/
def plain_word (w : CStr) : Prop := ∀ c ∈ w, c ∉ [';', '|', '&', '<', '>', '!']

/-- The token sequence of groups of words separated by the single token `sep`. -/
def join_groups (sep : CStr) : List (List CStr) → List CStr
  | [] => []
  | [g] => g
  | g :: g1 :: gs => g ++ sep :: join_groups sep (g1 :: gs)

/-- The node after the statements `if (argv_index == 0) path = token;
argv[argv_index++] = token; argv[argv_index] = NULL;` for `argv_index = a`. -/
def push_arg (p : processus_t) (a : Nat) (w : CStr) : processus_t :=
  { p with path := if a = 0 then some w else p.path, argv := p.argv.take a ++ [w] }

/-- The node after `push_arg` for each word of `ws`, from `argv_index = a` on. -/
def push_args : processus_t → Nat → List CStr → processus_t
  | p, _, [] => p
  | p, a, w :: ws => push_args (push_arg p a w) (a + 1) ws

/-- The loop state after an iteration that appends the word `w` to node `i`. -/
def PlanState.with_word (s : PlanState) (i : Nat) (w : CStr) : PlanState :=
  { cmdl := { s.cmdl with
              commands := Function.update s.cmdl.commands i
                (push_arg (s.cmdl.commands i) s.argv_index w) },
    calls := s.calls, rest := s.rest.drop 1, argv_index := s.argv_index + 1,
    current_proc := s.current_proc }

/-- The loop state after appending the words `ws` to node `i`, one iteration each. -/
def PlanState.with_words (s : PlanState) (i : Nat) (ws : List CStr) : PlanState :=
  ws.foldl (fun s w => s.with_word i w) s

/-- Whether a word is plain can be computed. -/
instance plain_word_decidable (w : CStr) : Decidable (plain_word w) := by
  unfold plain_word; infer_instance

/-- The loop state after a write `current_proc->field = ...` through node `i`. -/
def PlanState.assign (s : PlanState) (i : Nat) (f : processus_t → processus_t) : PlanState :=
  { s with cmdl := { s.cmdl with
                     commands := Function.update s.cmdl.commands i (f (s.cmdl.commands i)) } }

/-- A registry whose first slots hold the descriptors `used` (none of them -1)
and whose `m` remaining slots are empty. -/
def RegistryIs (L : Limits) (c : command_line_t) (used : List Int) (m : Nat) : Prop :=
  c.opened_descriptors = used ++ List.replicate m (-1) ∧ (∀ x ∈ used, x ≠ -1) ∧
    used.length + m = max_fds L

/-- The loop state after the first half of the pipe branch: `pipe` was called,
its write end `b` assigned to stdout of node `n` and registered. -/
def PlanState.pipe_left (L : Limits) (s : PlanState) (n : Nat) (b : Int) : PlanState :=
  (({ s with calls := s.calls + 1 } : PlanState).assign n
    (fun p => { p with stdout_fd := b })).register L b

/-- The loop state after the second half of the pipe branch: a node was
appended, the read end `a` assigned to its stdin and registered. -/
def PlanState.pipe_right (L : Limits) (s : PlanState) (n : Nat) (a : Int) : PlanState :=
  ((s.new_proc L .UNCONDITIONAL).assign (n + 1) (fun p => { p with stdin_fd := a })).register L a

/-- Plan `line` on a fresh command line under the tiny limits. -/
def tinyParse (getenv : CStr → Option CStr) (line : String) : PlanResult :=
  parse_command_line tinyLimits demoPlanOS getenv (init_command_line tinyLimits) line.toList

/-- An environment whose only variable is `X`, with the value `12345678`. -/
def demoEnv : CStr → Option CStr :=
  fun name => if name = "X".toList then some "12345678".toList else none

/-- The text `separate_s` produces from the trimmed and cleaned `line` when no
size bound is hit: the bound used here, three characters per character of the
line and two more, is never reached. -/
def spaced (line : CStr) : CStr :=
  clean (separate_loop [';', '|', '&', '<', '>', '!'] (3 * line.length + 2) (clean (trim line)) 0)

/-! ## Registry properties and further example inputs -/

/-- A property of the descriptor registry that `add_fd` and `close_fds` keep. -/
def RegKept (L : Limits) (R : List Int → Prop) : Prop :=
  (∀ (c : command_line_t) (fd : Int),
    R c.opened_descriptors → R (add_fd L c fd).2.opened_descriptors) ∧
  (∀ c : command_line_t, R c.opened_descriptors → R (close_fds L c).2.opened_descriptors)

/-- The registry has property `R` after one planner iteration. -/
def RegOk (R : List Int → Prop) : PlanStep → Prop :=
  PlanStep.Holds (fun s1 => R s1.cmdl.opened_descriptors) (fun r => R r.cmdl.opened_descriptors)

/-- A planner-side system like `demoPlanOS` in which every `pipe` call fails. -/
def noPipeOS : PlanOS := { demoPlanOS with sys_pipe := fun _ => none }

/-- The line `a;a;...;a` of 33 commands, one more than `demoLimits` has nodes. -/
def manyCommands : CStr := (List.replicate 32 ['a', ';']).flatten ++ ['a']

/-- The line `a|a|...|a` of 33 commands. -/
def manyPiped : CStr := (List.replicate 32 ['a', '|']).flatten ++ ['a']

/-- The line `a>b>b...>b` with 98 redirections of stdout, one more than the
registry of `demoLimits` has slots. -/
def manyRedirections : CStr := 'a' :: (List.replicate 98 ['>', 'b']).flatten

/-! ## Specification of variable substitution -/

/-- A text as variable substitution reads it: characters that stand for
themselves and references to environment variables. -/
inductive Piece
  | lit (c : Char)
  | var (name : CStr)
  deriving DecidableEq, Repr

/-- Specification side. The text after a `$` as a reference: the name and what
follows the reference. `${NAME}` has its name between the braces; without a
closing brace the name runs to the end of the text; otherwise the name is the
longest run of letters, digits and underscores (it may be empty). -/
def var_ref : CStr → CStr × CStr
  | '{' :: body =>
    if '}' ∈ body then
      (body.takeWhile (fun c => c ≠ '}'), (body.dropWhile (fun c => c ≠ '}')).drop 1)
    else (body, [])
  | str => (str.takeWhile isnamechar, str.dropWhile isnamechar)

/-- Specification side, brace form only when the brace is closed: after a `$`
that `{` follows without a later `}`, the reference has the empty name and the
`{` and what follows are ordinary characters. -/
def var_ref_closed : CStr → CStr × CStr
  | '{' :: body =>
    if '}' ∈ body then
      (body.takeWhile (fun c => c ≠ '}'), (body.dropWhile (fun c => c ≠ '}')).drop 1)
    else ([], '{' :: body)
  | str => (str.takeWhile isnamechar, str.dropWhile isnamechar)

/-- Specification side. Cut a text into pieces, from left to right: every `$`
starts a reference read by `ref`, every other character is a literal. The first
argument bounds the number of pieces; the length of the text is enough. -/
def pieces (ref : CStr → CStr × CStr) : Nat → CStr → List Piece
  | 0, _ => []
  | _ + 1, [] => []
  | n + 1, c :: str =>
    if c = '$' then .var (ref str).1 :: pieces ref n (ref str).2
    else .lit c :: pieces ref n str

/-- Specification side. The text a piece stands for: the character itself, the
value of the variable, nothing when the variable is unset. -/
def Piece.render (getenv : CStr → Option CStr) : Piece → CStr
  | .lit c => [c]
  | .var name => (getenv name).getD []

/-- Specification side. The text with every reference replaced by its value;
values are put in after the text was cut, so they are not read again. -/
def expand_with (ref : CStr → CStr × CStr) (getenv : CStr → Option CStr) (text : CStr) : CStr :=
  ((pieces ref text.length text).map (Piece.render getenv)).flatten

/-- Specification side. Substitution as `substenv` is meant to perform it. -/
def expand (getenv : CStr → Option CStr) (text : CStr) : CStr := expand_with var_ref getenv text

/-- An environment with two variables: `X` has the value `$Y` and `Y` the value `z`. -/
def nestedEnv : CStr → Option CStr :=
  fun name =>
    if name = ['X'] then some ['$', 'Y'] else if name = ['Y'] then some ['z'] else none

/-! ## Shapes of lines and of normalised text -/

/-- The operators that join two commands of a line: `;`, `|`, `&&`, `||`. -/
inductive Joint
  | semi
  | pipe
  | and_then
  | or_else
  deriving DecidableEq, Repr

/-- The tokens of a joining operator. -/
def Joint.tokens : Joint → List CStr
  | .semi => [[';']]
  | .pipe => [['|']]
  | .and_then => [['&'], ['&']]
  | .or_else => [['|'], ['|']]

/-- The token sequence of a first group of words followed by pairs of a joining
operator and a further group. -/
def join_mixed : List CStr → List (Joint × List CStr) → List CStr
  | g, [] => g
  | g, (j, g1) :: more => g ++ (j.tokens ++ join_mixed g1 more)

/-- The operator characters given to `separate_s` by `parse_command_line`. -/
abbrev opchars : CStr := [';', '|', '&', '<', '>', '!']

/-- Every operator character of the text stands alone: the character before it
is a space, or it is the first one and `b` holds (`b` tells whether the text
follows a space or starts the line); after it comes a space or the end. -/
def Isolated : Bool → CStr → Prop
  | _, [] => True
  | b, c :: t =>
    if c ∈ opchars then b = true ∧ (t = [] ∨ t.head? = some ' ') ∧ Isolated false t
    else Isolated (decide (c = ' ')) t

/-- A token is an operator character alone or holds no operator character. -/
def GoodToken (tok : CStr) : Prop := ∀ c ∈ tok, c ∈ opchars → tok = [c]

/-- An environment whose only variable is `X`, with the value `a;b`. -/
def opEnv : CStr → Option CStr :=
  fun name => if name = ['X'] then some ['a', ';', 'b'] else none

/-- An environment whose only variable is `X`, with the value `a b`. -/
def wordEnv : CStr → Option CStr :=
  fun name => if name = ['X'] then some ['a', ' ', 'b'] else none

/-- A text whose only white space is the space character, never two in a row;
`b` tells whether the text follows a space. -/
def Loose : Bool → CStr → Prop
  | _, [] => True
  | b, c :: t =>
    if c = ' ' then b = false ∧ Loose true t else isspace c = false ∧ Loose false t

/-- The last character of the text, if any, is no white space. -/
def LastOk (t : CStr) : Prop := ∀ c, t.getLast? = some c → isspace c = false

/-- The shape of a text left by `clean`: words separated by single spaces, no
white space at either end. -/
def Tidy (t : CStr) : Prop :=
  Loose false t ∧ (∀ c, t.head? = some c → isspace c = false) ∧ LastOk t

/-- The loop state in which the planner starts on the token list `tokens` of a
line planned from an initialised command line (after the first `add_processus`). -/
def planStart (L : Limits) (tokens : List CStr) : PlanState :=
  { cmdl := (add_processus L { init_command_line L with tokens := tokens } .UNCONDITIONAL).2,
    calls := 0, rest := tokens, argv_index := 0, current_proc := some 0 }

/-- Every command node of the line refers back to the flow node of its own index. -/
def CfInv (c : command_line_t) : Prop := ∀ j, j < c.num_commands → (c.commands j).cf = some j

/-- The back references are in place after one planner iteration. -/
def CfOk : PlanStep → Prop :=
  PlanStep.Holds (fun s1 => CfInv s1.cmdl) (fun r => CfInv r.cmdl)

/-- The descriptors a call of `launch_processus` closed in the shell process
(none when the shell ended in the call). -/
def LaunchResult.closed_fds : LaunchResult → List Int
  | .returned _ _ closed => closed
  | .exited => []

/-- Specification side. The maximal runs of characters that are no separator,
in order of appearance: the text is split at every character for which `sep`
holds and the empty pieces are dropped. -/
def runs (sep : Char → Bool) (str : CStr) : List CStr :=
  (str.splitOnP sep).filter (fun w => !w.isEmpty)

/-- The runs of `str` when the characters of `acc` (reversed) stand before it
as the beginning of its first run. -/
def runs_from (sep : Char → Bool) (str acc : CStr) : List CStr :=
  (List.splitOnP.go sep str acc).filter (fun w => !w.isEmpty)

/-! # Theorems

## Executor lemmas -/

theorem launch_external (os : ExecOS) (n : Nat) (p : processus_t)
    (hb : is_builtin p = false) (hf : 0 ≤ os.fork n p) :
    launch_processus os n p =
      .returned 0
        (apply_invert { p with pid := os.fork n p,
                               status := wait_status os n { p with pid := os.fork n p } })
        (close_assigned p) := by
  unfold launch_processus
  simp [hb, not_lt.mpr hf, close_assigned]

theorem wait_status_exited (os : ExecOS) (n : Nat) (p : processus_t) (w : Nat)
    (hbg : p.is_background = false) (hw : os.waitpid n p = some w)
    (he : WIFEXITED w = true) : wait_status os n p = (WEXITSTATUS w : Int) := by
  simp [wait_status, hbg, hw, he]

theorem flow_loop_launch (L : Limits) (os : ExecOS) (n cur i : Nat) (st : ExecState)
    (proc : processus_t) (closed : List Int)
    (hp : (st.cmdl.flow cur).proc = some i)
    (hl : launch_processus os st.trace.length (st.cmdl.commands i) = .returned 0 proc closed) :
    flow_loop L os (n + 1) (some cur) st =
      flow_loop L os n (next_flow (st.cmdl.flow cur) proc.status)
        { cmdl := { st.cmdl with commands := Function.update st.cmdl.commands i proc },
          last_status := proc.status,
          trace := st.trace ++ [{ idx := i, status := some proc.status }],
          closed := st.closed ++ closed } := by
  simp [flow_loop, hp, hl]

theorem flow_loop_none (L : Limits) (os : ExecOS) (n : Nat) (st : ExecState) :
    flow_loop L os n none st = finish_line L st := by
  cases n <;> rfl

/-- C1 (counterexample): on the line `false && echo nope || echo ok`, with `false`
exiting with status 1 and `echo` with status 0, planning succeeds, nodes 1 and 2
are `echo nope` and `echo ok`, the line runs to its end, and yet node 2
(`echo ok`) is not launched and `last_status` is not 0. -/
theorem C1_counterexample :
    (demoParse "false && echo nope || echo ok").ret = some 0 ∧
    ((demoParse "false && echo nope || echo ok").cmdl.commands 1).argv
      = ["echo".toList, "nope".toList] ∧
    ((demoParse "false && echo nope || echo ok").cmdl.commands 2).argv
      = ["echo".toList, "ok".toList] ∧
    (demoRun "false && echo nope || echo ok").ending = .returned 0 ∧
    ¬ launched (demoRun "false && echo nope || echo ok") 2 ∧
    (demoRun "false && echo nope || echo ok").st.last_status ≠ 0 := by
  decide

theorem flow_loop_last_status (L : Limits) (os : ExecOS) :
    ∀ (n : Nat) (cur : Option Nat) (st : ExecState),
      (∀ i s, st.trace.getLast? = some { idx := i, status := some s } → st.last_status = s) →
      ∀ i s, (flow_loop L os n cur st).st.trace.getLast? = some { idx := i, status := some s } →
        (flow_loop L os n cur st).st.last_status = s := by
  intro n
  induction n with
  | zero =>
    intro cur st hst i s h
    cases cur with
    | none => exact hst i s (by simpa [flow_loop, finish_line] using h)
    | some c => exact hst i s (by simpa [flow_loop] using h)
  | succ n ih =>
    intro cur st hst i s h
    cases cur with
    | none => exact hst i s (by simpa [flow_loop, finish_line] using h)
    | some c =>
      unfold flow_loop at h ⊢
      cases hp : (st.cmdl.flow c).proc with
      | none =>
        simp only [hp] at h ⊢
        exact hst i s (by simpa [finish_line] using h)
      | some k =>
        simp only [hp] at h ⊢
        cases hl : launch_processus os st.trace.length (st.cmdl.commands k) with
        | exited =>
          simp [hl] at h
        | returned code proc closed =>
          simp only [hl] at h ⊢
          by_cases hc : code = 0
          · simp only [hc, ne_eq, not_true_eq_false, if_false] at h ⊢
            refine ih _ _ ?_ i s h
            intro i' s' h'
            simp at h'
            exact h'.2
          · simp [hc, finish_line] at h

theorem flow_loop_trace_prefix (L : Limits) (os : ExecOS) :
    ∀ (n : Nat) (cur : Option Nat) (st : ExecState),
      st.trace <+: (flow_loop L os n cur st).st.trace := by
  intro n
  induction n with
  | zero =>
    intro cur st
    cases cur <;> simp [flow_loop, finish_line]
  | succ n ih =>
    intro cur st
    cases cur with
    | none => simp [flow_loop, finish_line]
    | some c =>
      unfold flow_loop
      cases hp : (st.cmdl.flow c).proc with
      | none => simp [finish_line]
      | some k =>
        simp only []
        cases hl : launch_processus os st.trace.length (st.cmdl.commands k) with
        | exited => simp
        | returned code proc closed =>
          simp only []
          by_cases hc : code = 0
          · simp only [hc, ne_eq, not_true_eq_false, if_false]
            exact (List.prefix_append st.trace [{ idx := k, status := some proc.status }]).trans
              (ih _ { cmdl := _, last_status := _, trace := _, closed := _ })
          · simp [hc, finish_line]

theorem flow_loop_launches_current (L : Limits) (os : ExecOS) (n cur i : Nat) (st : ExecState)
    (hp : (st.cmdl.flow cur).proc = some i) :
    ((flow_loop L os (n + 1) (some cur) st).st.trace.get? st.trace.length).map LaunchRec.idx
      = some i := by
  unfold flow_loop
  simp only [hp]
  cases hl : launch_processus os st.trace.length (st.cmdl.commands i) with
  | exited => simp
  | returned code proc closed =>
    simp only []
    by_cases hc : code = 0
    · simp only [hc, ne_eq, not_true_eq_false, if_false]
      obtain ⟨t, ht⟩ := flow_loop_trace_prefix L os n
        (next_flow (st.cmdl.flow cur) proc.status)
        { cmdl := { st.cmdl with commands := Function.update st.cmdl.commands i proc },
          last_status := proc.status,
          trace := st.trace ++ [{ idx := i, status := some proc.status }],
          closed := st.closed ++ closed }
      rw [← ht]
      simp [List.getElem_append_right]
    · simp [hc, finish_line]

/-- C2: one iteration of the loop of `launch_command_line`. After the current
node was launched with status `s`, the loop goes on with the link `chosen`:
`on_success_next` if `s = 0` and that link is set, `on_failure_next` if `s ≠ 0`
and that link is set, otherwise `unconditionnal_next`; `last_status` is `s`;
when `chosen` is absent the loop is left (only the final clean-up follows),
when it is present the next call of `launch_processus` is on its node; and at
the end of any run `last_status` is the status of the most recent launch. -/
theorem C2_next_flow_node (L : Limits) (os : ExecOS) (n cur i : Nat) (st : ExecState)
    (proc : processus_t) (closed : List Int)
    (hp : (st.cmdl.flow cur).proc = some i)
    (hl : launch_processus os st.trace.length (st.cmdl.commands i) = .returned 0 proc closed) :
    ∃ (chosen : Option Nat) (st1 : ExecState),
      chosen =
        (if proc.status = 0 ∧ (st.cmdl.flow cur).on_success_next ≠ none then
          (st.cmdl.flow cur).on_success_next
        else if proc.status ≠ 0 ∧ (st.cmdl.flow cur).on_failure_next ≠ none then
          (st.cmdl.flow cur).on_failure_next
        else (st.cmdl.flow cur).unconditionnal_next) ∧
      st1.last_status = proc.status ∧
      st1.trace = st.trace ++ [{ idx := i, status := some proc.status }] ∧
      st1.cmdl.flow = st.cmdl.flow ∧
      flow_loop L os (n + 1) (some cur) st = flow_loop L os n chosen st1 ∧
      (chosen = none → flow_loop L os (n + 1) (some cur) st = finish_line L st1) ∧
      (∀ k i1, chosen = some k → (st.cmdl.flow k).proc = some i1 → 1 ≤ n →
        ((flow_loop L os (n + 1) (some cur) st).st.trace.get? (st.trace.length + 1)).map
          LaunchRec.idx = some i1) ∧
      (∀ fuel cmdl last_status j s,
        (launch_command_line L os fuel cmdl last_status).st.trace.getLast?
            = some { idx := j, status := some s } →
        (launch_command_line L os fuel cmdl last_status).st.last_status = s) := by
  have hnext : next_flow (st.cmdl.flow cur) proc.status =
      (if proc.status = 0 ∧ (st.cmdl.flow cur).on_success_next ≠ none then
          (st.cmdl.flow cur).on_success_next
        else if proc.status ≠ 0 ∧ (st.cmdl.flow cur).on_failure_next ≠ none then
          (st.cmdl.flow cur).on_failure_next
        else (st.cmdl.flow cur).unconditionnal_next) := by
    unfold next_flow
    by_cases h0 : proc.status = 0 <;> simp [h0]
  have hstep := flow_loop_launch L os n cur i st proc closed hp hl
  rw [hnext] at hstep
  refine ⟨_, { cmdl := { st.cmdl with commands := Function.update st.cmdl.commands i proc },
               last_status := proc.status,
               trace := st.trace ++ [{ idx := i, status := some proc.status }],
               closed := st.closed ++ closed }, rfl, rfl, rfl, rfl, hstep, ?_, ?_, ?_⟩
  · intro hnone
    rw [hstep, hnone, flow_loop_none]
  · intro k i1 hk hp1 hn
    obtain ⟨m, rfl⟩ : ∃ m, n = m + 1 := ⟨n - 1, by omega⟩
    rw [hstep, hk]
    have := flow_loop_launches_current L os m k i1
      { cmdl := { st.cmdl with commands := Function.update st.cmdl.commands i proc },
        last_status := proc.status,
        trace := st.trace ++ [{ idx := i, status := some proc.status }],
        closed := st.closed ++ closed } hp1
    simpa using this
  · intro fuel cmdl last_status j s h
    unfold launch_command_line at h ⊢
    by_cases hz : cmdl.num_commands = 0
    · simp [hz] at h
    · simp only [hz, if_false] at h ⊢
      exact flow_loop_last_status L os fuel (some 0) _ (by simp) j s h



theorem wait_status_background (os : ExecOS) (n : Nat) (p : processus_t)
    (hbg : p.is_background = true) : wait_status os n p = 0 := by
  simp [wait_status, hbg]

theorem wait_status_failed (os : ExecOS) (n : Nat) (p : processus_t)
    (hbg : p.is_background = false) (hw : os.waitpid n p = none) : wait_status os n p = 1 := by
  simp [wait_status, hbg, hw]

theorem wait_status_signaled (os : ExecOS) (n : Nat) (p : processus_t) (w : Nat)
    (hbg : p.is_background = false) (hw : os.waitpid n p = some w)
    (he : WIFEXITED w = false) : wait_status os n p = 1 := by
  simp [wait_status, hbg, hw, he]

theorem wait_status_range (os : ExecOS) (n : Nat) (p : processus_t) :
    0 ≤ wait_status os n p ∧ wait_status os n p ≤ 255 := by
  unfold wait_status
  split
  · split
    · exact ⟨by decide, by decide⟩
    · split
      · have : WEXITSTATUS ‹Nat› < 256 := Nat.mod_lt _ (by decide)
        constructor <;> omega
      · exact ⟨by decide, by decide⟩
  · exact ⟨by decide, by decide⟩

theorem exec_builtin_range (os : ExecOS) (n : Nat) (p : processus_t) (u : Int)
    (hb : is_builtin p = true) (hu : exec_builtin os n p = .code u) : u = 0 ∨ u = 1 := by
  unfold is_builtin at hb
  unfold exec_builtin at hu
  cases hh : p.argv.head? with
  | none => simp [hh] at hb
  | some name =>
    simp only [hh] at hb hu
    split_ifs at hu with h1 h2 h3 h4 h5
    · injection hu with hu; subst hu
      unfold builtin_cd; split
      · right; rfl
      · split <;> simp
    · injection hu with hu; subst hu
      unfold builtin_export; split
      · left; rfl
      · split_ifs <;> simp
    · injection hu with hu; subst hu
      unfold builtin_unset; split
      · right; rfl
      · split_ifs <;> simp
    · injection hu with hu; subst hu
      unfold builtin_pwd; split_ifs <;> simp
    · simp only [h1, h2, h3, h4, h5, decide_False, Bool.or_self, Bool.false_eq_true] at hb

theorem apply_invert_status (p : processus_t) :
    (apply_invert p).status = if p.invert then lnot p.status else p.status := by
  unfold apply_invert; split <;> simp_all

/-- C9: when `launch_processus` returns 0 the node's status lies in 0..255; and
when the invert flag is set it is 0 if the underlying status `u` (the built-in's
return code; for an external command 0 in background, 1 when `waitpid` fails or
the child did not exit normally, the exit code otherwise) is non-zero, and 1 if
`u` is zero. -/
theorem C9_status_range (os : ExecOS) (n : Nat) (proc proc1 : processus_t) (closed : List Int)
    (h : launch_processus os n proc = .returned 0 proc1 closed) :
    0 ≤ proc1.status ∧ proc1.status ≤ 255 ∧
    (proc.invert = true →
      (is_builtin proc = true →
        ∃ u, exec_builtin os n proc = .code u ∧
          (u ≠ 0 → proc1.status = 0) ∧ (u = 0 → proc1.status = 1)) ∧
      (is_builtin proc = false →
        ∃ u : Int,
          (proc.is_background = true → u = 0) ∧
          (proc.is_background = false →
            os.waitpid n { proc with pid := os.fork n proc } = none → u = 1) ∧
          (∀ w, proc.is_background = false →
            os.waitpid n { proc with pid := os.fork n proc } = some w →
            (WIFEXITED w = true → u = (WEXITSTATUS w : Int)) ∧ (WIFEXITED w = false → u = 1)) ∧
          (u ≠ 0 → proc1.status = 0) ∧ (u = 0 → proc1.status = 1))) := by
  unfold launch_processus at h
  by_cases hb : is_builtin proc = true
  · simp only [hb, if_true] at h
    cases hu : exec_builtin os n proc with
    | exits => simp [hu] at h
    | code u =>
      simp only [hu] at h
      injection h with _ hp _
      have hst : proc1.status = if proc.invert then lnot u else u := by
        rw [← hp, apply_invert_status]
      have hr := exec_builtin_range os n proc u hb hu
      refine ⟨?_, ?_, ?_⟩
      · rw [hst]; unfold lnot; split_ifs <;> rcases hr with rfl | rfl <;> simp_all
      · rw [hst]; unfold lnot; split_ifs <;> rcases hr with rfl | rfl <;> simp_all
      · intro hinv
        refine ⟨fun _ => ⟨u, rfl, ?_, ?_⟩, fun hnb => absurd hb (by simp [hnb])⟩
        · intro hne; rw [hst]; simp [hinv, lnot, hne]
        · intro he; rw [hst]; simp [hinv, lnot, he]
  · have hb' : is_builtin proc = false := by simpa using hb
    simp only [hb', Bool.false_eq_true, if_false] at h
    by_cases hf : os.fork n proc < 0
    · simp [hf] at h
    · simp only [hf, if_false] at h
      injection h with _ hp _
      have hst : proc1.status =
          if proc.invert then lnot (wait_status os n { proc with pid := os.fork n proc })
          else wait_status os n { proc with pid := os.fork n proc } := by
        rw [← hp, apply_invert_status]
      have hr := wait_status_range os n { proc with pid := os.fork n proc }
      refine ⟨?_, ?_, ?_⟩
      · rw [hst]; unfold lnot; split_ifs <;> omega
      · rw [hst]; unfold lnot; split_ifs <;> omega
      · intro hinv
        refine ⟨fun hbt => absurd hbt (by simp [hb']), fun _ =>
          ⟨wait_status os n { proc with pid := os.fork n proc }, ?_, ?_, ?_, ?_, ?_⟩⟩
        · intro hbg; exact wait_status_background os n _ hbg
        · intro hbg hw; exact wait_status_failed os n _ hbg hw
        · intro w hbg hw
          exact ⟨fun he => wait_status_exited os n _ w hbg hw he,
            fun he => wait_status_signaled os n _ w hbg hw he⟩
        · intro hne; rw [hst, if_pos hinv]; unfold lnot; rw [if_neg hne]
        · intro he; rw [hst, if_pos hinv, he]; rfl


/-- C2 (witness): the first iteration on the line `true ; false`. -/
theorem C2_next_flow_node_witness :
    ((demoState "true ; false").cmdl.flow 0).proc = some 0 ∧
    launch_processus demoExecOS 0 (demoNode "true ; false" 0)
      = .returned 0 { demoNode "true ; false" 0 with pid := 100 } [] ∧
    (flow_loop demoLimits demoExecOS 5 (some 0) (demoState "true ; false")).st.trace
      = [{ idx := 0, status := some 0 }, { idx := 1, status := some 1 }] ∧
    ∃ (chosen : Option Nat) (st1 : ExecState),
      chosen = some 1 ∧ st1.last_status = 0 ∧
      flow_loop demoLimits demoExecOS 5 (some 0) (demoState "true ; false")
        = flow_loop demoLimits demoExecOS 4 chosen st1 := by
  refine ⟨rfl, rfl, by decide, ?_⟩
  obtain ⟨chosen, st1, h1, h2, _, _, h5, _⟩ :=
    C2_next_flow_node demoLimits demoExecOS 4 0 0 (demoState "true ; false")
      { demoNode "true ; false" 0 with pid := 100 } [] rfl rfl
  exact ⟨chosen, st1, h1.trans (by decide), h2, h5⟩

/-- C9 (witness): launching the node of `! false`, whose child exits with 1. -/
theorem C9_status_range_witness :
    launch_processus demoExecOS 0 (demoNode "! false" 0)
      = .returned 0 { demoNode "! false" 0 with pid := 100, status := 0 } [] ∧
    (demoNode "! false" 0).invert = true ∧
    0 ≤ ({ demoNode "! false" 0 with pid := 100, status := 0 } : processus_t).status ∧
    ({ demoNode "! false" 0 with pid := 100, status := 0 } : processus_t).status ≤ 255 :=
  ⟨rfl, rfl,
    (C9_status_range demoExecOS 0 (demoNode "! false" 0)
      { demoNode "! false" 0 with pid := 100, status := 0 } [] rfl).1,
    (C9_status_range demoExecOS 0 (demoNode "! false" 0)
      { demoNode "! false" 0 with pid := 100, status := 0 } [] rfl).2.1⟩

/-- C7 (the code at the failing input): for `ls 2>&1` the planner stores the
current stdout assignment, the concrete descriptor 1, in the stderr assignment,
not the value -1 that `launch_processus` tests for; after `> out` it stores the
descriptor of `out` (3 here). The shell then closes descriptor 1 itself. -/
theorem C7_stderr_copies_stdout :
    (demoParse "ls 2>&1").ret = some 0 ∧
    (demoNode "ls 2>&1" 0).argv = ["ls".toList] ∧
    (demoNode "ls 2>&1" 0).stderr_fd = 1 ∧
    (demoNode "ls 2>&1" 0).stderr_fd ≠ -1 ∧
    (demoNode "ls > out 2>&1" 0).stdout_fd = 3 ∧
    (demoNode "ls > out 2>&1" 0).stderr_fd = 3 ∧
    (demoRun "ls 2>&1").st.closed = [1] := by
  decide

/-- C8 (the code at the failing input): on `true < missing && echo x`, where
`missing` cannot be opened, planning succeeds and presets status 1 on node 0,
but the launch overwrites it with the command's own status 0, so the successor
linked by `&&` is launched; on `true > missing && echo x` no status is preset
at all. -/
theorem C8_preset_status_is_overwritten :
    (demoParse "true < missing && echo x").ret = some 0 ∧
    (demoNode "true < missing && echo x" 0).status = 1 ∧
    ((demoParse "true < missing && echo x").cmdl.flow 0).on_success_next = some 1 ∧
    (demoRun "true < missing && echo x").st.trace
      = [{ idx := 0, status := some 0 }, { idx := 1, status := some 0 }] ∧
    ((demoRun "true < missing && echo x").st.cmdl.commands 0).status = 0 ∧
    launched (demoRun "true < missing && echo x") 1 ∧
    (demoParse "true > missing && echo x").ret = some 0 ∧
    (demoNode "true > missing && echo x" 0).status = 0 := by
  decide

/-! ## Planner lemmas -/

theorem SameSkel.refl (c : command_line_t) : SameSkel c c := ⟨rfl, rfl⟩

theorem SameSkel.trans {a b c : command_line_t} (h1 : SameSkel a b) (h2 : SameSkel b c) :
    SameSkel a c := ⟨h2.1.trans h1.1, h2.2.trans h1.2⟩

theorem add_fd_skel (L : Limits) (c : command_line_t) (fd : Int) :
    SameSkel c (add_fd L c fd).2 := by
  unfold add_fd
  split
  · exact SameSkel.refl c
  · split <;> exact ⟨rfl, rfl⟩

theorem close_fds_skel (L : Limits) (c : command_line_t) :
    SameSkel c (close_fds L c).2 := ⟨rfl, rfl⟩

theorem add_processus_full (L : Limits) (c : command_line_t) (mode : control_flow_mode_t)
    (h : L.MAX_CMDS ≤ c.num_commands) : add_processus L c mode = (none, c) := by
  unfold add_processus; simp [h]

theorem add_processus_skel (L : Limits) (c : command_line_t) (mode : control_flow_mode_t) :
    SkelStep L c (add_processus L c mode).2 := by
  by_cases h : L.MAX_CMDS ≤ c.num_commands
  · rw [add_processus_full L c mode h]; exact Or.inl (SameSkel.refl c)
  · exact Or.inr ⟨mode, c, SameSkel.refl c, by omega, SameSkel.refl _⟩

theorem SkelStep.of_same_left {L : Limits} {a b c : command_line_t}
    (h1 : SameSkel a b) (h2 : SkelStep L b c) : SkelStep L a c := by
  rcases h2 with h | ⟨mode, c0, h0, hlt, h3⟩
  · exact Or.inl (h1.trans h)
  · exact Or.inr ⟨mode, c0, h1.trans h0, hlt, h3⟩

theorem SkelStep.of_same_right {L : Limits} {a b c : command_line_t}
    (h1 : SkelStep L a b) (h2 : SameSkel b c) : SkelStep L a c := by
  rcases h1 with h | ⟨mode, c0, h0, hlt, h3⟩
  · exact Or.inl (h.trans h2)
  · exact Or.inr ⟨mode, c0, h0, hlt, h3.trans h2⟩

theorem Same.near {L : Limits} {s s1 : PlanState} (h : Same s s1) : Near L s s1 :=
  ⟨Or.inl h.1, h.2⟩

theorem leave_ok {L : Limits} {s s1 : PlanState} (code : Int) (h : Near L s s1) :
    StepOk L s (s1.leave code) := h.1

theorem advance_ok {L : Limits} {s s1 : PlanState} (k : Nat) (h : Near L s s1) (hk : 1 ≤ k) :
    StepOk L s (s1.advance k) := ⟨h.1, k, hk, by rw [← h.2]⟩

theorem write_same {L : Limits} {s s1 : PlanState} (f : processus_t → processus_t)
    (k : PlanState → PlanStep) (h : Same s s1)
    (hk : ∀ s2, Same s s2 → s2.current_proc = s1.current_proc → s2.argv_index = s1.argv_index →
      s2.calls = s1.calls → StepOk L s (k s2)) :
    StepOk L s (s1.write f k) := by
  unfold PlanState.write
  split
  · exact Or.inl h.1
  · exact hk _ ⟨⟨h.1.1, h.1.2⟩, h.2⟩ rfl rfl rfl

theorem write_near {L : Limits} {s s1 : PlanState} (f : processus_t → processus_t)
    (k : PlanState → PlanStep) (h : Near L s s1)
    (hk : ∀ s2, Near L s s2 → StepOk L s (k s2)) :
    StepOk L s (s1.write f k) := by
  unfold PlanState.write
  split
  · exact h.1
  · exact hk _ ⟨SkelStep.of_same_right h.1 ⟨rfl, rfl⟩, h.2⟩

theorem register_same {L : Limits} {s s1 : PlanState} (fd : Int) (h : Same s s1) :
    Same s (s1.register L fd) :=
  ⟨h.1.trans (add_fd_skel L s1.cmdl fd), h.2⟩

theorem register_near {L : Limits} {s s1 : PlanState} (fd : Int) (h : Near L s s1) :
    Near L s (s1.register L fd) :=
  ⟨SkelStep.of_same_right h.1 (add_fd_skel L s1.cmdl fd), h.2⟩

theorem new_proc_near {L : Limits} {s s1 : PlanState} (mode : control_flow_mode_t)
    (h : Same s s1) : Near L s (s1.new_proc L mode) :=
  ⟨SkelStep.of_same_left h.1 (add_processus_skel L s1.cmdl mode), h.2⟩

theorem Same.self (s : PlanState) : Same s s := ⟨SameSkel.refl _, rfl⟩

theorem plan_argument_ok (L : Limits) (s : PlanState) (token : CStr) :
    StepOk L s (plan_argument L s token) := by
  unfold plan_argument
  split
  · exact write_same _ _ (Same.self s) (fun s2 h2 _ _ _ => advance_ok 1 (Same.near ⟨h2.1, h2.2⟩) le_rfl)
  · exact leave_ok _ (Same.self s).near

theorem plan_stdout_ok (L : Limits) (os : PlanOS) (s : PlanState) (flags : OpenFlags) (f : Nat) :
    StepOk L s (plan_stdout L os s flags f) := by
  unfold plan_stdout
  split
  · exact leave_ok _ (Same.self s).near
  · simp only []
    split
    · exact advance_ok _ (Same.near ⟨SameSkel.refl _, rfl⟩) (by omega)
    · exact write_same _ _ ⟨SameSkel.refl _, rfl⟩
        (fun s2 h2 _ _ _ => advance_ok _ (register_same _ h2).near (by omega))

theorem plan_stderr_ok (L : Limits) (os : PlanOS) (s : PlanState) (flags : OpenFlags) (f : Nat) :
    StepOk L s (plan_stderr L os s flags f) := by
  unfold plan_stderr
  split
  · exact leave_ok _ (Same.self s).near
  · split
    · exact write_same _ _ (Same.self s) (fun s2 h2 _ _ _ => advance_ok _ h2.near (by omega))
    · simp only []
      split
      · exact write_same _ _ ⟨SameSkel.refl _, rfl⟩
          (fun s2 h2 _ _ _ => advance_ok _ (register_same _ h2).near (by omega))
      · exact advance_ok _ (Same.near ⟨SameSkel.refl _, rfl⟩) (by omega)

theorem plan_step_ok (L : Limits) (os : PlanOS) (s : PlanState) (token : CStr) :
    StepOk L s (plan_step L os s token) := by
  unfold plan_step
  simp only []
  split_ifs
  all_goals first
    | exact plan_stdout_ok L os s _ _
    | exact plan_stderr_ok L os s _ _
    | exact plan_argument_ok L s token
    | exact advance_ok _ (new_proc_near _ (Same.self s)) (by omega)
    | exact advance_ok _ (Same.self s).near (by omega)
    | exact write_same _ _ (Same.self s) (fun s2 h2 _ _ _ => advance_ok _ h2.near (by omega))
    | exact write_same _ _ (Same.self s)
        (fun s2 h2 _ _ _ => advance_ok _ (new_proc_near _ h2) (by omega))
    | skip
  · split
    · exact Or.inl (close_fds_skel L s.cmdl)
    · refine write_same _ _ ⟨SameSkel.refl _, rfl⟩ (fun s2 h2 _ _ _ => ?_)
      split
      · exact leave_ok _ (new_proc_near _ (register_same _ h2))
      · exact write_near _ _ (new_proc_near _ (register_same _ h2))
          (fun s3 h3 => advance_ok _ (register_near _ h3) le_rfl)
  · split
    · exact leave_ok _ (Same.self s).near
    · split
      · exact write_same _ _ ⟨SameSkel.refl _, rfl⟩
          (fun s2 h2 _ _ _ => advance_ok _ h2.near (by omega))
      · exact write_same _ _ ⟨SameSkel.refl _, rfl⟩
          (fun s2 h2 _ _ _ => advance_ok _ (register_same _ h2).near (by omega))

theorem FlowInv.of_same {c c1 : command_line_t} (h : SameSkel c c1) (hc : FlowInv c) :
    FlowInv c1 := by
  intro j
  rw [h.1, h.2]
  exact hc j

theorem set_link_one (cf : control_flow_t) (mode : control_flow_mode_t) (t : Nat)
    (h : no_link cf) : one_link (set_link cf mode t) t := by
  obtain ⟨h1, h2, h3⟩ := h
  cases mode
  · exact Or.inl ⟨rfl, h2, h3⟩
  · exact Or.inr (Or.inl ⟨h1, rfl, h3⟩)
  · exact Or.inr (Or.inr ⟨h1, h2, rfl⟩)

theorem set_link_proc (cf : control_flow_t) (mode : control_flow_mode_t) (t : Nat) :
    (set_link cf mode t).proc = cf.proc := by
  cases mode <;> rfl

theorem add_processus_num (L : Limits) (c : command_line_t) (mode : control_flow_mode_t)
    (h : c.num_commands < L.MAX_CMDS) :
    (add_processus L c mode).2.num_commands = c.num_commands + 1 := by
  unfold add_processus
  simp [not_le.mpr h]

theorem add_processus_flow (L : Limits) (c : command_line_t) (mode : control_flow_mode_t)
    (h : c.num_commands < L.MAX_CMDS) (j : Nat) :
    (add_processus L c mode).2.flow j =
      if j = c.num_commands then
        { init_control_flow with proc := some c.num_commands, cmdl := true }
      else if j + 1 = c.num_commands then set_link (c.flow j) mode c.num_commands
      else c.flow j := by
  unfold add_processus
  simp only [ge_iff_le, not_le.mpr h, if_false]
  by_cases hj : j = c.num_commands
  · subst hj
    by_cases h0 : c.num_commands > 0
    · simp [h0, Function.update, show ¬ c.num_commands = c.num_commands - 1 by omega]
    · simp [h0]
  · by_cases hj1 : j + 1 = c.num_commands
    · have h0 : c.num_commands > 0 := by omega
      have hj2 : j = c.num_commands - 1 := by omega
      subst hj2
      simp [h0, Function.update, show ¬ c.num_commands - 1 = c.num_commands by omega,
        show c.num_commands - 1 + 1 = c.num_commands by omega]
    · by_cases h0 : c.num_commands > 0
      · simp [h0, hj, hj1, Function.update, show ¬ j = c.num_commands - 1 by omega]
      · simp [h0, hj, hj1, Function.update]

theorem FlowInv.add {L : Limits} {c : command_line_t} (mode : control_flow_mode_t)
    (h : c.num_commands < L.MAX_CMDS) (hc : FlowInv c) :
    FlowInv (add_processus L c mode).2 := by
  intro j
  rw [add_processus_num L c mode h, add_processus_flow L c mode h j]
  obtain ⟨hp, h1, h0⟩ := hc j
  refine ⟨fun hj => ?_, fun hj => ?_, fun hj => ?_⟩
  · by_cases e : j = c.num_commands
    · simp [e]
    · simp only [e, if_false]
      split
      · rw [set_link_proc]; exact hp (by omega)
      · exact hp (by omega)
  · have e : ¬ j = c.num_commands := by omega
    simp only [e, if_false]
    split
    · rename_i e1
      rw [← e1]
      exact set_link_one _ _ _ (h0 e1)
    · exact h1 (by omega)
  · have e : j = c.num_commands := by omega
    simp only [e, if_true]
    exact ⟨rfl, rfl, rfl⟩

theorem FlowInv.step {L : Limits} {c c1 : command_line_t} (h : SkelStep L c c1)
    (hc : FlowInv c) : FlowInv c1 := by
  rcases h with h | ⟨mode, c0, h0, hlt, h1⟩
  · exact hc.of_same h
  · exact ((hc.of_same h0).add mode hlt).of_same h1

theorem plan_loop_inv (L : Limits) (os : PlanOS) (P : command_line_t → Prop)
    (hP : ∀ c c1, SkelStep L c c1 → P c → P c1) :
    ∀ (n : Nat) (s : PlanState), P s.cmdl → P (plan_loop L os n s).cmdl := by
  intro n
  induction n with
  | zero => intro s hs; exact hs
  | succ n ih =>
    intro s hs
    unfold plan_loop
    split
    · exact hs
    · rename_i token tl hrest
      have hok := plan_step_ok L os s token
      cases hstep : plan_step L os s token with
      | stop r =>
        rw [hstep] at hok
        exact hP _ _ hok hs
      | next s1 =>
        rw [hstep] at hok
        exact ih s1 (hP _ _ hok.1 hs)

theorem plan_inv (L : Limits) (os : PlanOS) (P : command_line_t → Prop)
    (hP : ∀ c c1, SkelStep L c c1 → P c → P c1) (c : command_line_t) (tokens : List CStr)
    (hc : P c) : P (plan L os c tokens).cmdl := by
  have hc1 : P { c with tokens := tokens } := hP c _ (Or.inl ⟨rfl, rfl⟩) hc
  unfold plan
  cases tokens with
  | nil => exact hc1
  | cons t ts =>
    simp only []
    have h2 := hP _ _ (add_processus_skel L { c with tokens := t :: ts } .UNCONDITIONAL) hc1
    split
    · exact h2
    · exact plan_loop_inv L os P hP _ _ h2

theorem parse_inv (L : Limits) (os : PlanOS) (getenv : CStr → Option CStr)
    (P : command_line_t → Prop) (hP : ∀ c c1, SkelStep L c c1 → P c → P c1)
    (c : command_line_t) (line : CStr) (hc : P c) :
    P (parse_command_line L os getenv c line).cmdl := by
  unfold parse_command_line
  simp only []
  split
  · exact hP c _ (Or.inl ⟨rfl, rfl⟩) hc
  · split
    · exact hP c _ (Or.inl ⟨rfl, rfl⟩) hc
    · exact plan_inv L os P hP _ _ (hP c _ (Or.inl ⟨rfl, rfl⟩) hc)

theorem init_flow_inv (L : Limits) : FlowInv (init_command_line L) := by
  intro j
  refine ⟨fun h => absurd h (Nat.not_lt_zero _), fun h => absurd h (Nat.not_lt_zero _), fun h => ?_⟩
  exact absurd h (by simp [init_command_line])

theorem parse_flow_inv (L : Limits) (os : PlanOS) (getenv : CStr → Option CStr) (line : CStr) :
    FlowInv (parse_command_line L os getenv (init_command_line L) line).cmdl :=
  parse_inv L os getenv FlowInv (fun _ _ h hc => hc.step h) _ line (init_flow_inv L)

theorem next_flow_inv {c : command_line_t} (hinv : FlowInv c) (j : Nat) (s : Int)
    (hj : j < c.num_commands) :
    next_flow (c.flow j) s = none ∨
      (next_flow (c.flow j) s = some (j + 1) ∧ j + 1 < c.num_commands) := by
  obtain ⟨_, h1, h0⟩ := hinv j
  by_cases hlt : j + 1 < c.num_commands
  · rcases h1 hlt with ⟨a, b, d⟩ | ⟨a, b, d⟩ | ⟨a, b, d⟩ <;>
      unfold next_flow <;> by_cases hs : s = 0 <;> simp [a, b, d, hs, hlt]
  · obtain ⟨a, b, d⟩ := h0 (by omega)
    left
    unfold next_flow
    by_cases hs : s = 0 <;> simp [a, b, d, hs]

theorem trace_end_props (c : command_line_t) (tr : List LaunchRec) (j : Nat) (x : Option Int)
    (htr : ∀ e ∈ tr, e.idx < j)
    (hx : ∀ s, x = some s → next_flow (c.flow j) s ≠ some (j + 1)) :
    (∀ e ∈ tr ++ [{ idx := j, status := x }], e ∈ tr ∨ j ≤ e.idx) ∧
    (∀ i, j ≤ i →
      ((∃ e ∈ tr ++ [{ idx := j, status := x }], e.idx = i + 1) ↔
        ∃ s, ({ idx := i, status := some s } : LaunchRec) ∈ tr ++ [{ idx := j, status := x }] ∧
          next_flow (c.flow i) s = some (i + 1))) := by
  constructor
  · intro e he
    rcases List.mem_append.mp he with h | h
    · exact Or.inl h
    · right
      rw [List.mem_singleton.mp h]
  · intro i hi
    constructor
    · rintro ⟨e, he, hidx⟩
      exfalso
      rcases List.mem_append.mp he with h | h
      · have := htr e h; omega
      · rw [List.mem_singleton.mp h] at hidx
        simp at hidx; omega
    · rintro ⟨s, hs, hn⟩
      exfalso
      rcases List.mem_append.mp hs with h | h
      · have := htr _ h; simp at this; omega
      · have h' := List.mem_singleton.mp h
        injection h' with h1 h2
        subst h1
        exact hx s h2.symm hn

theorem flow_walk (L : Limits) (os : ExecOS) (c : command_line_t) (hinv : FlowInv c) :
    ∀ (fuel j : Nat) (st : ExecState), st.cmdl.flow = c.flow → j < c.num_commands →
      c.num_commands ≤ j + fuel → (∀ e ∈ st.trace, e.idx < j) →
      (∀ e ∈ (flow_loop L os fuel (some j) st).st.trace, e ∈ st.trace ∨ j ≤ e.idx) ∧
      (∀ i, j ≤ i →
        ((∃ e ∈ (flow_loop L os fuel (some j) st).st.trace, e.idx = i + 1) ↔
          ∃ s, ({ idx := i, status := some s } : LaunchRec)
              ∈ (flow_loop L os fuel (some j) st).st.trace ∧
            next_flow (c.flow i) s = some (i + 1))) := by
  intro fuel
  induction fuel with
  | zero => intro j st _ hj hfuel _; omega
  | succ n ih =>
    intro j st hflow hj hfuel htr
    have hproc : (st.cmdl.flow j).proc = some j := by rw [hflow]; exact (hinv j).1 hj
    unfold flow_loop
    simp only [hproc]
    cases hl : launch_processus os st.trace.length (st.cmdl.commands j) with
    | exited =>
      simp only []
      exact trace_end_props c st.trace j none htr (by simp)
    | returned code proc closed =>
      simp only []
      by_cases hc : code = 0
      · simp only [hc, ne_eq, not_true_eq_false, if_false]
        have hnf : next_flow (st.cmdl.flow j) proc.status = next_flow (c.flow j) proc.status := by
          rw [hflow]
        rw [hnf]
        rcases next_flow_inv hinv j proc.status hj with hnone | ⟨hsome, hlt⟩
        · rw [hnone, flow_loop_none]
          simp only [finish_line]
          exact trace_end_props c st.trace j (some proc.status) htr
            (by intro s hs; injection hs with hs; subst hs; rw [hnone]; simp)
        · rw [hsome]
          obtain ⟨m, rfl⟩ : ∃ m, n = m + 1 := ⟨n - 1, by omega⟩
          have hst1 : ∀ e ∈ st.trace ++ [({ idx := j, status := some proc.status } : LaunchRec)],
              e.idx < j + 1 := by
            intro e he
            rcases List.mem_append.mp he with h | h
            · have := htr e h; omega
            · rw [List.mem_singleton.mp h]; simp
          have hih := ih (j + 1)
            { cmdl := { st.cmdl with commands := Function.update st.cmdl.commands j proc },
              last_status := proc.status,
              trace := st.trace ++ [{ idx := j, status := some proc.status }],
              closed := st.closed ++ closed } hflow hlt (by omega) hst1
          have hpre := flow_loop_trace_prefix L os (m + 1) (some (j + 1))
            { cmdl := { st.cmdl with commands := Function.update st.cmdl.commands j proc },
              last_status := proc.status,
              trace := st.trace ++ [{ idx := j, status := some proc.status }],
              closed := st.closed ++ closed }
          have hcur := flow_loop_launches_current L os m (j + 1) (j + 1)
            { cmdl := { st.cmdl with commands := Function.update st.cmdl.commands j proc },
              last_status := proc.status,
              trace := st.trace ++ [{ idx := j, status := some proc.status }],
              closed := st.closed ++ closed }
            (by show (st.cmdl.flow (j + 1)).proc = some (j + 1)
                rw [hflow]; exact (hinv (j + 1)).1 hlt)
          refine ⟨fun e he => ?_, fun i hi => ?_⟩
          · rcases hih.1 e he with h | h
            · rcases List.mem_append.mp h with h | h
              · exact Or.inl h
              · right; rw [List.mem_singleton.mp h]
            · right; omega
          · by_cases hij : i = j
            · subst hij
              constructor
              · intro _
                exact ⟨proc.status, hpre.subset (by simp), hsome⟩
              · intro _
                rcases hg : (flow_loop L os (m + 1) (some (i + 1))
                    { cmdl := { st.cmdl with commands := Function.update st.cmdl.commands i proc },
                      last_status := proc.status,
                      trace := st.trace ++ [{ idx := i, status := some proc.status }],
                      closed := st.closed ++ closed }).st.trace.get?
                    (st.trace ++ [({ idx := i, status := some proc.status } : LaunchRec)]).length
                  with _ | e
                · rw [hg] at hcur; simp at hcur
                · rw [hg] at hcur
                  simp at hcur
                  exact ⟨e, List.get?_mem hg, hcur⟩
            · exact hih.2 i (by omega)
      · simp only [hc, ne_eq, not_false_eq_true, if_true, finish_line]
        exact trace_end_props c st.trace j none htr (by simp)

theorem SkelStep.frozen {L : Limits} {c c1 : command_line_t} (h : SkelStep L c c1) (i : Nat)
    (hi : i + 1 < c.num_commands) : c1.flow i = c.flow i ∧ i + 1 < c1.num_commands := by
  rcases h with h | ⟨mode, c0, h0, hlt, h1⟩
  · rw [h.1, h.2]; exact ⟨rfl, hi⟩
  · rw [h1.1, h1.2, add_processus_num L c0 mode hlt, add_processus_flow L c0 mode hlt, h0.2, h0.1]
    have e1 : ¬ i = c.num_commands := by omega
    have e2 : ¬ i + 1 = c.num_commands := by omega
    simp only [e1, e2, if_false, true_and]
    omega

theorem plan_loop_frozen (L : Limits) (os : PlanOS) (n : Nat) (s : PlanState) (i : Nat)
    (hi : i + 1 < s.cmdl.num_commands) :
    (plan_loop L os n s).cmdl.flow i = s.cmdl.flow i ∧
      i + 1 < (plan_loop L os n s).cmdl.num_commands :=
  plan_loop_inv L os (fun c => c.flow i = s.cmdl.flow i ∧ i + 1 < c.num_commands)
    (fun c c1 h hc => by
      obtain ⟨e, lt⟩ := h.frozen i hc.2
      exact ⟨e.trans hc.1, lt⟩) n s (by exact ⟨rfl, hi⟩)

theorem plan_loop_after_pair (L : Limits) (os : PlanOS) (n : Nat) (s : PlanState)
    (op t : CStr) (tl : List CStr) (mode : control_flow_mode_t) (i : Nat)
    (hop : (op = ['&'] ∧ mode = .ON_SUCCESS) ∨ (op = ['|'] ∧ mode = .ON_FAILURE))
    (hrest : s.rest = op :: op :: t :: tl) (hnum : s.cmdl.num_commands = i + 1)
    (hcap : i + 1 < L.MAX_CMDS) :
    (plan_loop L os (n + 1) s).cmdl.flow i = set_link (s.cmdl.flow i) mode (i + 1) ∧
      i + 1 < (plan_loop L os (n + 1) s).cmdl.num_commands := by
  have hstep : plan_step L os s op = (s.new_proc L mode).advance 2 := by
    unfold plan_step
    rcases hop with ⟨rfl, rfl⟩ | ⟨rfl, rfl⟩ <;> simp [hrest]
  unfold plan_loop
  simp only [hrest]
  rw [hstep]
  simp only [PlanState.advance]
  have hlt : s.cmdl.num_commands < L.MAX_CMDS := by omega
  have hnum2 : (s.new_proc L mode).cmdl.num_commands = i + 2 := by
    simp only [PlanState.new_proc]
    rw [add_processus_num L s.cmdl mode hlt, hnum]
  have hflow2 : (s.new_proc L mode).cmdl.flow i = set_link (s.cmdl.flow i) mode (i + 1) := by
    simp only [PlanState.new_proc]
    rw [add_processus_flow L s.cmdl mode hlt, hnum]
    simp
  obtain ⟨e, lt⟩ := plan_loop_frozen L os n
    { s.new_proc L mode with rest := (s.new_proc L mode).rest.drop 2 } i
    (by show i + 1 < (s.new_proc L mode).cmdl.num_commands; omega)
  exact ⟨e.trans hflow2, lt⟩

/-- C3: on a successfully planned line, let node `i + 1` exist. If the planner
linked it to node `i` by `on_success_next` (resp. `on_failure_next`), the
executor calls `launch_processus` on node `i + 1` if and only if its call on
node `i` returned 0 leaving status 0 (resp. a non-zero status). And these links
are the ones the planner makes for `&&` (resp. `||`): whenever the planning loop
stands at the tokens `& &` (resp. `| |`) followed by a further token, with node
`i` the last node and room for one more, the finished plan has node `i + 1` and
`on_success_next` (resp. `on_failure_next`) of flow node `i` points to it. -/
theorem C3_conditional_successor (L : Limits) (pos : PlanOS) (getenv : CStr → Option CStr)
    (os : ExecOS) (line : CStr) (fuel : Nat) (last_status : Int) (i : Nat)
    (_hplan : (parse_command_line L pos getenv (init_command_line L) line).ret = some 0)
    (hi : i + 1 < (parse_command_line L pos getenv (init_command_line L) line).cmdl.num_commands)
    (hfuel : (parse_command_line L pos getenv (init_command_line L) line).cmdl.num_commands
      ≤ fuel) :
    (((parse_command_line L pos getenv (init_command_line L) line).cmdl.flow i).on_success_next
        = some (i + 1) →
      (launched (launch_command_line L os fuel
          (parse_command_line L pos getenv (init_command_line L) line).cmdl last_status) (i + 1) ↔
        launched_with (launch_command_line L os fuel
          (parse_command_line L pos getenv (init_command_line L) line).cmdl last_status) i 0)) ∧
    (((parse_command_line L pos getenv (init_command_line L) line).cmdl.flow i).on_failure_next
        = some (i + 1) →
      (launched (launch_command_line L os fuel
          (parse_command_line L pos getenv (init_command_line L) line).cmdl last_status) (i + 1) ↔
        ∃ s, s ≠ 0 ∧ launched_with (launch_command_line L os fuel
          (parse_command_line L pos getenv (init_command_line L) line).cmdl last_status) i s)) ∧
    (∀ (s : PlanState) (n : Nat) (t : CStr) (tl : List CStr),
      s.cmdl.num_commands = i + 1 → i + 1 < L.MAX_CMDS →
      (s.rest = ['&'] :: ['&'] :: t :: tl →
        ((plan_loop L pos (n + 1) s).cmdl.flow i).on_success_next = some (i + 1) ∧
        i + 1 < (plan_loop L pos (n + 1) s).cmdl.num_commands) ∧
      (s.rest = ['|'] :: ['|'] :: t :: tl →
        ((plan_loop L pos (n + 1) s).cmdl.flow i).on_failure_next = some (i + 1) ∧
        i + 1 < (plan_loop L pos (n + 1) s).cmdl.num_commands)) := by
  generalize hc : (parse_command_line L pos getenv (init_command_line L) line).cmdl = c at *
  have hinv : FlowInv c := by rw [← hc]; exact parse_flow_inv L pos getenv line
  have hz : ¬ c.num_commands = 0 := by omega
  have hw := (flow_walk L os c hinv fuel 0
    { cmdl := c, last_status := last_status, trace := [], closed := [] } rfl (by omega)
    (by omega) (by simp)).2 i (Nat.zero_le _)
  have hrun : launch_command_line L os fuel c last_status =
      flow_loop L os fuel (some 0)
        { cmdl := c, last_status := last_status, trace := [], closed := [] } := by
    unfold launch_command_line; simp [hz]
  have hone := (hinv i).2.1 hi
  refine ⟨fun hs => ?_, fun hf => ?_, fun s n t tl hnum hcap => ⟨fun hrest => ?_, fun hrest => ?_⟩⟩
  · rw [hrun]
    unfold launched launched_with
    rw [hw]
    have hu : (c.flow i).unconditionnal_next = none ∧ (c.flow i).on_failure_next = none := by
      rcases hone with ⟨a, b, d⟩ | ⟨a, b, d⟩ | ⟨a, b, d⟩ <;> simp_all
    constructor
    · rintro ⟨s, hs1, hs2⟩
      have : s = 0 := by
        by_contra hne
        simp [next_flow, hne, hu.1, hu.2] at hs2
      rw [this] at hs1; exact hs1
    · intro h0
      exact ⟨0, h0, by simp [next_flow, hs]⟩
  · rw [hrun]
    unfold launched launched_with
    rw [hw]
    have hu : (c.flow i).unconditionnal_next = none ∧ (c.flow i).on_success_next = none := by
      rcases hone with ⟨a, b, d⟩ | ⟨a, b, d⟩ | ⟨a, b, d⟩ <;> simp_all
    constructor
    · rintro ⟨s, hs1, hs2⟩
      refine ⟨s, ?_, hs1⟩
      intro h0
      simp [next_flow, h0, hu.1, hu.2] at hs2
    · rintro ⟨s, hne, hs1⟩
      exact ⟨s, hs1, by simp [next_flow, hne, hf]⟩
  · obtain ⟨e, lt⟩ := plan_loop_after_pair L pos n s ['&'] t tl .ON_SUCCESS i
      (Or.inl ⟨rfl, rfl⟩) hrest hnum hcap
    exact ⟨by rw [e]; rfl, lt⟩
  · obtain ⟨e, lt⟩ := plan_loop_after_pair L pos n s ['|'] t tl .ON_FAILURE i
      (Or.inr ⟨rfl, rfl⟩) hrest hnum hcap
    exact ⟨by rw [e]; rfl, lt⟩

/-- C3 (witness): the line `false && echo nope || echo ok`, node 1 after `&&`. -/
theorem C3_conditional_successor_witness :
    (demoParse "false && echo nope || echo ok").ret = some 0 ∧
    ((demoParse "false && echo nope || echo ok").cmdl.flow 0).on_success_next = some 1 ∧
    (launched (demoRun "false && echo nope || echo ok") 1 ↔
      launched_with (demoRun "false && echo nope || echo ok") 0 0) :=
  ⟨by decide, by decide,
    (C3_conditional_successor demoLimits demoPlanOS emptyEnv demoExecOS
      "false && echo nope || echo ok".toList 64 0 0 (by decide) (by decide) (by decide)).1
      (by decide)⟩

theorem plain_word_ne (w : CStr) (c : Char) (hw : plain_word w)
    (hc : c ∈ [';', '|', '&', '<', '>', '!']) : w ≠ [c] := by
  intro h
  exact hw c (by rw [h]; simp) hc

theorem plan_step_word (L : Limits) (os : PlanOS) (s : PlanState) (w : CStr)
    (hw : plain_word w) (h2 : w = ['2'] → s.rest.get? 1 ≠ some ['>']) :
    plan_step L os s w = plan_argument L s w := by
  have h1 := plain_word_ne w ';' hw (by simp)
  have h3 := plain_word_ne w '|' hw (by simp)
  have h4 := plain_word_ne w '&' hw (by simp)
  have h5 := plain_word_ne w '<' hw (by simp)
  have h6 := plain_word_ne w '>' hw (by simp)
  have h7 := plain_word_ne w '!' hw (by simp)
  have h8 : ¬ (w = ['2'] ∧ s.rest.get? 1 = some ['>']) := fun h => h2 h.1 h.2
  unfold plan_step
  simp only [h1, h3, h4, h5, h6, h7, h8, if_false, false_and]

theorem plan_argument_eq (L : Limits) (s : PlanState) (w : CStr) (i : Nat)
    (hi : s.current_proc = some i) (ha : s.argv_index < L.MAX_ARGS - 1) :
    plan_argument L s w = .next (s.with_word i w) := by
  unfold plan_argument PlanState.write PlanState.advance PlanState.with_word push_arg
  simp only [ha, if_true, hi]

theorem plan_loop_nil (L : Limits) (os : PlanOS) (n : Nat) (s : PlanState) (h : s.rest = []) :
    plan_loop L os n s = { ret := some 0, cmdl := s.cmdl, calls := s.calls } := by
  cases n with
  | zero => rfl
  | succ n => unfold plan_loop; simp only [h]

theorem plan_loop_cons (L : Limits) (os : PlanOS) (n : Nat) (s : PlanState) (t : CStr)
    (tl : List CStr) (h : s.rest = t :: tl) :
    plan_loop L os (n + 1) s =
      match plan_step L os s t with
      | .stop r => r
      | .next s1 => plan_loop L os n s1 := by
  conv_lhs => unfold plan_loop
  simp only [h]

theorem plan_loop_words (L : Limits) (os : PlanOS) (i : Nat) :
    ∀ (ws : List CStr) (s : PlanState) (tail : List CStr) (fuel : Nat),
      s.rest = ws ++ tail → (∀ w ∈ ws, plain_word w) → tail.head? ≠ some ['>'] →
      s.current_proc = some i → s.argv_index + ws.length ≤ L.MAX_ARGS - 1 →
      plan_loop L os (ws.length + fuel) s = plan_loop L os fuel (s.with_words i ws) := by
  intro ws
  induction ws with
  | nil => intro s tail fuel _ _ _ _ _; simp [PlanState.with_words]
  | cons w ws ih =>
    intro s tail fuel hrest hplain htail hcur hlen
    have hfuel : (w :: ws).length + fuel = (ws.length + fuel) + 1 := by
      simp only [List.length_cons]; omega
    rw [hfuel, plan_loop_cons L os _ s w (ws ++ tail) hrest]
    have hnext : w = ['2'] → s.rest.get? 1 ≠ some ['>'] := by
      intro _
      rw [hrest]
      cases ws with
      | nil =>
        cases tail with
        | nil => simp
        | cons t tl => simpa using htail
      | cons w1 ws1 =>
        have := plain_word_ne w1 '>' (hplain w1 (by simp)) (by simp)
        simpa using this
    rw [plan_step_word L os s w (hplain w (by simp)) hnext,
      plan_argument_eq L s w i hcur (by simp only [List.length_cons] at hlen; omega)]
    simp only []
    have := ih (s.with_word i w) tail fuel
      (by simp [PlanState.with_word, hrest])
      (fun w1 h1 => hplain w1 (by simp [h1])) htail
      (by simp [PlanState.with_word, hcur])
      (by simp only [PlanState.with_word, List.length_cons] at hlen ⊢; omega)
    rw [this]
    rfl

theorem with_words_fields (i : Nat) :
    ∀ (ws : List CStr) (s : PlanState),
      (s.with_words i ws).rest = s.rest.drop ws.length ∧
      (s.with_words i ws).argv_index = s.argv_index + ws.length ∧
      (s.with_words i ws).current_proc = s.current_proc ∧
      (s.with_words i ws).calls = s.calls ∧
      (s.with_words i ws).cmdl.flow = s.cmdl.flow ∧
      (s.with_words i ws).cmdl.num_commands = s.cmdl.num_commands ∧
      (s.with_words i ws).cmdl.opened_descriptors = s.cmdl.opened_descriptors ∧
      (s.with_words i ws).cmdl.commands i = push_args (s.cmdl.commands i) s.argv_index ws ∧
      (∀ j, j ≠ i → (s.with_words i ws).cmdl.commands j = s.cmdl.commands j) := by
  intro ws
  induction ws with
  | nil => intro s; simp [PlanState.with_words, push_args]
  | cons w ws ih =>
    intro s
    have h := ih (s.with_word i w)
    have e : s.with_words i (w :: ws) = (s.with_word i w).with_words i ws := rfl
    rw [e]
    obtain ⟨h1, h2, h3, h4, h5, h6, h7, h8, h9⟩ := h
    refine ⟨?_, ?_, ?_, ?_, ?_, ?_, ?_, ?_, ?_⟩
    · rw [h1]; simp [PlanState.with_word]
    · rw [h2]; simp [PlanState.with_word]; omega
    · rw [h3]; rfl
    · rw [h4]; rfl
    · rw [h5]; rfl
    · rw [h6]; rfl
    · rw [h7]; rfl
    · rw [h8]; simp [PlanState.with_word, push_args]
    · intro j hj
      rw [h9 j hj]
      simp [PlanState.with_word, Function.update, hj]

theorem push_args_fields :
    ∀ (ws : List CStr) (p : processus_t) (a : Nat), p.argv.length = a →
      (push_args p a ws).argv = p.argv ++ ws ∧
      (push_args p a ws).stdin_fd = p.stdin_fd ∧
      (push_args p a ws).stdout_fd = p.stdout_fd ∧
      (push_args p a ws).stderr_fd = p.stderr_fd ∧
      (push_args p a ws).is_background = p.is_background ∧
      (push_args p a ws).invert = p.invert ∧
      (push_args p a ws).status = p.status ∧
      (push_args p a ws).cf = p.cf := by
  intro ws
  induction ws with
  | nil => intro p a _; simp [push_args]
  | cons w ws ih =>
    intro p a ha
    have h := ih (push_arg p a w) (a + 1) (by simp [push_arg, ha])
    simp only [push_args]
    obtain ⟨h1, h2, h3, h4, h5, h6, h7, h8⟩ := h
    refine ⟨?_, h2, h3, h4, h5, h6, h7, h8⟩
    rw [h1]
    simp [push_arg, ← ha]

theorem add_processus_commands (L : Limits) (c : command_line_t) (mode : control_flow_mode_t)
    (h : c.num_commands < L.MAX_CMDS) (j : Nat) :
    (add_processus L c mode).2.commands j =
      if j = c.num_commands then { init_processus with cf := some c.num_commands }
      else c.commands j := by
  unfold add_processus
  simp only [ge_iff_le, not_le.mpr h, if_false]
  by_cases hj : j = c.num_commands
  · subst hj; simp
  · simp [Function.update, hj]

theorem add_processus_ret (L : Limits) (c : command_line_t) (mode : control_flow_mode_t)
    (h : c.num_commands < L.MAX_CMDS) :
    (add_processus L c mode).1 = some c.num_commands := by
  unfold add_processus
  simp [not_le.mpr h]

theorem add_processus_registry (L : Limits) (c : command_line_t) (mode : control_flow_mode_t) :
    (add_processus L c mode).2.opened_descriptors = c.opened_descriptors := by
  unfold add_processus
  split <;> rfl

theorem plan_loop_semicolon (L : Limits) (os : PlanOS) (n : Nat) (s : PlanState)
    (t : CStr) (tl : List CStr) (hrest : s.rest = [';'] :: t :: tl) :
    plan_loop L os (n + 1) s =
      plan_loop L os n
        { s.new_proc L .UNCONDITIONAL with rest := t :: tl } := by
  rw [plan_loop_cons L os n s [';'] (t :: tl) hrest]
  have : plan_step L os s [';'] = (s.new_proc L .UNCONDITIONAL).advance 1 := by
    unfold plan_step; simp [hrest]
  rw [this]
  simp [PlanState.advance, PlanState.new_proc, hrest]

theorem join_groups_cons_ne_nil (sep : CStr) (g : List CStr) (gs : List (List CStr))
    (hg : g ≠ []) : join_groups sep (g :: gs) ≠ [] := by
  cases gs with
  | nil => simpa [join_groups] using hg
  | cons g1 gs => simp [join_groups, hg]

theorem new_proc_fields (L : Limits) (s : PlanState) (mode : control_flow_mode_t)
    (h : s.cmdl.num_commands < L.MAX_CMDS) :
    (s.new_proc L mode).current_proc = some s.cmdl.num_commands ∧
    (s.new_proc L mode).cmdl.num_commands = s.cmdl.num_commands + 1 ∧
    (s.new_proc L mode).argv_index = 0 ∧
    (s.new_proc L mode).calls = s.calls ∧
    (s.new_proc L mode).rest = s.rest ∧
    (s.new_proc L mode).cmdl.opened_descriptors = s.cmdl.opened_descriptors ∧
    (s.new_proc L mode).cmdl.commands s.cmdl.num_commands
      = { init_processus with cf := some s.cmdl.num_commands } ∧
    (∀ j, j ≠ s.cmdl.num_commands →
      (s.new_proc L mode).cmdl.commands j = s.cmdl.commands j) ∧
    (∀ j, j + 1 = s.cmdl.num_commands →
      (s.new_proc L mode).cmdl.flow j = set_link (s.cmdl.flow j) mode s.cmdl.num_commands) := by
  unfold PlanState.new_proc
  refine ⟨add_processus_ret L _ mode h, add_processus_num L _ mode h, rfl, rfl, rfl,
    add_processus_registry L _ mode, ?_, ?_, ?_⟩
  · rw [add_processus_commands L _ mode h]; simp
  · intro j hj
    rw [add_processus_commands L _ mode h]; simp [hj]
  · intro j hj
    rw [add_processus_flow L _ mode h]
    have : ¬ j = s.cmdl.num_commands := by omega
    simp [this, hj]

theorem plan_semicolon_groups (L : Limits) (os : PlanOS) :
    ∀ (groups : List (List CStr)) (s : PlanState) (n extra : Nat),
      groups ≠ [] →
      (∀ g ∈ groups, g ≠ [] ∧ g.length ≤ L.MAX_ARGS - 1 ∧ ∀ w ∈ g, plain_word w) →
      s.rest = join_groups [';'] groups → s.current_proc = some n →
      s.cmdl.num_commands = n + 1 → s.argv_index = 0 →
      s.cmdl.commands n = { init_processus with cf := some n } →
      n + groups.length ≤ L.MAX_CMDS →
      (plan_loop L os (s.rest.length + extra) s).ret = some 0 ∧
      (plan_loop L os (s.rest.length + extra) s).cmdl.num_commands = n + groups.length ∧
      (plan_loop L os (s.rest.length + extra) s).cmdl.opened_descriptors
        = s.cmdl.opened_descriptors ∧
      (∀ j, j < n →
        (plan_loop L os (s.rest.length + extra) s).cmdl.commands j = s.cmdl.commands j) ∧
      (∀ k g, groups.get? k = some g →
        ((plan_loop L os (s.rest.length + extra) s).cmdl.commands (n + k)).argv = g ∧
        ((plan_loop L os (s.rest.length + extra) s).cmdl.commands (n + k)).stdin_fd = 0 ∧
        ((plan_loop L os (s.rest.length + extra) s).cmdl.commands (n + k)).stdout_fd = 1 ∧
        ((plan_loop L os (s.rest.length + extra) s).cmdl.commands (n + k)).stderr_fd = 2 ∧
        ((plan_loop L os (s.rest.length + extra) s).cmdl.commands (n + k)).is_background
          = false ∧
        ((plan_loop L os (s.rest.length + extra) s).cmdl.commands (n + k)).invert = false) ∧
      (∀ k, k + 1 < groups.length →
        ((plan_loop L os (s.rest.length + extra) s).cmdl.flow (n + k)).unconditionnal_next
          = some (n + k + 1)) := by
  intro groups
  induction groups with
  | nil => intro s n extra h; exact absurd rfl h
  | cons g gs ih =>
    intro s n extra _ hgs hrest hcur hnum hidx hfresh hcap
    obtain ⟨hg0, hglen, hgplain⟩ := hgs g (by simp)
    cases gs with
    | nil =>
      -- the last group: only words remain
      have hrest1 : s.rest = g ++ [] := by simpa [join_groups] using hrest
      have hw := plan_loop_words L os n g s [] extra hrest1 hgplain (by simp) hcur
        (by rw [hidx]; omega)
      have hlen : s.rest.length + extra = g.length + extra := by rw [hrest1]; simp
      obtain ⟨f1, f2, f3, f4, f5, f6, f7, f8, f9⟩ := with_words_fields n g s
      have hnil : (s.with_words n g).rest = [] := by rw [f1, hrest1]; simp
      rw [hlen, hw, plan_loop_nil L os extra _ hnil]
      obtain ⟨p1, p2, p3, p4, p5, p6, _, _⟩ :=
        push_args_fields g (s.cmdl.commands n) s.argv_index (by rw [hfresh, hidx]; rfl)
      refine ⟨rfl, by simp [f6, hnum], f7, fun j hj => f9 j (by omega), ?_, ?_⟩
      · intro k g1 hk
        cases k with
        | zero =>
          simp at hk; subst hk
          simp only [Nat.add_zero, f8]
          rw [p1, p2, p3, p4, p5, p6, hfresh]
          simp [init_processus, zero_processus]
        | succ k => simp at hk
      · intro k hk; simp at hk
    | cons g1 gs1 =>
      have hrest1 : s.rest = g ++ ([';'] :: join_groups [';'] (g1 :: gs1)) := by
        simpa [join_groups] using hrest
      obtain ⟨hg10, _, _⟩ := hgs g1 (by simp)
      obtain ⟨t, tl, hJ⟩ : ∃ t tl, join_groups [';'] (g1 :: gs1) = t :: tl := by
        have := join_groups_cons_ne_nil [';'] g1 gs1 hg10
        cases hj : join_groups [';'] (g1 :: gs1) with
        | nil => exact absurd hj this
        | cons t tl => exact ⟨t, tl, rfl⟩
      have hw := plan_loop_words L os n g s _ ((t :: tl).length + extra + 1) hrest1 hgplain
        (by simp) hcur (by rw [hidx]; omega)
      have hlen : s.rest.length + extra = g.length + ((t :: tl).length + extra + 1) := by
        rw [hrest1, hJ]; simp only [List.length_append, List.length_cons]; omega
      obtain ⟨f1, f2, f3, f4, f5, f6, f7, f8, f9⟩ := with_words_fields n g s
      have hrest2 : (s.with_words n g).rest = [';'] :: t :: tl := by
        rw [f1, hrest1, hJ]; simp
      have hlt : (s.with_words n g).cmdl.num_commands < L.MAX_CMDS := by
        rw [f6, hnum]; simp only [List.length_cons] at hcap; omega
      obtain ⟨q1, q2, q3, q4, q5, q6, q7, q8, q9⟩ :=
        new_proc_fields L (s.with_words n g) .UNCONDITIONAL hlt
      rw [f6, hnum] at q1 q2 q7 q8 q9
      have hsemi := plan_loop_semicolon L os ((t :: tl).length + extra) (s.with_words n g) t tl
        hrest2
      have hih := ih
        { (s.with_words n g).new_proc L .UNCONDITIONAL with rest := t :: tl } (n + 1) extra
        (by simp) (fun g2 hg2 => hgs g2 (by simp [hg2])) hJ.symm q1 q2 q3 q7
        (by simp only [List.length_cons] at hcap ⊢; omega)
      rw [hlen, hw, hsemi]
      obtain ⟨i1, i2, i3, i4, i5, i6⟩ := hih
      have hfrz := plan_loop_frozen L os ((t :: tl).length + extra)
        { (s.with_words n g).new_proc L .UNCONDITIONAL with rest := t :: tl } n
        (by show n + 1 < ((s.with_words n g).new_proc L .UNCONDITIONAL).cmdl.num_commands
            rw [q2]; omega)
      obtain ⟨p1, p2, p3, p4, p5, p6, _, _⟩ :=
        push_args_fields g (s.cmdl.commands n) s.argv_index (by rw [hfresh, hidx]; rfl)
      have hnode : (plan_loop L os ((t :: tl).length + extra)
          { (s.with_words n g).new_proc L .UNCONDITIONAL with rest := t :: tl }).cmdl.commands n
          = push_args (s.cmdl.commands n) s.argv_index g := by
        rw [i4 n (by omega)]
        show ((s.with_words n g).new_proc L .UNCONDITIONAL).cmdl.commands n = _
        rw [q8 n (by omega), f8]
      refine ⟨i1, ?_, ?_, ?_, ?_, ?_⟩
      · rw [i2]; simp only [List.length_cons]; omega
      · rw [i3]
        show ((s.with_words n g).new_proc L .UNCONDITIONAL).cmdl.opened_descriptors = _
        rw [q6, f7]
      · intro j hj
        rw [i4 j (by omega)]
        show ((s.with_words n g).new_proc L .UNCONDITIONAL).cmdl.commands j = _
        rw [q8 j (by omega), f9 j (by omega)]
      · intro k g2 hk
        cases k with
        | zero =>
          simp at hk; subst hk
          simp only [Nat.add_zero, hnode]
          rw [p1, p2, p3, p4, p5, p6, hfresh]
          simp [init_processus, zero_processus]
        | succ k =>
          have := i5 k g2 (by simpa using hk)
          rw [show n + (k + 1) = n + 1 + k by omega]
          exact this
      · intro k hk
        cases k with
        | zero =>
          simp only [Nat.add_zero]
          rw [hfrz.1]
          show (((s.with_words n g).new_proc L .UNCONDITIONAL).cmdl.flow n).unconditionnal_next = _
          rw [q9 n rfl]
          rfl
        | succ k =>
          have := i6 k (by simp only [List.length_cons] at hk ⊢; omega)
          rw [show n + (k + 1) = n + 1 + k by omega]
          exact this

theorem plan_cons_eq (L : Limits) (os : PlanOS) (c : command_line_t) (t : CStr)
    (tl : List CStr) (h : c.num_commands < L.MAX_CMDS) :
    plan L os c (t :: tl) =
      plan_loop L os (t :: tl).length
        { cmdl := (add_processus L { c with tokens := t :: tl } .UNCONDITIONAL).2, calls := 0,
          rest := t :: tl, argv_index := 0, current_proc := some c.num_commands } := by
  unfold plan
  simp only []
  have := add_processus_ret L { c with tokens := t :: tl } .UNCONDITIONAL h
  rw [this]

theorem plan_flow_inv (L : Limits) (os : PlanOS) (tokens : List CStr) :
    FlowInv (plan L os (init_command_line L) tokens).cmdl :=
  plan_inv L os FlowInv (fun _ _ h hc => hc.step h) _ tokens (init_flow_inv L)

theorem one_link_unconditional {cf : control_flow_t} {t : Nat} (h : one_link cf t)
    (hu : cf.unconditionnal_next = some t) :
    cf.on_success_next = none ∧ cf.on_failure_next = none := by
  rcases h with ⟨_, b, d⟩ | ⟨a, _, _⟩ | ⟨a, _, _⟩
  · exact ⟨b, d⟩
  · rw [a] at hu; cases hu
  · rw [a] at hu; cases hu

/-- C4: a token sequence of `k ≥ 1` non-empty groups of plain words separated by
single `;` tokens, with `k ≤ MAX_CMDS` and at most `MAX_ARGS - 1` words per
group, is planned on an initialised command line with return value 0 and
exactly `k` command nodes; node `i` has group `i` as its argument vector, the
inherited descriptors 0/1/2, no background and no invert flag, and for
`i < k - 1` the only link of flow node `i` is `unconditionnal_next`, to `i + 1`. -/
theorem C4_semicolon_groups (L : Limits) (os : PlanOS) (groups : List (List CStr))
    (hne : groups ≠ [])
    (hgs : ∀ g ∈ groups, g ≠ [] ∧ g.length ≤ L.MAX_ARGS - 1 ∧ ∀ w ∈ g, plain_word w)
    (hk : groups.length ≤ L.MAX_CMDS) :
    (plan L os (init_command_line L) (join_groups [';'] groups)).ret = some 0 ∧
    (plan L os (init_command_line L) (join_groups [';'] groups)).cmdl.num_commands
      = groups.length ∧
    (∀ i g, groups.get? i = some g →
      ((plan L os (init_command_line L) (join_groups [';'] groups)).cmdl.commands i).argv = g ∧
      ((plan L os (init_command_line L) (join_groups [';'] groups)).cmdl.commands i).stdin_fd
        = 0 ∧
      ((plan L os (init_command_line L) (join_groups [';'] groups)).cmdl.commands i).stdout_fd
        = 1 ∧
      ((plan L os (init_command_line L) (join_groups [';'] groups)).cmdl.commands i).stderr_fd
        = 2 ∧
      ((plan L os (init_command_line L) (join_groups [';'] groups)).cmdl.commands i).is_background
        = false ∧
      ((plan L os (init_command_line L) (join_groups [';'] groups)).cmdl.commands i).invert
        = false) ∧
    (∀ i, i + 1 < groups.length →
      ((plan L os (init_command_line L) (join_groups [';'] groups)).cmdl.flow i).unconditionnal_next
        = some (i + 1) ∧
      ((plan L os (init_command_line L) (join_groups [';'] groups)).cmdl.flow i).on_success_next
        = none ∧
      ((plan L os (init_command_line L) (join_groups [';'] groups)).cmdl.flow i).on_failure_next
        = none) := by
  have hinv := plan_flow_inv L os (join_groups [';'] groups)
  obtain ⟨g, gs, rfl⟩ : ∃ g gs, groups = g :: gs := by
    cases groups with
    | nil => exact absurd rfl hne
    | cons g gs => exact ⟨g, gs, rfl⟩
  obtain ⟨t, tl, hJ⟩ : ∃ t tl, join_groups [';'] (g :: gs) = t :: tl := by
    have := join_groups_cons_ne_nil [';'] g gs (hgs g (by simp)).1
    cases hj : join_groups [';'] (g :: gs) with
    | nil => exact absurd hj this
    | cons t tl => exact ⟨t, tl, rfl⟩
  have hcap : (init_command_line L).num_commands < L.MAX_CMDS := by
    simp only [List.length_cons] at hk
    show 0 < L.MAX_CMDS
    omega
  have hlt0 : ({ init_command_line L with tokens := t :: tl } : command_line_t).num_commands
      < L.MAX_CMDS := hcap
  rw [hJ] at hinv ⊢
  rw [plan_cons_eq L os _ t tl hcap] at hinv ⊢
  have hcore := plan_semicolon_groups L os (g :: gs)
    { cmdl := (add_processus L { init_command_line L with tokens := t :: tl } .UNCONDITIONAL).2,
      calls := 0, rest := t :: tl, argv_index := 0,
      current_proc := some (init_command_line L).num_commands } 0 0 hne hgs hJ.symm rfl
    (add_processus_num L _ .UNCONDITIONAL hlt0) rfl
    (by rw [add_processus_commands L _ .UNCONDITIONAL hlt0]; simp [init_command_line])
    (by simpa using hk)
  simp only [Nat.add_zero, Nat.zero_add] at hcore
  obtain ⟨c1, c2, _, _, c5, c6⟩ := hcore
  refine ⟨c1, c2, c5, fun i hi => ?_⟩
  have hu := c6 i hi
  have hone := (hinv i).2.1 (by rw [c2]; exact hi)
  exact ⟨hu, one_link_unconditional hone hu⟩

/-- C4 (witness): the tokens of `a b ; c ; d e f`. -/
theorem C4_semicolon_groups_witness :
    (plan demoLimits demoPlanOS (init_command_line demoLimits)
      (join_groups [';'] [["a".toList, "b".toList], ["c".toList],
        ["d".toList, "e".toList, "f".toList]])).ret = some 0 ∧
    (plan demoLimits demoPlanOS (init_command_line demoLimits)
      (join_groups [';'] [["a".toList, "b".toList], ["c".toList],
        ["d".toList, "e".toList, "f".toList]])).cmdl.num_commands = 3 :=
  ⟨(C4_semicolon_groups demoLimits demoPlanOS
      [["a".toList, "b".toList], ["c".toList], ["d".toList, "e".toList, "f".toList]]
      (by decide) (by decide) (by decide)).1,
   (C4_semicolon_groups demoLimits demoPlanOS
      [["a".toList, "b".toList], ["c".toList], ["d".toList, "e".toList, "f".toList]]
      (by decide) (by decide) (by decide)).2.1⟩

theorem parse_eq_plan (L : Limits) (os : PlanOS) (getenv : CStr → Option CStr)
    (c : command_line_t) (line : CStr) (ts : List CStr)
    (h : tokenize L getenv line = some ts) :
    ∃ text, parse_command_line L os getenv c line
      = plan L os { c with command_line := text } ts := by
  unfold tokenize normalise at h
  unfold parse_command_line
  simp only []
  cases hs : separate_s (clean (trim (List.take (L.MAX_CMD_LINE - 1) line)))
      [';', '|', '&', '<', '>', '!'] L.MAX_CMD_LINE with
  | none => simp [hs] at h
  | some sep =>
    simp only [hs] at h ⊢
    cases hv : substenv getenv sep L.MAX_CMD_LINE with
    | none => simp [hv] at h
    | some text =>
      simp only [hv, Option.map_some', Option.some.injEq] at h ⊢
      exact ⟨text, by rw [h]⟩

theorem plan_loop_dangling_redirect (L : Limits) (os : PlanOS) (ops : List CStr)
    (hops : ops = [['<']] ∨ ops = [['>']] ∨ ops = [['>'], ['>']]) :
    ∀ (ws : List CStr) (s : PlanState) (fuel : Nat),
      s.rest = ws ++ ops → (∀ w ∈ ws, plain_word w) → s.current_proc.isSome = true →
      ws.length + 1 ≤ fuel → (plan_loop L os fuel s).ret = some (-1) := by
  intro ws
  induction ws with
  | nil =>
    intro s fuel hrest _ _ hfuel
    obtain ⟨n, rfl⟩ : ∃ n, fuel = n + 1 := ⟨fuel - 1, by simp at hfuel; omega⟩
    rcases hops with rfl | rfl | rfl
    · rw [plan_loop_cons L os n s ['<'] [] (by simpa using hrest)]
      simp [plan_step, hrest, PlanState.leave]
    · rw [plan_loop_cons L os n s ['>'] [] (by simpa using hrest)]
      simp [plan_step, plan_stdout, hrest, PlanState.leave]
    · rw [plan_loop_cons L os n s ['>'] [['>']] (by simpa using hrest)]
      simp [plan_step, plan_stdout, hrest, PlanState.leave]
  | cons w ws ih =>
    intro s fuel hrest hplain hcur hfuel
    obtain ⟨n, rfl⟩ : ∃ n, fuel = n + 1 := ⟨fuel - 1, by simp at hfuel; omega⟩
    obtain ⟨i, hi⟩ := Option.isSome_iff_exists.mp hcur
    rw [plan_loop_cons L os n s w (ws ++ ops) hrest]
    by_cases h2 : w = ['2'] ∧ s.rest.get? 1 = some ['>']
    · -- the last word is `2` and the operator is `>` or `>>`: a stderr redirection
      obtain ⟨hw, hnext⟩ := h2
      subst hw
      cases ws with
      | cons w1 ws1 =>
        exfalso
        have := plain_word_ne w1 '>' (hplain w1 (by simp)) (by simp)
        rw [hrest] at hnext
        simp at hnext
        exact this hnext
      | nil =>
        rcases hops with rfl | rfl | rfl
        · rw [hrest] at hnext; simp at hnext
        · simp [plan_step, plan_stderr, hrest, PlanState.leave]
        · simp [plan_step, plan_stderr, hrest, PlanState.leave]
    · rw [plan_step_word L os s w (hplain w (by simp)) (fun hw hn => h2 ⟨hw, hn⟩)]
      by_cases ha : s.argv_index < L.MAX_ARGS - 1
      · rw [plan_argument_eq L s w i hi ha]
        simp only []
        exact ih (s.with_word i w) n (by simp [PlanState.with_word, hrest])
          (fun w1 h1 => hplain w1 (by simp [h1])) (by simp [PlanState.with_word, hi])
          (by simp only [List.length_cons] at hfuel; omega)
      · simp [plan_argument, ha, PlanState.leave]

theorem plan_dangling_redirect (L : Limits) (os : PlanOS) (c : command_line_t)
    (ws ops : List CStr) (hops : ops = [['<']] ∨ ops = [['>']] ∨ ops = [['>'], ['>']])
    (hplain : ∀ w ∈ ws, plain_word w) : (plan L os c (ws ++ ops)).ret = some (-1) := by
  obtain ⟨t, tl, hJ⟩ : ∃ t tl, ws ++ ops = t :: tl := by
    cases h : ws ++ ops with
    | nil => rcases hops with rfl | rfl | rfl <;> simp at h
    | cons t tl => exact ⟨t, tl, rfl⟩
  by_cases hcap : c.num_commands < L.MAX_CMDS
  · rw [hJ, plan_cons_eq L os c t tl hcap, ← hJ]
    exact plan_loop_dangling_redirect L os ops hops ws _ _ rfl hplain rfl
      (by rcases hops with rfl | rfl | rfl <;> simp)
  · rw [hJ]
    unfold plan
    simp only []
    rw [add_processus_full L _ .UNCONDITIONAL (by simpa using hcap)]

theorem plan_loop_dangling_pair (L : Limits) (os : PlanOS) (ws : List CStr) (op : CStr)
    (hop : op = ['&'] ∨ op = ['|']) (hplain : ∀ w ∈ ws, plain_word w)
    (hlen : ws.length ≤ L.MAX_ARGS - 1) (s : PlanState) (i : Nat)
    (hrest : s.rest = ws ++ [op, op]) (hcur : s.current_proc = some i)
    (hidx : s.argv_index = 0) (hargv : (s.cmdl.commands i).argv = []) :
    (plan_loop L os (ws.length + 2) s).ret = some 0 ∧
    (plan_loop L os (ws.length + 2) s).cmdl.num_commands = s.cmdl.num_commands ∧
    ((plan_loop L os (ws.length + 2) s).cmdl.commands i).argv = ws := by
  have hw := plan_loop_words L os i ws s [op, op] 2 hrest hplain
    (by rcases hop with rfl | rfl <;> simp) hcur (by rw [hidx]; simpa using hlen)
  obtain ⟨f1, _, _, _, _, f6, _, f8, _⟩ := with_words_fields i ws s
  have hrest1 : (s.with_words i ws).rest = [op, op] := by rw [f1, hrest]; simp
  have hstep : plan_step L os (s.with_words i ws) op = (s.with_words i ws).advance 2 := by
    unfold plan_step
    rcases hop with rfl | rfl <;> simp [hrest1]
  rw [hw, plan_loop_cons L os 1 _ op [op] hrest1, hstep]
  simp only [PlanState.advance]
  rw [plan_loop_nil L os 1 _ (by simp [hrest1])]
  refine ⟨rfl, f6, ?_⟩
  show ((s.with_words i ws).cmdl.commands i).argv = ws
  rw [f8]
  obtain ⟨p1, _⟩ := push_args_fields ws (s.cmdl.commands i) s.argv_index
    (by rw [hargv, hidx]; rfl)
  rw [p1, hargv]; rfl

/-- C5 (counterexample): the line `echo hi |` ends in a single `|`, and
`parse_command_line` returns 0 (with a second, empty command node); the lines
`echo hi &&` and `echo hi ||` are accepted as well, and so is `a < <`, whose
final `<` is taken for the name of the file. -/
theorem C5_counterexample :
    tokenize demoLimits emptyEnv "echo hi |".toList
      = some ["echo".toList, "hi".toList, "|".toList] ∧
    (demoParse "echo hi |").ret = some 0 ∧
    (demoParse "echo hi |").cmdl.num_commands = 2 ∧
    (demoNode "echo hi |" 1).argv = [] ∧
    (demoParse "echo hi &&").ret = some 0 ∧
    (demoParse "echo hi ||").ret = some 0 ∧
    (demoParse "a < <").ret = some 0 := by
  decide

/-- C5 (amended): when the tokens of a line are plain words followed by a final
`<`, `>` or `> >`, `parse_command_line` returns -1, on any command line. When
they are plain words (at most `MAX_ARGS - 1`, with room for one node) followed by a
final `& &` or `| |`, `parse_command_line` on an initialised command line returns
0 and plans the one command: the trailing operator is ignored. -/
theorem C5_trailing_operator (L : Limits) (os : PlanOS) (getenv : CStr → Option CStr)
    (line : CStr) (ws ops : List CStr)
    (htok : tokenize L getenv line = some (ws ++ ops))
    (hplain : ∀ w ∈ ws, plain_word w) :
    ((ops = [['<']] ∨ ops = [['>']] ∨ ops = [['>'], ['>']]) →
      ∀ c, (parse_command_line L os getenv c line).ret = some (-1)) ∧
    ((ops = [['&'], ['&']] ∨ ops = [['|'], ['|']]) →
      ws.length ≤ L.MAX_ARGS - 1 → 1 ≤ L.MAX_CMDS →
      (parse_command_line L os getenv (init_command_line L) line).ret = some 0 ∧
      (parse_command_line L os getenv (init_command_line L) line).cmdl.num_commands = 1 ∧
      ((parse_command_line L os getenv (init_command_line L) line).cmdl.commands 0).argv
        = ws) := by
  constructor
  · intro hops c
    obtain ⟨text, h⟩ := parse_eq_plan L os getenv c line _ htok
    rw [h]
    exact plan_dangling_redirect L os _ ws ops hops hplain
  · intro hops hlen hcap
    obtain ⟨text, h⟩ := parse_eq_plan L os getenv (init_command_line L) line _ htok
    rw [h]
    have key : ∀ op : CStr, (op = ['&'] ∨ op = ['|']) → ops = [op, op] →
        (plan L os { init_command_line L with command_line := text } (ws ++ ops)).ret
          = some 0 ∧
        (plan L os { init_command_line L with command_line := text }
          (ws ++ ops)).cmdl.num_commands = 1 ∧
        ((plan L os { init_command_line L with command_line := text }
          (ws ++ ops)).cmdl.commands 0).argv = ws := by
      intro op hop hops
      subst hops
      obtain ⟨t, tl, hJ⟩ : ∃ t tl, ws ++ [op, op] = t :: tl := by
        cases h : ws ++ [op, op] with
        | nil => simp at h
        | cons t tl => exact ⟨t, tl, rfl⟩
      have hc0 : ({ init_command_line L with command_line := text } :
          command_line_t).num_commands < L.MAX_CMDS := by
        show 0 < L.MAX_CMDS; omega
      have hlt0 : ({ init_command_line L with command_line := text, tokens := t :: tl } :
          command_line_t).num_commands < L.MAX_CMDS := hc0
      have hl : (t :: tl).length = ws.length + 2 := by rw [← hJ]; simp
      rw [hJ, plan_cons_eq L os _ t tl hc0, hl]
      obtain ⟨r1, r2, r3⟩ := plan_loop_dangling_pair L os ws op hop hplain hlen
        { cmdl := (add_processus L
            { init_command_line L with command_line := text, tokens := t :: tl }
            .UNCONDITIONAL).2,
          calls := 0, rest := t :: tl, argv_index := 0,
          current_proc := some (init_command_line L).num_commands } 0 hJ.symm rfl rfl
        (by rw [add_processus_commands L _ .UNCONDITIONAL hlt0]
            simp [init_command_line]; rfl)
      exact ⟨r1, r2.trans (add_processus_num L _ .UNCONDITIONAL hlt0), r3⟩
    rcases hops with h1 | h1
    · exact key ['&'] (Or.inl rfl) h1
    · exact key ['|'] (Or.inr rfl) h1

/-- C5 (witness): the line `echo hi >`. -/
theorem C5_trailing_operator_witness :
    tokenize demoLimits emptyEnv "echo hi >".toList
      = some (["echo".toList, "hi".toList] ++ [['>']]) ∧
    (demoParse "echo hi >").ret = some (-1) :=
  ⟨by decide,
    (C5_trailing_operator demoLimits demoPlanOS emptyEnv "echo hi >".toList
      ["echo".toList, "hi".toList] [['>']] (by decide) (by decide)).1
      (Or.inr (Or.inl rfl)) (init_command_line demoLimits)⟩

theorem write_eq (s : PlanState) (i : Nat) (f : processus_t → processus_t)
    (k : PlanState → PlanStep) (h : s.current_proc = some i) :
    s.write f k = k (s.assign i f) := by
  unfold PlanState.write PlanState.assign
  simp only [h]

theorem add_fd_loop_append (fd : Int) :
    ∀ (used : List Int) (m n : Nat), (∀ x ∈ used, x ≠ -1) → used.length < n → 1 ≤ m →
      add_fd_loop n (used ++ List.replicate m (-1)) fd
        = some (used ++ fd :: List.replicate (m - 1) (-1)) := by
  intro used
  induction used with
  | nil =>
    intro m n _ hn hm
    obtain ⟨n1, rfl⟩ : ∃ n1, n = n1 + 1 := ⟨n - 1, by simp at hn; omega⟩
    obtain ⟨m1, rfl⟩ : ∃ m1, m = m1 + 1 := ⟨m - 1, by omega⟩
    simp [List.replicate_succ, add_fd_loop]
  | cons x xs ih =>
    intro m n hused hn hm
    obtain ⟨n1, rfl⟩ : ∃ n1, n = n1 + 1 := ⟨n - 1, by simp at hn; omega⟩
    have hx : x ≠ -1 := hused x (by simp)
    have := ih m n1 (fun y hy => hused y (by simp [hy])) (by simpa using hn) hm
    simp [add_fd_loop, hx, this]

theorem add_fd_registry (L : Limits) (c : command_line_t) (fd : Int) (used : List Int) (m : Nat)
    (hr : RegistryIs L c used m) (hfd : 0 ≤ fd) (hm : 1 ≤ m) :
    RegistryIs L (add_fd L c fd).2 (used ++ [fd]) (m - 1) ∧
    (add_fd L c fd).2.commands = c.commands ∧ (add_fd L c fd).2.flow = c.flow ∧
    (add_fd L c fd).2.num_commands = c.num_commands := by
  obtain ⟨h1, h2, h3⟩ := hr
  have hloop := add_fd_loop_append fd used m (max_fds L) h2 (by omega) hm
  have hval : add_fd L c fd
      = (0, { c with opened_descriptors := used ++ fd :: List.replicate (m - 1) (-1) }) := by
    unfold add_fd
    rw [h1, hloop]
    simp only [not_lt.mpr hfd, if_false]
  rw [hval]
  refine ⟨⟨by simp, ?_, by simp; omega⟩, rfl, rfl, rfl⟩
  intro x hx
  rcases List.mem_append.mp hx with h | h
  · exact h2 x h
  · rw [List.mem_singleton.mp h]; omega

theorem register_fields (L : Limits) (s : PlanState) (fd : Int) (used : List Int) (m : Nat)
    (hr : RegistryIs L s.cmdl used m) (hfd : 0 ≤ fd) (hm : 1 ≤ m) :
    RegistryIs L (s.register L fd).cmdl (used ++ [fd]) (m - 1) ∧
    (s.register L fd).cmdl.commands = s.cmdl.commands ∧
    (s.register L fd).cmdl.flow = s.cmdl.flow ∧
    (s.register L fd).cmdl.num_commands = s.cmdl.num_commands ∧
    (s.register L fd).rest = s.rest ∧ (s.register L fd).calls = s.calls ∧
    (s.register L fd).current_proc = s.current_proc ∧
    (s.register L fd).argv_index = s.argv_index := by
  obtain ⟨a, b, c, d⟩ := add_fd_registry L s.cmdl fd used m hr hfd hm
  exact ⟨a, b, c, d, rfl, rfl, rfl, rfl⟩

theorem plan_step_pipe (L : Limits) (os : PlanOS) (s : PlanState) (t : CStr) (tl : List CStr)
    (n : Nat) (a b : Int) (hrest : s.rest = ['|'] :: t :: tl) (ht : t ≠ ['|'])
    (hcur : s.current_proc = some n) (hnum : s.cmdl.num_commands = n + 1)
    (hcap : n + 1 < L.MAX_CMDS) (hpipe : os.sys_pipe s.calls = some (a, b)) :
    plan_step L os s ['|'] =
      .next { (s.pipe_left L n b).pipe_right L n a with rest := t :: tl } := by
  have hnext : ¬ (s.rest.get? 1 = some ['|']) := by rw [hrest]; simpa using ht
  have hn1 : (s.pipe_left L n b).cmdl.num_commands = n + 1 := by
    rw [← hnum]; exact (add_fd_skel L _ b).2
  have hlt : (s.pipe_left L n b).cmdl.num_commands < L.MAX_CMDS := by rw [hn1]; exact hcap
  have hc := (new_proc_fields L _ .UNCONDITIONAL hlt).1
  rw [hn1] at hc
  have hr : ((s.pipe_left L n b).pipe_right L n a).rest = ['|'] :: t :: tl := hrest
  unfold plan_step
  simp only [show (['|'] : CStr) ≠ [';'] by decide, if_false, if_true, hnext, hpipe]
  rw [write_eq _ n _ _ (by exact hcur)]
  change (match ((s.pipe_left L n b).new_proc L .UNCONDITIONAL).current_proc with
    | none => ((s.pipe_left L n b).new_proc L .UNCONDITIONAL).leave (-1)
    | some _ => ((s.pipe_left L n b).new_proc L .UNCONDITIONAL).write
        (fun p => { p with stdin_fd := a }) (fun s3 => (s3.register L a).advance 1)) = _
  rw [hc]
  simp only []
  rw [write_eq _ (n + 1) _ _ hc]
  change PlanStep.next { (s.pipe_left L n b).pipe_right L n a with
    rest := ((s.pipe_left L n b).pipe_right L n a).rest.drop 1 } = _
  rw [hr]
  rfl

theorem pipe_left_fields (L : Limits) (s : PlanState) (n : Nat) (b : Int) (used : List Int)
    (m : Nat) (hr : RegistryIs L s.cmdl used m) (hb : 0 ≤ b) (hm : 1 ≤ m) :
    (s.pipe_left L n b).rest = s.rest ∧
    (s.pipe_left L n b).calls = s.calls + 1 ∧
    (s.pipe_left L n b).current_proc = s.current_proc ∧
    (s.pipe_left L n b).cmdl.flow = s.cmdl.flow ∧
    (s.pipe_left L n b).cmdl.num_commands = s.cmdl.num_commands ∧
    (s.pipe_left L n b).cmdl.commands n = { s.cmdl.commands n with stdout_fd := b } ∧
    (∀ j, j ≠ n → (s.pipe_left L n b).cmdl.commands j = s.cmdl.commands j) ∧
    RegistryIs L (s.pipe_left L n b).cmdl (used ++ [b]) (m - 1) := by
  unfold PlanState.pipe_left
  obtain ⟨r1, r2, r3, r4, r5, r6, r7, _⟩ := register_fields L
    (({ s with calls := s.calls + 1 } : PlanState).assign n (fun p => { p with stdout_fd := b }))
    b used m hr hb hm
  refine ⟨r5, r6, r7, r3, r4, ?_, ?_, r1⟩
  · rw [r2]; simp [PlanState.assign]
  · intro j hj
    rw [r2]; simp [PlanState.assign, Function.update, hj]

theorem pipe_right_fields (L : Limits) (s : PlanState) (n : Nat) (a : Int) (used : List Int)
    (m : Nat) (hnum : s.cmdl.num_commands = n + 1) (hcap : n + 1 < L.MAX_CMDS)
    (hr : RegistryIs L s.cmdl used m) (ha : 0 ≤ a) (hm : 1 ≤ m) :
    (s.pipe_right L n a).rest = s.rest ∧
    (s.pipe_right L n a).calls = s.calls ∧
    (s.pipe_right L n a).current_proc = some (n + 1) ∧
    (s.pipe_right L n a).argv_index = 0 ∧
    (s.pipe_right L n a).cmdl.num_commands = n + 2 ∧
    (s.pipe_right L n a).cmdl.commands (n + 1)
      = { init_processus with cf := some (n + 1), stdin_fd := a } ∧
    (∀ j, j ≠ n + 1 → (s.pipe_right L n a).cmdl.commands j = s.cmdl.commands j) ∧
    ((s.pipe_right L n a).cmdl.flow n).unconditionnal_next = some (n + 1) ∧
    RegistryIs L (s.pipe_right L n a).cmdl (used ++ [a]) (m - 1) := by
  have hlt : s.cmdl.num_commands < L.MAX_CMDS := by omega
  obtain ⟨q1, q2, q3, q4, q5, q6, q7, q8, q9⟩ := new_proc_fields L s .UNCONDITIONAL hlt
  rw [hnum] at q1 q2 q7 q8 q9
  have hr1 : RegistryIs L (((s.new_proc L .UNCONDITIONAL).assign (n + 1)
      (fun p => { p with stdin_fd := a })).cmdl) used m := by
    obtain ⟨h1, h2, h3⟩ := hr
    exact ⟨by show (s.new_proc L .UNCONDITIONAL).cmdl.opened_descriptors = _; rw [q6, h1],
      h2, h3⟩
  unfold PlanState.pipe_right
  obtain ⟨r1, r2, r3, r4, r5, r6, r7, r8⟩ := register_fields L
    ((s.new_proc L .UNCONDITIONAL).assign (n + 1) (fun p => { p with stdin_fd := a }))
    a used m hr1 ha hm
  refine ⟨?_, ?_, ?_, ?_, ?_, ?_, ?_, ?_, r1⟩
  · rw [r5]; exact q5
  · rw [r6]; exact q4
  · rw [r7]; exact q1
  · rw [r8]; exact q3
  · rw [r4]; exact q2
  · rw [r2]; simp [PlanState.assign, q7]
  · intro j hj
    rw [r2]; simp only [PlanState.assign, Function.update, hj, dite_false]
    exact q8 j hj
  · rw [r3]
    show ((s.new_proc L .UNCONDITIONAL).cmdl.flow n).unconditionnal_next = _
    rw [q9 n rfl]; rfl

theorem join_groups_head (sep : CStr) (w : CStr) (ws : List CStr) (gs : List (List CStr)) :
    ∃ tl, join_groups sep ((w :: ws) :: gs) = w :: tl := by
  cases gs with
  | nil => exact ⟨ws, rfl⟩
  | cons g1 gs1 => exact ⟨ws ++ sep :: join_groups sep (g1 :: gs1), rfl⟩

theorem plan_pipe_groups (L : Limits) (os : PlanOS)
    (hpipes : ∀ n, ∃ a b, os.sys_pipe n = some (a, b) ∧ 0 ≤ a ∧ 0 ≤ b) :
    ∀ (groups : List (List CStr)) (s : PlanState) (n extra : Nat) (used : List Int) (m : Nat),
      groups ≠ [] →
      (∀ g ∈ groups, g ≠ [] ∧ g.length ≤ L.MAX_ARGS - 1 ∧ ∀ w ∈ g, plain_word w) →
      s.rest = join_groups ['|'] groups → s.current_proc = some n →
      s.cmdl.num_commands = n + 1 → s.argv_index = 0 → (s.cmdl.commands n).argv = [] →
      n + groups.length ≤ L.MAX_CMDS → RegistryIs L s.cmdl used m →
      2 * (groups.length - 1) ≤ m →
      (plan_loop L os (s.rest.length + extra) s).ret = some 0 ∧
      (plan_loop L os (s.rest.length + extra) s).cmdl.num_commands = n + groups.length ∧
      (∀ x ∈ used, x ∈ (plan_loop L os (s.rest.length + extra) s).cmdl.opened_descriptors) ∧
      (∀ j, j < n →
        (plan_loop L os (s.rest.length + extra) s).cmdl.commands j = s.cmdl.commands j) ∧
      ((plan_loop L os (s.rest.length + extra) s).cmdl.commands n).stdin_fd
        = (s.cmdl.commands n).stdin_fd ∧
      (∀ k g, groups.get? k = some g →
        ((plan_loop L os (s.rest.length + extra) s).cmdl.commands (n + k)).argv = g) ∧
      (∀ k, k + 1 < groups.length → ∃ a b, os.sys_pipe (s.calls + k) = some (a, b) ∧
        ((plan_loop L os (s.rest.length + extra) s).cmdl.commands (n + k)).stdout_fd = b ∧
        ((plan_loop L os (s.rest.length + extra) s).cmdl.commands (n + k + 1)).stdin_fd = a ∧
        a ∈ (plan_loop L os (s.rest.length + extra) s).cmdl.opened_descriptors ∧
        b ∈ (plan_loop L os (s.rest.length + extra) s).cmdl.opened_descriptors ∧
        ((plan_loop L os (s.rest.length + extra) s).cmdl.flow (n + k)).unconditionnal_next
          = some (n + k + 1)) := by
  intro groups
  induction groups with
  | nil => intro s n extra used m h; exact absurd rfl h
  | cons g gs ih =>
    intro s n extra used m _ hgs hrest hcur hnum hidx hargv hcap hreg hm
    obtain ⟨hg0, hglen, hgplain⟩ := hgs g (by simp)
    obtain ⟨f1, f2, f3, f4, f5, f6, f7, f8, f9⟩ := with_words_fields n g s
    obtain ⟨p1, p2, p3, _, _, _, _, _⟩ :=
      push_args_fields g (s.cmdl.commands n) s.argv_index (by rw [hargv, hidx]; rfl)
    cases gs with
    | nil =>
      have hrest1 : s.rest = g ++ [] := by simpa [join_groups] using hrest
      have hw := plan_loop_words L os n g s [] extra hrest1 hgplain (by simp) hcur
        (by rw [hidx]; omega)
      have hlen : s.rest.length + extra = g.length + extra := by rw [hrest1]; simp
      have hnil : (s.with_words n g).rest = [] := by rw [f1, hrest1]; simp
      rw [hlen, hw, plan_loop_nil L os extra _ hnil]
      refine ⟨rfl, by simp [f6, hnum], ?_, fun j hj => f9 j (by omega), ?_, ?_, ?_⟩
      · intro x hx
        show x ∈ (s.with_words n g).cmdl.opened_descriptors
        rw [f7, hreg.1]
        exact List.mem_append_left _ hx
      · show ((s.with_words n g).cmdl.commands n).stdin_fd = _
        rw [f8, p2]
      · intro k g1 hk
        cases k with
        | zero =>
          simp at hk; subst hk
          show ((s.with_words n g).cmdl.commands (n + 0)).argv = _
          rw [Nat.add_zero, f8, p1, hargv]; rfl
        | succ k => simp at hk
      · intro k hk; simp at hk
    | cons g1 gs1 =>
      have hrest1 : s.rest = g ++ (['|'] :: join_groups ['|'] (g1 :: gs1)) := by
        simpa [join_groups] using hrest
      obtain ⟨hg10, _, hg1plain⟩ := hgs g1 (by simp)
      obtain ⟨t, ws1, rfl⟩ : ∃ t ws1, g1 = t :: ws1 := by
        cases g1 with
        | nil => exact absurd rfl hg10
        | cons t ws1 => exact ⟨t, ws1, rfl⟩
      obtain ⟨tl, hJ⟩ := join_groups_head ['|'] t ws1 gs1
      have ht : t ≠ ['|'] := plain_word_ne t '|' (hg1plain t (by simp)) (by simp)
      have hw := plan_loop_words L os n g s _ ((t :: tl).length + extra + 1) hrest1 hgplain
        (by simp) hcur (by rw [hidx]; omega)
      have hlen : s.rest.length + extra = g.length + ((t :: tl).length + extra + 1) := by
        rw [hrest1, hJ]; simp only [List.length_append, List.length_cons]; omega
      have hrest2 : (s.with_words n g).rest = ['|'] :: t :: tl := by
        rw [f1, hrest1, hJ]; simp
      obtain ⟨a, b, hpipe, ha, hb⟩ := hpipes (s.with_words n g).calls
      have hreg1 : RegistryIs L (s.with_words n g).cmdl used m := by
        obtain ⟨h1, h2, h3⟩ := hreg
        exact ⟨by rw [f7, h1], h2, h3⟩
      have hm2 : 2 ≤ m := by simp only [List.length_cons] at hm; omega
      have hcap1 : n + 1 < L.MAX_CMDS := by simp only [List.length_cons] at hcap; omega
      obtain ⟨l1, l2, l3, l4, l5, l6, l7, l8⟩ :=
        pipe_left_fields L (s.with_words n g) n b used m hreg1 hb (by omega)
      obtain ⟨r1, r2, r3, r4, r5, r6, r7, r8, r9⟩ :=
        pipe_right_fields L ((s.with_words n g).pipe_left L n b) n a (used ++ [b]) (m - 1)
          (by rw [l5, f6, hnum]) hcap1 l8 ha (by omega)
      have hstep := plan_step_pipe L os (s.with_words n g) t tl n a b hrest2 ht
        (by rw [f3, hcur]) (by rw [f6, hnum]) hcap1 hpipe
      have hih := ih
        { ((s.with_words n g).pipe_left L n b).pipe_right L n a with rest := t :: tl }
        (n + 1) extra ((used ++ [b]) ++ [a]) (m - 1 - 1)
        (by simp) (fun g2 hg2 => hgs g2 (by simp [hg2])) hJ.symm r3 r5 r4
        (by show ((((s.with_words n g).pipe_left L n b).pipe_right L n a).cmdl.commands
              (n + 1)).argv = []
            rw [r6]; rfl)
        (by simp only [List.length_cons] at hcap ⊢; omega) r9
        (by simp only [List.length_cons] at hm ⊢; omega)
      rw [hlen, hw, plan_loop_cons L os _ _ ['|'] (t :: tl) hrest2, hstep]
      simp only []
      obtain ⟨i1, i2, i3, i4, i5, i6, i7⟩ := hih
      have hfrz := plan_loop_frozen L os ((t :: tl).length + extra)
        { ((s.with_words n g).pipe_left L n b).pipe_right L n a with rest := t :: tl } n
        (by show n + 1 < (((s.with_words n g).pipe_left L n b).pipe_right L n a).cmdl.num_commands
            rw [r5]; omega)
      have hnode : (plan_loop L os ((t :: tl).length + extra)
          { ((s.with_words n g).pipe_left L n b).pipe_right L n a with
            rest := t :: tl }).cmdl.commands n
          = { push_args (s.cmdl.commands n) s.argv_index g with stdout_fd := b } := by
        rw [i4 n (by omega)]
        show (((s.with_words n g).pipe_left L n b).pipe_right L n a).cmdl.commands n = _
        rw [r7 n (by omega), l6, f8]
      refine ⟨i1, ?_, ?_, ?_, ?_, ?_, ?_⟩
      · rw [i2]; simp only [List.length_cons]; omega
      · intro x hx
        exact i3 x (by simp [hx])
      · intro j hj
        rw [i4 j (by omega)]
        show (((s.with_words n g).pipe_left L n b).pipe_right L n a).cmdl.commands j = _
        rw [r7 j (by omega), l7 j (by omega), f9 j (by omega)]
      · rw [hnode]; exact p2
      · intro k g2 hk
        cases k with
        | zero =>
          simp at hk; subst hk
          rw [Nat.add_zero, hnode]
          show (push_args (s.cmdl.commands n) s.argv_index g).argv = g
          rw [p1, hargv]; rfl
        | succ k =>
          have := i6 k g2 (by simpa using hk)
          rw [show n + (k + 1) = n + 1 + k by omega]
          exact this
      · intro k hk
        cases k with
        | zero =>
          refine ⟨a, b, by rw [Nat.add_zero, ← f4]; exact hpipe, ?_, ?_, i3 a (by simp),
            i3 b (by simp), ?_⟩
          · rw [Nat.add_zero, hnode]
          · rw [Nat.add_zero, i5]
            show ((((s.with_words n g).pipe_left L n b).pipe_right L n a).cmdl.commands
              (n + 1)).stdin_fd = a
            rw [r6]
          · rw [Nat.add_zero, hfrz.1]
            exact r8
        | succ k =>
          obtain ⟨a1, b1, e1, e2, e3, e4, e5, e6⟩ :=
            i7 k (by simp only [List.length_cons] at hk ⊢; omega)
          have hcalls : (s.with_words n g).calls + 1 + k = s.calls + (k + 1) := by
            rw [f4]; omega
          refine ⟨a1, b1, ?_, ?_, ?_, e4, e5, ?_⟩
          · rw [← hcalls, ← l2, ← r2]; exact e1
          · rw [show n + (k + 1) = n + 1 + k by omega]; exact e2
          · rw [show n + (k + 1) + 1 = n + 1 + k + 1 by omega]; exact e3
          · rw [show n + (k + 1) = n + 1 + k by omega]; exact e6

/-- C6 (counterexample): a line of two plain-word commands joined by a single
`|`, with every `pipe` succeeding and 2 ≤ `MAX_CMDS`, whose first command has
`MAX_ARGS` (here 16) words: `parse_command_line` returns -1. -/
theorem C6_counterexample :
    tokenize demoLimits emptyEnv "a a a a a a a a a a a a a a a a | b".toList
      = some (join_groups ['|'] [List.replicate 16 ['a'], [['b']]]) ∧
    (∀ n, (demoPlanOS.sys_pipe n).isSome = true) ∧
    2 ≤ demoLimits.MAX_CMDS ∧
    (demoParse "a a a a a a a a a a a a a a a a | b").ret = some (-1) := by
  refine ⟨by decide, fun n => rfl, by decide, by decide⟩

/-- C6 (amended): when the tokens of a line are `k ≥ 1` non-empty groups of plain
words joined by single `|` tokens, with `k ≤ MAX_CMDS`, at most `MAX_ARGS - 1`
words per group and every `pipe` call succeeding (with valid descriptors),
`parse_command_line` on an initialised command line returns 0 with `k` nodes
and, for each consecutive pair `i`, `i + 1`, the `i`-th pipe `(a, b)` has its
write end `b` as stdout of node `i`, its read end `a` as stdin of node `i + 1`,
both ends in the descriptor registry, and `unconditionnal_next` of flow node
`i` is flow node `i + 1`. -/
theorem C6_pipeline (L : Limits) (os : PlanOS) (getenv : CStr → Option CStr) (line : CStr)
    (groups : List (List CStr))
    (htok : tokenize L getenv line = some (join_groups ['|'] groups))
    (hne : groups ≠ [])
    (hgs : ∀ g ∈ groups, g ≠ [] ∧ g.length ≤ L.MAX_ARGS - 1 ∧ ∀ w ∈ g, plain_word w)
    (hk : groups.length ≤ L.MAX_CMDS)
    (hpipes : ∀ n, ∃ a b, os.sys_pipe n = some (a, b) ∧ 0 ≤ a ∧ 0 ≤ b) :
    (parse_command_line L os getenv (init_command_line L) line).ret = some 0 ∧
    (parse_command_line L os getenv (init_command_line L) line).cmdl.num_commands
      = groups.length ∧
    (∀ i, i + 1 < groups.length → ∃ a b, os.sys_pipe i = some (a, b) ∧
      ((parse_command_line L os getenv (init_command_line L) line).cmdl.commands i).stdout_fd
        = b ∧
      ((parse_command_line L os getenv (init_command_line L) line).cmdl.commands
        (i + 1)).stdin_fd = a ∧
      a ∈ (parse_command_line L os getenv (init_command_line L) line).cmdl.opened_descriptors ∧
      b ∈ (parse_command_line L os getenv (init_command_line L) line).cmdl.opened_descriptors ∧
      ((parse_command_line L os getenv (init_command_line L) line).cmdl.flow
        i).unconditionnal_next = some (i + 1)) := by
  obtain ⟨text, h⟩ := parse_eq_plan L os getenv (init_command_line L) line _ htok
  rw [h]
  obtain ⟨g, gs, rfl⟩ : ∃ g gs, groups = g :: gs := by
    cases groups with
    | nil => exact absurd rfl hne
    | cons g gs => exact ⟨g, gs, rfl⟩
  obtain ⟨t, tl, hJ⟩ : ∃ t tl, join_groups ['|'] (g :: gs) = t :: tl := by
    have := join_groups_cons_ne_nil ['|'] g gs (hgs g (by simp)).1
    cases hj : join_groups ['|'] (g :: gs) with
    | nil => exact absurd hj this
    | cons t tl => exact ⟨t, tl, rfl⟩
  have hc0 : ({ init_command_line L with command_line := text } :
      command_line_t).num_commands < L.MAX_CMDS := by
    simp only [List.length_cons] at hk
    show 0 < L.MAX_CMDS
    omega
  have hlt0 : ({ init_command_line L with command_line := text, tokens := t :: tl } :
      command_line_t).num_commands < L.MAX_CMDS := hc0
  rw [hJ, plan_cons_eq L os _ t tl hc0]
  have hcore := plan_pipe_groups L os hpipes (g :: gs)
    { cmdl := (add_processus L
        { init_command_line L with command_line := text, tokens := t :: tl } .UNCONDITIONAL).2,
      calls := 0, rest := t :: tl, argv_index := 0,
      current_proc := some (init_command_line L).num_commands } 0 0 [] (max_fds L) hne hgs
    hJ.symm rfl (add_processus_num L _ .UNCONDITIONAL hlt0) rfl
    (by rw [add_processus_commands L _ .UNCONDITIONAL hlt0]; simp [init_command_line]; rfl)
    (by simpa using hk)
    ⟨by rw [add_processus_registry]; simp [init_command_line], by simp, by simp⟩
    (by simp only [max_fds, List.length_cons] at hk ⊢; omega)
  simp only [Nat.add_zero, Nat.zero_add] at hcore
  obtain ⟨c1, c2, _, _, _, _, c7⟩ := hcore
  exact ⟨c1, c2, c7⟩

/-- C6 (witness): the line `a | b c | d`. -/
theorem C6_pipeline_witness :
    tokenize demoLimits emptyEnv "a | b c | d".toList
      = some (join_groups ['|'] [[['a']], [['b'], ['c']], [['d']]]) ∧
    (demoParse "a | b c | d").ret = some 0 ∧
    (demoParse "a | b c | d").cmdl.num_commands = 3 :=
  ⟨by decide,
    (C6_pipeline demoLimits demoPlanOS emptyEnv "a | b c | d".toList
      [[['a']], [['b'], ['c']], [['d']]] (by decide) (by decide) (by decide) (by decide)
      (fun n => ⟨3 + 2 * (n : Int), 4 + 2 * (n : Int), rfl, by omega, by omega⟩)).1,
    (C6_pipeline demoLimits demoPlanOS emptyEnv "a | b c | d".toList
      [[['a']], [['b'], ['c']], [['d']]] (by decide) (by decide) (by decide) (by decide)
      (fun n => ⟨3 + 2 * (n : Int), 4 + 2 * (n : Int), rfl, by omega, by omega⟩)).2.1⟩

theorem trim_length_le (str : CStr) : (trim str).length ≤ str.length := by
  unfold trim
  calc (List.dropWhile isspace
          (List.dropWhile (fun c => isspace c || decide (c = '\n')) str.reverse).reverse).length
      ≤ (List.dropWhile (fun c => isspace c || decide (c = '\n')) str.reverse).reverse.length :=
        (List.dropWhile_sublist _).length_le
    _ = (List.dropWhile (fun c => isspace c || decide (c = '\n')) str.reverse).length :=
        List.length_reverse _
    _ ≤ str.reverse.length := (List.dropWhile_sublist _).length_le
    _ = str.length := List.length_reverse _

theorem clean_loop_length_le : ∀ (str : CStr) (b : Bool), (clean_loop b str).length ≤ str.length := by
  intro str
  induction str with
  | nil => intro b; simp [clean_loop]
  | cons c str ih =>
    intro b
    unfold clean_loop
    split
    · split
      · have := ih true; simp only [List.length_cons]; omega
      · have := ih true; simp only [List.length_cons]; omega
    · have := ih false; simp only [List.length_cons]; omega

theorem clean_length_le (str : CStr) : (clean str).length ≤ str.length :=
  (trim_length_le _).trans (clean_loop_length_le str false)

theorem separate_s_length (str s : CStr) (max : Nat) (out : CStr)
    (h : separate_s str s max = some out) : out.length < max := by
  unfold separate_s at h
  simp only [ge_iff_le] at h
  split at h
  · cases h
  · rename_i hlt
    injection h with h
    rw [← h]
    exact lt_of_le_of_lt (clean_length_le _) (by omega)

theorem substenv_loop_plain (getenv : CStr → Option CStr) (max : Nat) :
    ∀ (pre : CStr) (fuel j : Nat) (tail : CStr), (∀ c ∈ pre, c ≠ '$') → pre.length ≤ fuel →
      j + pre.length ≤ max - 1 →
      substenv_loop getenv max fuel (pre ++ tail) j
        = (substenv_loop getenv max (fuel - pre.length) tail (j + pre.length)).map (pre ++ ·) := by
  intro pre
  induction pre with
  | nil => intro fuel j tail _ _ _; simp
  | cons c pre ih =>
    intro fuel j tail hpre hfuel hj
    obtain ⟨n, rfl⟩ : ∃ n, fuel = n + 1 := ⟨fuel - 1, by simp at hfuel; omega⟩
    have hc : c ≠ '$' := hpre c (by simp)
    have hlt : j < max - 1 := by simp only [List.length_cons] at hj; omega
    have := ih n (j + 1) tail (fun d hd => hpre d (by simp [hd]))
      (by simpa using hfuel) (by simp only [List.length_cons] at hj; omega)
    have e1 : n + 1 - (pre.length + 1) = n - pre.length := by omega
    have e2 : j + (pre.length + 1) = j + 1 + pre.length := by omega
    simp only [List.cons_append, substenv_loop, hlt, if_true, hc, if_false, List.length_cons]
    rw [e1, e2]
    show Option.map (fun x => c :: x) (substenv_loop getenv max n (pre ++ tail) (j + 1)) = _
    rw [this, Option.map_map]
    rfl

theorem substenv_overflow (getenv : CStr → Option CStr) (max : Nat) (pre rest val : CStr)
    (hpre : ∀ c ∈ pre, c ≠ '$') (hfit : pre.length + 1 < max)
    (hval : getenv (read_varname rest).1 = some val) (hover : max ≤ pre.length + val.length) :
    substenv getenv (pre ++ '$' :: rest) max = none := by
  unfold substenv
  rw [substenv_loop_plain getenv max pre _ 0 ('$' :: rest) hpre (by simp) (by omega)]
  have hf : (pre ++ '$' :: rest).length - pre.length = rest.length + 1 := by simp
  rw [hf]
  simp only [substenv_loop, Nat.zero_add, show pre.length < max - 1 by omega, if_true, hval,
    ge_iff_le, hover, Option.map_none']

/-- C10 (counterexample): with `MAX_CMD_LINE = 8` the line `abcdefghij` needs
more than 7 characters for the copy of the line, and `parse_command_line`
returns 0 all the same, having planned the single word `abcdef`: the rest of
the line was dropped. -/
theorem C10_counterexample :
    tinyLimits.MAX_CMD_LINE - 1 < "abcdefghij".toList.length ∧
    (tinyParse emptyEnv "abcdefghij").ret = some 0 ∧
    (tinyParse emptyEnv "abcdefghij").cmdl.num_commands = 1 ∧
    ((tinyParse emptyEnv "abcdefghij").cmdl.commands 0).argv = ["abcdef".toList] := by
  decide

/-- C10 (amended): `parse_command_line` plans a line exactly as it plans its
first `MAX_CMD_LINE - 1` characters (the copy is cut, without failure); and it
returns -1 when, in the text that reaches `substenv`, the first `$` names a
variable whose value, added to the characters before that `$`, would reach
`MAX_CMD_LINE` characters. -/
theorem C10_overflow (L : Limits) (os : PlanOS) (getenv : CStr → Option CStr)
    (c : command_line_t) (line : CStr) :
    parse_command_line L os getenv c line
      = parse_command_line L os getenv c (line.take (L.MAX_CMD_LINE - 1)) ∧
    (∀ pre rest val,
      separate_s (clean (trim (line.take (L.MAX_CMD_LINE - 1))))
        [';', '|', '&', '<', '>', '!'] L.MAX_CMD_LINE = some (pre ++ '$' :: rest) →
      (∀ d ∈ pre, d ≠ '$') → getenv (read_varname rest).1 = some val →
      L.MAX_CMD_LINE ≤ pre.length + val.length →
      (parse_command_line L os getenv c line).ret = some (-1)) := by
  constructor
  · unfold parse_command_line
    rw [List.take_take, Nat.min_self]
  · intro pre rest val hsep hpre hval hover
    have hlen := separate_s_length _ _ _ _ hsep
    have hfit : pre.length + 1 < L.MAX_CMD_LINE := by
      simp only [List.length_append, List.length_cons] at hlen; omega
    have hsub := substenv_overflow getenv L.MAX_CMD_LINE pre rest val hpre hfit hval hover
    unfold parse_command_line
    simp only [hsep, hsub]

/-- C10 (an instance of the second part): with `MAX_CMD_LINE = 8` and `X` set
to a value of 8 characters, the line `a$X` is refused. -/
theorem C10_overflow_witness :
    demoEnv "X".toList = some "12345678".toList ∧
    (tinyParse demoEnv "a$X").ret = some (-1) :=
  ⟨by decide,
    (C10_overflow tinyLimits demoPlanOS demoEnv (init_command_line tinyLimits)
      "a$X".toList).2 ['a'] ['X'] "12345678".toList (by decide) (by decide) (by decide)
      (by decide)⟩

/-! ## The iteration bounds of the two fuelled loops are never reached -/

theorem read_varname_length (str : CStr) : (read_varname str).2.length ≤ str.length := by
  unfold read_varname
  split
  · rename_i rest
    simp only [List.length_drop, List.length_cons]
    have := (List.dropWhile_sublist (fun c => decide (c ≠ '}')) (l := rest)).length_le
    omega
  · exact (List.dropWhile_sublist _).length_le

theorem substenv_loop_fuel (getenv : CStr → Option CStr) (max : Nat) :
    ∀ (n : Nat) (str : CStr) (j k : Nat), str.length ≤ n →
      substenv_loop getenv max (n + k) str j = substenv_loop getenv max n str j := by
  intro n
  induction n with
  | zero =>
    intro str j k h
    have : str = [] := List.length_eq_zero.mp (Nat.le_zero.mp h)
    subst this
    cases k <;> rfl
  | succ n ih =>
    intro str j k h
    cases str with
    | nil => rw [show n + 1 + k = (n + k) + 1 by omega]; rfl
    | cons c str =>
      rw [show n + 1 + k = (n + k) + 1 by omega]
      have hs : str.length ≤ n := by simpa using h
      have hv : (read_varname str).2.length ≤ n := (read_varname_length str).trans hs
      simp only [substenv_loop, ih str (j + 1) k hs, ih (read_varname str).2 j k hv]
      split
      · split
        · split
          · rename_i val _
            rw [ih (read_varname str).2 (j + val.length) k hv]
          · rfl
        · rfl
      · rfl

theorem plan_loop_fuel (L : Limits) (os : PlanOS) :
    ∀ (n : Nat) (s : PlanState) (k : Nat), s.rest.length ≤ n →
      plan_loop L os (n + k) s = plan_loop L os n s := by
  intro n
  induction n with
  | zero =>
    intro s k h
    have hnil : s.rest = [] := List.length_eq_zero.mp (Nat.le_zero.mp h)
    rw [plan_loop_nil L os _ s hnil, plan_loop_nil L os _ s hnil]
  | succ n ih =>
    intro s k h
    cases hrest : s.rest with
    | nil => rw [plan_loop_nil L os _ s hrest, plan_loop_nil L os _ s hrest]
    | cons t tl =>
      rw [show n + 1 + k = (n + k) + 1 by omega, plan_loop_cons L os _ s t tl hrest,
        plan_loop_cons L os _ s t tl hrest]
      have hok := plan_step_ok L os s t
      cases hstep : plan_step L os s t with
      | stop r => rfl
      | next s1 =>
        rw [hstep] at hok
        obtain ⟨_, d, hd, hdrop⟩ := hok
        simp only []
        refine ih s1 k ?_
        rw [hdrop, List.length_drop]
        omega

/-! ## The normaliser on lines that are short for the limits -/

theorem separate_loop_stable (s : CStr) :
    ∀ (str : CStr) (j max1 max2 : Nat), j + 3 * str.length ≤ max1 - 2 →
      j + 3 * str.length ≤ max2 - 2 →
      separate_loop s max1 str j = separate_loop s max2 str j := by
  intro str
  induction str with
  | nil => intro j max1 max2 _ _; rfl
  | cons c str ih =>
    intro j max1 max2 h1 h2
    simp only [List.length_cons] at h1 h2
    have l1 : j < max1 - 2 := by omega
    have l2 : j < max2 - 2 := by omega
    simp only [separate_loop, l1, l2, if_true]
    rw [ih (j + 3) max1 max2 (by omega) (by omega), ih (j + 1) max1 max2 (by omega) (by omega)]

theorem separate_loop_length (s : CStr) (max : Nat) :
    ∀ (str : CStr) (j : Nat), (separate_loop s max str j).length ≤ 3 * str.length := by
  intro str
  induction str with
  | nil => intro j; simp [separate_loop]
  | cons c str ih =>
    intro j
    unfold separate_loop
    split
    · split
      · have := ih (j + 3); simp only [List.length_cons]; omega
      · have := ih (j + 1); simp only [List.length_cons]; omega
    · simp

theorem substenv_plain (getenv : CStr → Option CStr) (max : Nat) (text : CStr)
    (hd : ∀ c ∈ text, c ≠ '$') (hlen : text.length ≤ max - 1) :
    substenv getenv text max = some text := by
  unfold substenv
  have := substenv_loop_plain getenv max text text.length 0 [] hd le_rfl (by omega)
  rw [List.append_nil] at this
  rw [this]
  have h0 : substenv_loop getenv max (text.length - text.length) [] (0 + text.length)
      = some [] := by
    cases text.length - text.length <;> rfl
  rw [h0]
  simp

theorem strcut_limit (max : Nat) (h : max ≤ 2147483647) :
    (int_of_size max - 1).toNat = max - 1 := by
  unfold int_of_size
  rw [Nat.mod_eq_of_lt (by omega), if_pos (by omega)]
  omega

theorem strcut_of_int (str : CStr) (sep : Char) (max : Nat) (h : max ≤ 2147483647) :
    strcut str sep max = (strtok_all sep str []).take (max - 1) := by
  unfold strcut
  rw [strcut_limit max h]

theorem tokenize_of_short (L : Limits) (getenv : CStr → Option CStr) (line : CStr)
    (hlen : 3 * line.length + 2 ≤ L.MAX_CMD_LINE) (hd : ∀ c ∈ spaced line, c ≠ '$')
    (htok : (strtok_all ' ' (spaced line) []).length ≤ L.MAX_CMD_LINE / 2)
    (hint : L.MAX_CMD_LINE / 2 + 1 ≤ 2147483647) :
    tokenize L getenv line = some (strtok_all ' ' (spaced line) []) := by
  have htake : line.take (L.MAX_CMD_LINE - 1) = line := List.take_of_length_le (by omega)
  have hcl : (clean (trim line)).length ≤ line.length :=
    (clean_length_le _).trans (trim_length_le _)
  have hsep : separate_loop [';', '|', '&', '<', '>', '!'] L.MAX_CMD_LINE (clean (trim line)) 0
      = separate_loop [';', '|', '&', '<', '>', '!'] (3 * line.length + 2)
          (clean (trim line)) 0 :=
    separate_loop_stable _ _ 0 _ _ (by omega) (by omega)
  have hbuf := separate_loop_length [';', '|', '&', '<', '>', '!'] (3 * line.length + 2)
    (clean (trim line)) 0
  have hs : separate_s (clean (trim line)) [';', '|', '&', '<', '>', '!'] L.MAX_CMD_LINE
      = some (spaced line) := by
    unfold separate_s spaced
    simp only [hsep, ge_iff_le]
    rw [if_neg (by omega)]
  have hsl : (spaced line).length ≤ L.MAX_CMD_LINE - 1 := by
    have := (clean_length_le (separate_loop [';', '|', '&', '<', '>', '!']
      (3 * line.length + 2) (clean (trim line)) 0))
    unfold spaced
    omega
  unfold tokenize normalise
  rw [htake, hs]
  simp only [substenv_plain getenv L.MAX_CMD_LINE (spaced line) hd hsl, Option.map_some',
    strcut_of_int _ _ _ hint]
  rw [List.take_of_length_le (by omega)]

theorem c1_plan_facts (L : Limits) (os : PlanOS) (c : command_line_t)
    (hc : c.num_commands = 0) (h1 : 3 ≤ L.MAX_CMDS) (h2 : 3 ≤ L.MAX_ARGS) :
    (plan L os c
      ["false".toList, ['&'], ['&'], "echo".toList, "nope".toList, ['|'], ['|'],
        "echo".toList, "ok".toList]).ret = some 0 ∧
    (plan L os c
      ["false".toList, ['&'], ['&'], "echo".toList, "nope".toList, ['|'], ['|'],
        "echo".toList, "ok".toList]).cmdl.num_commands = 3 ∧
    (plan L os c
      ["false".toList, ['&'], ['&'], "echo".toList, "nope".toList, ['|'], ['|'],
        "echo".toList, "ok".toList]).cmdl.flow 0
      = { proc := some 0, cmdl := true, unconditionnal_next := none,
          on_success_next := some 1, on_failure_next := none } ∧
    (plan L os c
      ["false".toList, ['&'], ['&'], "echo".toList, "nope".toList, ['|'], ['|'],
        "echo".toList, "ok".toList]).cmdl.commands 0
      = { init_processus with
          path := some "false".toList, argv := ["false".toList], cf := some 0 } ∧
    ((plan L os c
      ["false".toList, ['&'], ['&'], "echo".toList, "nope".toList, ['|'], ['|'],
        "echo".toList, "ok".toList]).cmdl.commands 1).argv
      = ["echo".toList, "nope".toList] ∧
    ((plan L os c
      ["false".toList, ['&'], ['&'], "echo".toList, "nope".toList, ['|'], ['|'],
        "echo".toList, "ok".toList]).cmdl.commands 2).argv
      = ["echo".toList, "ok".toList] := by
  have a0 : ¬ L.MAX_CMDS ≤ 0 := by omega
  have a1 : ¬ L.MAX_CMDS ≤ 1 := by omega
  have a2 : ¬ L.MAX_CMDS ≤ 2 := by omega
  have b0 : 0 < L.MAX_ARGS - 1 := by omega
  have b1 : 1 < L.MAX_ARGS - 1 := by omega
  simp [plan, plan_loop, plan_step, plan_argument, add_processus, PlanState.write,
    PlanState.advance, PlanState.new_proc, PlanState.leave, hc, a0, a1, a2, b0, b1,
    Function.update, set_link, init_control_flow, init_processus, zero_processus]

/-- C1 (amended): for the line `false && echo nope || echo ok`, planned by
`parse_command_line` and run by `launch_command_line` with `false` exiting with
status 1 (and every `echo` with status 0), under any limits that leave room for
the line (89 characters, 3 arguments, 3 commands, a token bound
`MAX_CMD_LINE / 2 + 1` that is an `int`), the executor launches the
node `false` only, so neither `echo nope` nor `echo ok`, and `last_status` is 1
when the line ends. -/
theorem C1_only_false_is_launched (L : Limits) (pos : PlanOS) (getenv : CStr → Option CStr)
    (os : ExecOS) (fuel : Nat) (last_status : Int)
    (hline : 89 ≤ L.MAX_CMD_LINE) (hint : L.MAX_CMD_LINE / 2 + 1 ≤ 2147483647)
    (hargs : 3 ≤ L.MAX_ARGS) (hcmds : 3 ≤ L.MAX_CMDS)
    (hfuel : 1 ≤ fuel)
    (hfork : ∀ n p, 0 ≤ os.fork n p)
    (hfalse : ∀ n p, p.argv.head? = some "false".toList →
      ∃ w, os.waitpid n p = some w ∧ WIFEXITED w = true ∧ WEXITSTATUS w = 1)
    (_hecho : ∀ n p, p.argv.head? = some "echo".toList →
      ∃ w, os.waitpid n p = some w ∧ WIFEXITED w = true ∧ WEXITSTATUS w = 0) :
    (parse_command_line L pos getenv (init_command_line L)
        "false && echo nope || echo ok".toList).ret = some 0 ∧
    ((parse_command_line L pos getenv (init_command_line L)
        "false && echo nope || echo ok".toList).cmdl.commands 0).argv = ["false".toList] ∧
    ((parse_command_line L pos getenv (init_command_line L)
        "false && echo nope || echo ok".toList).cmdl.commands 1).argv
      = ["echo".toList, "nope".toList] ∧
    ((parse_command_line L pos getenv (init_command_line L)
        "false && echo nope || echo ok".toList).cmdl.commands 2).argv
      = ["echo".toList, "ok".toList] ∧
    (launch_command_line L os fuel
        (parse_command_line L pos getenv (init_command_line L)
          "false && echo nope || echo ok".toList).cmdl last_status).ending = .returned 0 ∧
    (launch_command_line L os fuel
        (parse_command_line L pos getenv (init_command_line L)
          "false && echo nope || echo ok".toList).cmdl last_status).st.trace
      = [{ idx := 0, status := some 1 }] ∧
    ¬ launched (launch_command_line L os fuel
        (parse_command_line L pos getenv (init_command_line L)
          "false && echo nope || echo ok".toList).cmdl last_status) 1 ∧
    ¬ launched (launch_command_line L os fuel
        (parse_command_line L pos getenv (init_command_line L)
          "false && echo nope || echo ok".toList).cmdl last_status) 2 ∧
    (launch_command_line L os fuel
        (parse_command_line L pos getenv (init_command_line L)
          "false && echo nope || echo ok".toList).cmdl last_status).st.last_status = 1 := by
  obtain ⟨k, rfl⟩ : ∃ k, fuel = k + 1 := ⟨fuel - 1, by omega⟩
  have hl : "false && echo nope || echo ok".toList.length = 29 := by decide
  have hsp : strtok_all ' ' (spaced "false && echo nope || echo ok".toList) []
      = ["false".toList, ['&'], ['&'], "echo".toList, "nope".toList, ['|'], ['|'],
          "echo".toList, "ok".toList] := by decide
  have htok : tokenize L getenv "false && echo nope || echo ok".toList
      = some ["false".toList, ['&'], ['&'], "echo".toList, "nope".toList, ['|'], ['|'],
          "echo".toList, "ok".toList] := by
    rw [← hsp]
    exact tokenize_of_short L getenv _ (by rw [hl]; omega) (by decide)
      (by rw [hsp]; simp only [List.length_cons, List.length_nil]; omega) hint
  obtain ⟨text, hparse⟩ := parse_eq_plan L pos getenv (init_command_line L) _ _ htok
  obtain ⟨hret, hnum, hflow, hcmd, hargv1, hargv2⟩ := c1_plan_facts L pos
    { init_command_line L with command_line := text } rfl hcmds hargs
  rw [← hparse] at hret hnum hflow hcmd hargv1 hargv2
  generalize (parse_command_line L pos getenv (init_command_line L)
        "false && echo nope || echo ok".toList) = c at *
  obtain ⟨w, hw, hwe, hws⟩ := hfalse 0 { c.cmdl.commands 0 with pid := os.fork 0 (c.cmdl.commands 0) }
    (by rw [hcmd]; rfl)
  have hl := launch_external os 0 (c.cmdl.commands 0) (by rw [hcmd]; rfl) (hfork _ _)
  rw [wait_status_exited os 0 _ w (by rw [hcmd]; rfl) hw hwe, hws] at hl
  have hstep := flow_loop_launch L os k 0 0
    { cmdl := c.cmdl, last_status := last_status, trace := [], closed := [] } _ _
    (by simp [hflow]) hl
  have hinv : (apply_invert
      { c.cmdl.commands 0 with
        pid := os.fork 0 (c.cmdl.commands 0), status := ((1 : Nat) : Int) }).status = 1 := by
    rw [hcmd]; rfl
  simp only [hinv] at hstep
  have hnext : next_flow (c.cmdl.flow 0) 1 = none := by rw [hflow]; rfl
  simp only [hnext, flow_loop_none] at hstep
  refine ⟨hret, by rw [hcmd], hargv1, hargv2, ?_, ?_, ?_, ?_, ?_⟩ <;>
    simp [launched, launch_command_line, hnum, hstep, finish_line]

/-- C1 (witness): the amended statement at the concrete systems `demoPlanOS`,
`demoExecOS`, whose `false` exits with status 1 and whose `echo` exits with 0. -/
theorem C1_only_false_is_launched_witness :
    (demoParse "false && echo nope || echo ok").ret = some 0 ∧
    (demoRun "false && echo nope || echo ok").ending = .returned 0 ∧
    (demoRun "false && echo nope || echo ok").st.trace = [{ idx := 0, status := some 1 }] ∧
    ¬ launched (demoRun "false && echo nope || echo ok") 1 ∧
    ¬ launched (demoRun "false && echo nope || echo ok") 2 ∧
    (demoRun "false && echo nope || echo ok").st.last_status = 1 :=
  have h := C1_only_false_is_launched demoLimits demoPlanOS emptyEnv demoExecOS 64 0
    (by decide) (by decide) (by decide) (by decide) (by decide)
    (fun n _ => by simp only [demoExecOS]; omega)
    (fun _ p h => ⟨256, by simp [demoExecOS, h], by decide, by decide⟩)
    (fun _ p h => ⟨0, by
      have hne : p.argv.head? ≠ some "false".toList := by rw [h]; decide
      simp only [demoExecOS, if_neg hne], by decide, by decide⟩)
  ⟨h.1, h.2.2.2.2.1, h.2.2.2.2.2.1, h.2.2.2.2.2.2.1, h.2.2.2.2.2.2.2.1, h.2.2.2.2.2.2.2.2⟩

/-! ## Empty lines -/

theorem trim_of_blank (str : CStr) (h : ∀ c ∈ str, isspace c = true) : trim str = [] := by
  unfold trim
  have : List.dropWhile (fun c => isspace c || decide (c = '\n')) str.reverse = [] := by
    rw [List.dropWhile_eq_nil_iff]
    intro c hc
    simp [h c (List.mem_reverse.mp hc)]
  rw [this]
  rfl

theorem parse_of_blank (L : Limits) (os : PlanOS) (getenv : CStr → Option CStr)
    (c : command_line_t) (line : CStr) (hM : 0 < L.MAX_CMD_LINE)
    (hws : ∀ d ∈ line, isspace d = true) :
    parse_command_line L os getenv c line
      = { ret := some 0, cmdl := { c with command_line := [], tokens := [] }, calls := 0 } := by
  have htrim : trim (line.take (L.MAX_CMD_LINE - 1)) = [] :=
    trim_of_blank _ (fun d hd => hws d (List.mem_of_mem_take hd))
  have hclean : clean ([] : CStr) = [] := rfl
  have hsep : separate_s ([] : CStr) [';', '|', '&', '<', '>', '!'] L.MAX_CMD_LINE
      = some [] := by
    unfold separate_s
    simp only [separate_loop, List.length_nil, ge_iff_le]
    rw [if_neg (by omega)]
    rfl
  have hsub : substenv getenv ([] : CStr) L.MAX_CMD_LINE = some [] := rfl
  have hcut : strcut ([] : CStr) ' ' (L.MAX_CMD_LINE / 2 + 1) = [] := by
    simp [strcut, strtok_all]
  unfold parse_command_line
  simp only [htrim, hclean, hsep, hsub, hcut]
  rfl

/-- C19: for a line that is empty or made of white space only (and a line
buffer of at least one byte), `parse_command_line` on an initialised command
line returns 0 with zero command nodes and the registry as initialised, every
slot empty; `launch_command_line` on the result then calls `launch_processus`
on no node, closes nothing, returns 0 and leaves `last_status` as it was. -/
theorem C19_blank_line (L : Limits) (pos : PlanOS) (getenv : CStr → Option CStr) (os : ExecOS)
    (fuel : Nat) (last_status : Int) (line : CStr) (hM : 0 < L.MAX_CMD_LINE)
    (hws : ∀ d ∈ line, isspace d = true) :
    (parse_command_line L pos getenv (init_command_line L) line).ret = some 0 ∧
    (parse_command_line L pos getenv (init_command_line L) line).cmdl.num_commands = 0 ∧
    (parse_command_line L pos getenv (init_command_line L) line).cmdl.opened_descriptors
      = List.replicate (max_fds L) (-1) ∧
    (launch_command_line L os fuel
      (parse_command_line L pos getenv (init_command_line L) line).cmdl last_status).ending
      = .returned 0 ∧
    (launch_command_line L os fuel
      (parse_command_line L pos getenv (init_command_line L) line).cmdl last_status).st.trace
      = [] ∧
    (launch_command_line L os fuel
      (parse_command_line L pos getenv (init_command_line L) line).cmdl last_status).st.closed
      = [] ∧
    (launch_command_line L os fuel
      (parse_command_line L pos getenv (init_command_line L) line).cmdl
      last_status).st.last_status = last_status := by
  rw [parse_of_blank L pos getenv _ line hM hws]
  refine ⟨rfl, rfl, rfl, ?_, ?_, ?_, ?_⟩ <;>
    simp [launch_command_line, init_command_line]

/-- C19 (witness): the line made of two spaces, a tab and a newline. -/
theorem C19_blank_line_witness :
    (∀ d ∈ [' ', ' ', '\t', '\n'], isspace d = true) ∧
    (demoParse "  \t\n").ret = some 0 ∧
    (demoParse "  \t\n").cmdl.num_commands = 0 ∧
    (demoRun "  \t\n").st.trace = [] ∧
    (launch_command_line demoLimits demoExecOS 64 (demoParse "  \t\n").cmdl 7).st.last_status
      = 7 :=
  have h := C19_blank_line demoLimits demoPlanOS emptyEnv demoExecOS 64 7
    [' ', ' ', '\t', '\n'] (by decide) (by decide)
  ⟨by decide, h.1, h.2.1, by decide, h.2.2.2.2.2.2⟩

/-! ## The walk of the executor is ordered and ends -/

theorem indexed_snoc (tr : List LaunchRec) (x : Option Int)
    (h : ∀ k e, tr.get? k = some e → e.idx = k) :
    ∀ k e, (tr ++ [({ idx := tr.length, status := x } : LaunchRec)]).get? k = some e →
      e.idx = k := by
  intro k e hk
  rw [List.get?_eq_getElem?] at hk
  by_cases hlt : k < tr.length
  · rw [List.getElem?_append_left hlt] at hk
    exact h k e (by rw [List.get?_eq_getElem?]; exact hk)
  · rw [List.getElem?_append_right (by omega)] at hk
    cases hd : k - tr.length with
    | zero =>
      rw [hd] at hk
      simp at hk
      rw [← hk]
      show tr.length = k
      omega
    | succ m =>
      rw [hd] at hk
      simp at hk

theorem flow_order (L : Limits) (os : ExecOS) (c : command_line_t) (hinv : FlowInv c) :
    ∀ (fuel j : Nat) (st : ExecState), st.cmdl.flow = c.flow → j < c.num_commands →
      c.num_commands ≤ j + fuel → st.trace.length = j →
      (∀ k e, st.trace.get? k = some e → e.idx = k) →
      (flow_loop L os fuel (some j) st).ending ≠ .unfinished ∧
      (flow_loop L os fuel (some j) st).st.trace.length ≤ c.num_commands ∧
      (∀ k e, (flow_loop L os fuel (some j) st).st.trace.get? k = some e → e.idx = k) := by
  intro fuel
  induction fuel with
  | zero => intro j st _ hj hfuel _; omega
  | succ n ih =>
    intro j st hflow hj hfuel hlen htr
    have hproc : (st.cmdl.flow j).proc = some j := by rw [hflow]; exact (hinv j).1 hj
    have hsn : ∀ x : Option Int, ∀ k e,
        (st.trace ++ [({ idx := j, status := x } : LaunchRec)]).get? k = some e → e.idx = k := by
      intro x
      have := indexed_snoc st.trace x htr
      rw [hlen] at this
      exact this
    unfold flow_loop
    simp only [hproc]
    cases hl : launch_processus os st.trace.length (st.cmdl.commands j) with
    | exited =>
      simp only []
      refine ⟨by simp, ?_, hsn none⟩
      simp only [List.length_append, List.length_singleton]
      omega
    | returned code proc closed =>
      simp only []
      by_cases hc : code = 0
      · simp only [hc, ne_eq, not_true_eq_false, if_false]
        have hnf : next_flow (st.cmdl.flow j) proc.status = next_flow (c.flow j) proc.status := by
          rw [hflow]
        rw [hnf]
        rcases next_flow_inv hinv j proc.status hj with hnone | ⟨hsome, hlt⟩
        · rw [hnone, flow_loop_none]
          simp only [finish_line]
          refine ⟨by simp, ?_, hsn _⟩
          simp only [List.length_append, List.length_singleton]
          omega
        · rw [hsome]
          exact ih (j + 1)
            { cmdl := { st.cmdl with commands := Function.update st.cmdl.commands j proc },
              last_status := proc.status,
              trace := st.trace ++ [{ idx := j, status := some proc.status }],
              closed := st.closed ++ closed } hflow hlt (by omega)
            (by simp only [List.length_append, List.length_singleton]; omega) (hsn _)
      · simp only [hc, ne_eq, not_false_eq_true, if_true, finish_line]
        refine ⟨by simp, ?_, hsn none⟩
        simp only [List.length_append, List.length_singleton]
        omega

theorem flow_loop_stable (L : Limits) (os : ExecOS) :
    ∀ (fuel : Nat) (cur : Option Nat) (st : ExecState),
      (flow_loop L os fuel cur st).ending ≠ .unfinished →
      ∀ more, flow_loop L os (fuel + more) cur st = flow_loop L os fuel cur st := by
  intro fuel
  induction fuel with
  | zero =>
    intro cur st h more
    cases cur with
    | none => rw [flow_loop_none, flow_loop_none]
    | some j => exact absurd rfl h
  | succ n ih =>
    intro cur st h more
    cases cur with
    | none => rw [flow_loop_none, flow_loop_none]
    | some j =>
      rw [show n + 1 + more = (n + more) + 1 by omega]
      unfold flow_loop at h ⊢
      cases hp : (st.cmdl.flow j).proc with
      | none => rfl
      | some i =>
        simp only [hp] at h ⊢
        cases hl : launch_processus os st.trace.length (st.cmdl.commands i) with
        | exited => rfl
        | returned code proc closed =>
          simp only [hl] at h ⊢
          by_cases hc : code = 0
          · simp only [hc, ne_eq, not_true_eq_false, if_false] at h ⊢
            exact ih _ _ h more
          · simp only [hc, ne_eq, not_false_eq_true, if_true]

theorem indexed_map_idx (tr : List LaunchRec) (h : ∀ k e, tr.get? k = some e → e.idx = k) :
    tr.map (fun e => e.idx) = List.range tr.length := by
  apply List.ext_getElem?
  intro n
  rw [List.getElem?_map]
  by_cases hn : n < tr.length
  · rw [List.getElem?_range hn]
    cases he : tr[n]? with
    | none => rw [List.getElem?_eq_none_iff] at he; omega
    | some e => simp [h n e (by rw [List.get?_eq_getElem?]; exact he)]
  · rw [List.getElem?_eq_none (by omega), List.getElem?_eq_none (by simp; omega)]
    rfl

/-- C18: `launch_command_line` terminates on every planned line. Run for at
least `num_commands` iterations the loop has ended (the function returned or
the shell exited in a built-in), and more iterations change nothing; the first
node launched is node 0, each later one has a strictly larger index than the
one before, no node is launched twice and at most `num_commands` are launched. -/
theorem C18_walk_terminates (L : Limits) (pos : PlanOS) (getenv : CStr → Option CStr)
    (os : ExecOS) (line : CStr) (fuel : Nat) (last_status : Int)
    (hfuel : (parse_command_line L pos getenv (init_command_line L) line).cmdl.num_commands
      ≤ fuel) :
    (launch_command_line L os fuel
      (parse_command_line L pos getenv (init_command_line L) line).cmdl last_status).ending
      ≠ .unfinished ∧
    (∀ more, launch_command_line L os (fuel + more)
        (parse_command_line L pos getenv (init_command_line L) line).cmdl last_status
      = launch_command_line L os fuel
        (parse_command_line L pos getenv (init_command_line L) line).cmdl last_status) ∧
    (∀ e, (launch_command_line L os fuel
        (parse_command_line L pos getenv (init_command_line L) line).cmdl last_status).st.trace.head?
        = some e → e.idx = 0) ∧
    (∀ k e e1,
      (launch_command_line L os fuel
        (parse_command_line L pos getenv (init_command_line L) line).cmdl last_status).st.trace.get? k
        = some e →
      (launch_command_line L os fuel
        (parse_command_line L pos getenv (init_command_line L) line).cmdl
        last_status).st.trace.get? (k + 1) = some e1 →
      e.idx < e1.idx) ∧
    ((launch_command_line L os fuel
        (parse_command_line L pos getenv (init_command_line L) line).cmdl
        last_status).st.trace.map (fun e => e.idx)).Nodup ∧
    (launch_command_line L os fuel
        (parse_command_line L pos getenv (init_command_line L) line).cmdl last_status).st.trace.length
      ≤ (parse_command_line L pos getenv (init_command_line L) line).cmdl.num_commands := by
  have hinv := parse_flow_inv L pos getenv line
  generalize (parse_command_line L pos getenv (init_command_line L) line).cmdl = c at hinv hfuel ⊢
  by_cases h0 : c.num_commands = 0
  · simp [launch_command_line, h0]
  · have hw := flow_order L os c hinv fuel 0
      { cmdl := c, last_status := last_status, trace := [], closed := [] } rfl (by omega)
      (by omega) rfl (by intro k e hk; simp at hk)
    have hs := flow_loop_stable L os fuel (some 0)
      { cmdl := c, last_status := last_status, trace := [], closed := [] } hw.1
    simp only [launch_command_line, h0, if_false]
    refine ⟨hw.1, hs, ?_, ?_, ?_, hw.2.1⟩
    · intro e he
      apply hw.2.2 0 e
      rw [← he]
      cases (flow_loop L os fuel (some 0)
        { cmdl := c, last_status := last_status, trace := [], closed := [] }).st.trace <;> rfl
    · intro k e e1 hk hk1
      rw [hw.2.2 k e hk, hw.2.2 (k + 1) e1 hk1]
      omega
    · rw [indexed_map_idx _ hw.2.2]
      exact List.nodup_range _

/-- C18 (witness): the line `false || echo a && echo b ; echo c` has four nodes
and is run with 64 iterations allowed; all four are launched, in order. -/
theorem C18_walk_terminates_witness :
    (demoParse "false || echo a && echo b ; echo c").cmdl.num_commands = 4 ∧
    (demoRun "false || echo a && echo b ; echo c").ending = .returned 0 ∧
    (demoRun "false || echo a && echo b ; echo c").st.trace.map (fun e => e.idx) = [0, 1, 2, 3] ∧
    (demoRun "false || echo a && echo b ; echo c").ending ≠ .unfinished :=
  ⟨by decide, by decide, by decide,
    (C18_walk_terminates demoLimits demoPlanOS emptyEnv demoExecOS
      "false || echo a && echo b ; echo c".toList 64 0 (by decide)).1⟩

/-! ## Properties of the registry kept by the planner -/

theorem reg_write {R : List Int → Prop} {s : PlanState} (f : processus_t → processus_t)
    (k : PlanState → PlanStep) (h : R s.cmdl.opened_descriptors)
    (hk : ∀ s2 : PlanState, R s2.cmdl.opened_descriptors → RegOk R (k s2)) :
    RegOk R (s.write f k) := by
  unfold PlanState.write
  split
  · exact h
  · exact hk _ h

theorem reg_new_proc {L : Limits} {R : List Int → Prop} {s : PlanState}
    (mode : control_flow_mode_t) (h : R s.cmdl.opened_descriptors) :
    R (s.new_proc L mode).cmdl.opened_descriptors := by
  show R (add_processus L s.cmdl mode).2.opened_descriptors
  rw [add_processus_registry]
  exact h

theorem reg_plan_stdout {L : Limits} {R : List Int → Prop} (hR : RegKept L R) (os : PlanOS)
    (s : PlanState) (flags : OpenFlags) (f : Nat) (h : R s.cmdl.opened_descriptors) :
    RegOk R (plan_stdout L os s flags f) := by
  unfold plan_stdout
  split
  · exact h
  · simp only []
    split
    · exact h
    · exact reg_write _ _ h (fun s2 h2 => hR.1 s2.cmdl _ h2)

theorem reg_plan_stderr {L : Limits} {R : List Int → Prop} (hR : RegKept L R) (os : PlanOS)
    (s : PlanState) (flags : OpenFlags) (f : Nat) (h : R s.cmdl.opened_descriptors) :
    RegOk R (plan_stderr L os s flags f) := by
  unfold plan_stderr
  split
  · exact h
  · split
    · exact reg_write _ _ h (fun s2 h2 => h2)
    · simp only []
      split
      · exact reg_write _ _ h (fun s2 h2 => hR.1 s2.cmdl _ h2)
      · exact h

theorem reg_plan_argument {R : List Int → Prop} (L : Limits) (s : PlanState) (token : CStr)
    (h : R s.cmdl.opened_descriptors) : RegOk R (plan_argument L s token) := by
  unfold plan_argument
  split
  · exact reg_write _ _ h (fun s2 h2 => h2)
  · exact h

theorem reg_plan_step {L : Limits} {R : List Int → Prop} (hR : RegKept L R) (os : PlanOS)
    (s : PlanState) (token : CStr) (h : R s.cmdl.opened_descriptors) :
    RegOk R (plan_step L os s token) := by
  unfold plan_step
  simp only []
  split_ifs
  all_goals first
    | exact reg_plan_stdout hR os s _ _ h
    | exact reg_plan_stderr hR os s _ _ h
    | exact reg_plan_argument L s token h
    | exact reg_new_proc (s := s) _ h
    | exact h
    | exact reg_write _ _ h (fun s2 h2 => h2)
    | exact reg_write _ _ h (fun s2 h2 => reg_new_proc (s := s2) _ h2)
    | skip
  · split
    · exact hR.2 s.cmdl h
    · rename_i pfd hpfd
      refine reg_write _ _ h (fun s2 h2 => ?_)
      have h3 : R ((s2.register L pfd.2).new_proc L .UNCONDITIONAL).cmdl.opened_descriptors :=
        reg_new_proc (s := s2.register L pfd.2) _ (hR.1 s2.cmdl _ h2)
      split
      · exact h3
      · exact reg_write _ _ h3 (fun s3 h4 => hR.1 s3.cmdl _ h4)
  · split
    · exact h
    · split
      · exact reg_write _ _ h (fun s2 h2 => h2)
      · exact reg_write _ _ h (fun s2 h2 => hR.1 s2.cmdl _ h2)

theorem reg_plan_loop {L : Limits} {R : List Int → Prop} (hR : RegKept L R) (os : PlanOS) :
    ∀ (n : Nat) (s : PlanState), R s.cmdl.opened_descriptors →
      R (plan_loop L os n s).cmdl.opened_descriptors := by
  intro n
  induction n with
  | zero => intro s hs; exact hs
  | succ n ih =>
    intro s hs
    unfold plan_loop
    split
    · exact hs
    · rename_i token tl hrest
      have hok := reg_plan_step hR os s token hs
      cases hstep : plan_step L os s token with
      | stop r =>
        rw [hstep] at hok
        exact hok
      | next s1 =>
        rw [hstep] at hok
        exact ih s1 hok

theorem reg_plan {L : Limits} {R : List Int → Prop} (hR : RegKept L R) (os : PlanOS)
    (c : command_line_t) (tokens : List CStr) (hc : R c.opened_descriptors) :
    R (plan L os c tokens).cmdl.opened_descriptors := by
  unfold plan
  cases tokens with
  | nil => exact hc
  | cons t ts =>
    simp only []
    have h2 : R (add_processus L { c with tokens := t :: ts } .UNCONDITIONAL).2.opened_descriptors := by
      rw [add_processus_registry]; exact hc
    split
    · exact h2
    · exact reg_plan_loop hR os _ _ h2

theorem reg_parse {L : Limits} {R : List Int → Prop} (hR : RegKept L R) (os : PlanOS)
    (getenv : CStr → Option CStr) (c : command_line_t) (line : CStr)
    (hc : R c.opened_descriptors) :
    R (parse_command_line L os getenv c line).cmdl.opened_descriptors := by
  unfold parse_command_line
  simp only []
  split
  · exact hc
  · split
    · exact hc
    · exact reg_plan hR os _ _ hc

/-! ## Draining the registry -/

theorem add_fd_loop_length : ∀ (n : Nat) (xs : List Int) (fd : Int) (ys : List Int),
    add_fd_loop n xs fd = some ys → ys.length = xs.length := by
  intro n
  induction n with
  | zero => intro xs fd ys h; simp [add_fd_loop] at h
  | succ n ih =>
    intro xs fd ys h
    cases xs with
    | nil => simp [add_fd_loop] at h
    | cons x xs =>
      unfold add_fd_loop at h
      split at h
      · injection h with h; rw [← h]; rfl
      · cases hr : add_fd_loop n xs fd with
        | none => rw [hr] at h; simp at h
        | some zs =>
          rw [hr] at h
          simp only [Option.map_some'] at h
          injection h with h
          rw [← h]
          simp [ih xs fd zs hr]

theorem close_fds_loop_length : ∀ (n : Nat) (xs : List Int),
    (close_fds_loop n xs).2.length = xs.length := by
  intro n
  induction n with
  | zero => intro xs; rfl
  | succ n ih =>
    intro xs
    cases xs with
    | nil => rfl
    | cons x xs =>
      unfold close_fds_loop
      simp only []
      split <;> simp [ih xs]

theorem close_fds_loop_take : ∀ (n : Nat) (xs : List Int),
    ∀ x ∈ (close_fds_loop n xs).2.take n, x = -1 := by
  intro n
  induction n with
  | zero => intro xs x hx; simp at hx
  | succ n ih =>
    intro xs
    cases xs with
    | nil => intro x hx; simp [close_fds_loop] at hx
    | cons y ys =>
      intro x hx
      unfold close_fds_loop at hx
      simp only [] at hx
      split at hx
      · simp only [List.take_succ_cons, List.mem_cons] at hx
        rcases hx with h | h
        · exact h
        · exact ih ys x h
      · rename_i hy
        simp only [List.take_succ_cons, List.mem_cons] at hx
        rcases hx with h | h
        · rw [h]; exact not_not.mp hy
        · exact ih ys x h

theorem close_fds_loop_empty (n : Nat) (xs : List Int) (h : xs.length ≤ n) :
    ∀ x ∈ (close_fds_loop n xs).2, x = -1 := by
  intro x hx
  apply close_fds_loop_take n xs x
  rw [List.take_of_length_le (by rw [close_fds_loop_length]; exact h)]
  exact hx

theorem registry_length_kept (L : Limits) : RegKept L (fun od => od.length = max_fds L) := by
  constructor
  · intro c fd h
    unfold add_fd
    split
    · exact h
    · split
      · rename_i od hod
        show od.length = max_fds L
        rw [add_fd_loop_length _ _ _ _ hod]
        exact h
      · exact h
  · intro c h
    show (close_fds_loop (max_fds L) c.opened_descriptors).2.length = max_fds L
    rw [close_fds_loop_length]
    exact h

theorem parse_registry_length (L : Limits) (os : PlanOS) (getenv : CStr → Option CStr)
    (line : CStr) :
    (parse_command_line L os getenv (init_command_line L) line).cmdl.opened_descriptors.length
      = max_fds L :=
  reg_parse (registry_length_kept L) os getenv _ line (by simp [init_command_line])

theorem flow_loop_registry (L : Limits) (os : ExecOS) :
    ∀ (fuel : Nat) (cur : Option Nat) (st : ExecState) (code : Int),
      (flow_loop L os fuel cur st).ending = .returned code →
      (flow_loop L os fuel cur st).st.cmdl.opened_descriptors
        = (close_fds_loop (max_fds L) st.cmdl.opened_descriptors).2 := by
  intro fuel
  induction fuel with
  | zero =>
    intro cur st code h
    cases cur with
    | none => rw [flow_loop_none]; rfl
    | some j => simp [flow_loop] at h
  | succ n ih =>
    intro cur st code h
    cases cur with
    | none => rw [flow_loop_none]; rfl
    | some j =>
      unfold flow_loop at h ⊢
      cases hp : (st.cmdl.flow j).proc with
      | none => rfl
      | some i =>
        simp only [hp] at h ⊢
        cases hl : launch_processus os st.trace.length (st.cmdl.commands i) with
        | exited => simp only [hl] at h; simp at h
        | returned code1 proc closed =>
          simp only [hl] at h ⊢
          by_cases hc : code1 = 0
          · simp only [hc, ne_eq, not_true_eq_false, if_false] at h ⊢
            exact ih _ _ code h
          · simp only [hc, ne_eq, not_false_eq_true, if_true]
            rfl

theorem plan_zero_nodes (L : Limits) (os : PlanOS) (c : command_line_t) (tokens : List CStr)
    (h : (plan L os c tokens).cmdl.num_commands = 0) :
    (plan L os c tokens).cmdl.opened_descriptors = c.opened_descriptors := by
  unfold plan at h ⊢
  cases tokens with
  | nil => rfl
  | cons t ts =>
    simp only [] at h ⊢
    by_cases hfull : L.MAX_CMDS ≤ c.num_commands
    · rw [add_processus_full L { c with tokens := t :: ts } .UNCONDITIONAL hfull]
    · exfalso
      have hnum := add_processus_num L { c with tokens := t :: ts } .UNCONDITIONAL
        (show c.num_commands < L.MAX_CMDS by omega)
      have hret := add_processus_ret L { c with tokens := t :: ts } .UNCONDITIONAL
        (show c.num_commands < L.MAX_CMDS by omega)
      rw [hret] at h
      simp only [] at h
      have := plan_loop_inv L os (fun c1 => 1 ≤ c1.num_commands)
        (fun a b hab ha => by
          rcases hab with hs | ⟨mode, c0, h0, hlt, h1⟩
          · rw [hs.2]; exact ha
          · rw [h1.2, add_processus_num L c0 mode hlt]; omega)
        (t :: ts).length
        { cmdl := (add_processus L { c with tokens := t :: ts } .UNCONDITIONAL).2, calls := 0,
          rest := t :: ts, argv_index := 0, current_proc := some c.num_commands }
        (by show 1 ≤ (add_processus L { c with tokens := t :: ts } .UNCONDITIONAL).2.num_commands
            rw [hnum]; show 1 ≤ c.num_commands + 1; omega)
      omega

theorem parse_zero_nodes (L : Limits) (os : PlanOS) (getenv : CStr → Option CStr)
    (c : command_line_t) (line : CStr)
    (h : (parse_command_line L os getenv c line).cmdl.num_commands = 0) :
    (parse_command_line L os getenv c line).cmdl.opened_descriptors = c.opened_descriptors := by
  unfold parse_command_line at h ⊢
  simp only [] at h ⊢
  split
  · rfl
  · split
    · rfl
    · rename_i _ sep hsep _ text htext
      rw [hsep] at h
      simp only [htext] at h
      exact plan_zero_nodes L os _ _ h

/-- C20: after `close_fds` every slot of the registry (its first
`MAX_CMDS * 3 + 1` entries) holds -1. Whenever `launch_command_line` returns on
a line planned by `parse_command_line` from an initialised line, the registry
has `MAX_CMDS * 3 + 1` slots and every one holds -1: after the loop ended
normally, after a launch failed and the loop was broken off, and when the line
has no node and the function returns at once. -/
theorem C20_registry_drained (L : Limits) (pos : PlanOS) (getenv : CStr → Option CStr)
    (os : ExecOS) (line : CStr) (fuel : Nat) (last_status : Int) (code : Int)
    (c0 : command_line_t)
    (hret : (launch_command_line L os fuel
      (parse_command_line L pos getenv (init_command_line L) line).cmdl last_status).ending
      = .returned code) :
    (∀ x ∈ (close_fds L c0).2.opened_descriptors.take (max_fds L), x = -1) ∧
    (launch_command_line L os fuel
      (parse_command_line L pos getenv (init_command_line L) line).cmdl
      last_status).st.cmdl.opened_descriptors.length = max_fds L ∧
    (∀ x ∈ (launch_command_line L os fuel
      (parse_command_line L pos getenv (init_command_line L) line).cmdl
      last_status).st.cmdl.opened_descriptors, x = -1) := by
  refine ⟨close_fds_loop_take _ _, ?_⟩
  have hlen := parse_registry_length L pos getenv line
  have hzero := parse_zero_nodes L pos getenv (init_command_line L) line
  generalize (parse_command_line L pos getenv (init_command_line L) line).cmdl = c
    at hlen hzero hret ⊢
  by_cases h0 : c.num_commands = 0
  · simp only [launch_command_line, h0, if_true]
    rw [hzero h0]
    exact ⟨by simp [init_command_line], fun x hx => (List.mem_replicate.mp hx).2⟩
  · simp only [launch_command_line, h0, if_false] at hret ⊢
    rw [flow_loop_registry L os fuel (some 0) _ code hret]
    exact ⟨by rw [close_fds_loop_length]; exact hlen,
      close_fds_loop_empty _ _ (by rw [hlen])⟩

/-- C20 (witness): `ls > out ; nosuch`, run on a system whose second `fork`
fails: the walk is broken off at the second node and the descriptor opened for
`out` is closed by the final `close_fds`. -/
theorem C20_registry_drained_witness :
    (demoParse "ls > out ; nosuch").cmdl.opened_descriptors.head? = some 3 ∧
    (launch_command_line demoLimits
      { demoExecOS with fork := fun n _ => if n = 1 then -1 else 100 } 64
      (demoParse "ls > out ; nosuch").cmdl 0).st.trace
      = [{ idx := 0, status := some 0 }, { idx := 1, status := none }] ∧
    (∀ x ∈ (launch_command_line demoLimits
      { demoExecOS with fork := fun n _ => if n = 1 then -1 else 100 } 64
      (demoParse "ls > out ; nosuch").cmdl 0).st.cmdl.opened_descriptors, x = -1) :=
  ⟨by decide, by decide,
    (C20_registry_drained demoLimits demoPlanOS emptyEnv
      { demoExecOS with fork := fun n _ => if n = 1 then -1 else 100 }
      "ls > out ; nosuch".toList 64 0 0 (init_command_line demoLimits) (by decide)).2.2⟩

/-! ## Failure paths of the planner -/

set_option maxRecDepth 100000

/-- C16: on `cmd > out <` the planner opens `out`, registers its descriptor 3 and
then returns -1 for the missing file name of `<`, with 3 still in slot 0 of the
registry; the same happens when the argument limit is hit after a redirection.
Only the failure path of `pipe` calls `close_fds` before it returns -1. -/
theorem C16_syntax_error_keeps_registry :
    (demoParse "cmd > out <").ret = some (-1) ∧
    (demoParse "cmd > out <").cmdl.opened_descriptors.head? = some 3 ∧
    (demoParse "cmd > out a b c d e f g h i j k l m n o p").ret = some (-1) ∧
    (demoParse "cmd > out a b c d e f g h i j k l m n o p").cmdl.opened_descriptors.head?
      = some 3 ∧
    (parse_command_line demoLimits noPipeOS emptyEnv (init_command_line demoLimits)
      "cmd > out | x".toList).ret = some (-1) ∧
    (∀ x ∈ (parse_command_line demoLimits noPipeOS emptyEnv (init_command_line demoLimits)
      "cmd > out | x".toList).cmdl.opened_descriptors, x = -1) := by
  refine ⟨by decide, by decide, by decide, by decide, by decide, by decide⟩

theorem parse_num_le (L : Limits) (os : PlanOS) (getenv : CStr → Option CStr) (line : CStr) :
    (parse_command_line L os getenv (init_command_line L) line).cmdl.num_commands
      ≤ L.MAX_CMDS :=
  parse_inv L os getenv (fun c => c.num_commands ≤ L.MAX_CMDS)
    (fun a b hab ha => by
      rcases hab with hs | ⟨mode, c0, h0, hlt, h1⟩
      · rw [hs.2]; exact ha
      · rw [h1.2, add_processus_num L c0 mode hlt]; omega)
    _ line (Nat.zero_le _)

/-- C17: the number of nodes never exceeds `MAX_CMDS`, but a line that needs
more is not always refused. With 32 nodes, on the 33 commands `a;a;...;a` the
branch of `;` stores the NULL that `add_processus` returns and the next word is
written through it: `parse_command_line` does not return (`ret = none`). On
`a|a|...|a` the branch of `|`, which tests the result, returns -1. -/
theorem C17_full_line_faults :
    (∀ (L : Limits) (os : PlanOS) (getenv : CStr → Option CStr) (line : CStr),
      (parse_command_line L os getenv (init_command_line L) line).cmdl.num_commands
        ≤ L.MAX_CMDS) ∧
    (parse_command_line demoLimits demoPlanOS emptyEnv (init_command_line demoLimits)
      manyCommands).ret = none ∧
    (parse_command_line demoLimits demoPlanOS emptyEnv (init_command_line demoLimits)
      manyCommands).cmdl.num_commands = 32 ∧
    (parse_command_line demoLimits demoPlanOS emptyEnv (init_command_line demoLimits)
      manyPiped).ret = some (-1) := by
  refine ⟨parse_num_le, by decide, by decide, by decide⟩

/-- C15: on `ls 2>&1` the planner returns 0 and leaves the stderr assignment of
node 0 at 1, the value of its stdout assignment, which is not 2 and is in no
slot of the registry. A second way to the same end: the result of `add_fd` is
ignored, so the 98th redirection of one line is assigned (descriptor 197) but
not registered, the 97 slots being taken. For `ls < in > out 2> err` all three
assignments are registered. -/
theorem C15_unregistered_assignment :
    (demoParse "ls 2>&1").ret = some 0 ∧
    (demoNode "ls 2>&1" 0).stderr_fd = 1 ∧
    (1 : Int) ∉ (demoParse "ls 2>&1").cmdl.opened_descriptors ∧
    (parse_command_line demoLimits demoPlanOS emptyEnv (init_command_line demoLimits)
      manyRedirections).ret = some 0 ∧
    ((parse_command_line demoLimits demoPlanOS emptyEnv (init_command_line demoLimits)
      manyRedirections).cmdl.commands 0).stdout_fd = 197 ∧
    (197 : Int) ∉ (parse_command_line demoLimits demoPlanOS emptyEnv
      (init_command_line demoLimits) manyRedirections).cmdl.opened_descriptors ∧
    ((demoNode "ls < in > out 2> err" 0).stdin_fd = 3 ∧
      (demoNode "ls < in > out 2> err" 0).stdout_fd = 5 ∧
      (demoNode "ls < in > out 2> err" 0).stderr_fd = 7 ∧
      (demoParse "ls < in > out 2> err").cmdl.opened_descriptors.take 4 = [3, 5, 7, -1]) := by
  refine ⟨by decide, by decide, by decide, by decide, by decide, by decide, by decide⟩

/-! ## Variable substitution -/

theorem var_ref_eq : var_ref = read_varname := by
  funext str
  cases str with
  | nil => rfl
  | cons c body =>
    by_cases hc : c = '{'
    · subst hc
      show (if '}' ∈ body then _ else _) = _
      split
      · rfl
      · rename_i hno
        have h1 : body.takeWhile (fun c => decide (c ≠ '}')) = body := by
          rw [List.takeWhile_eq_self_iff]
          intro x hx
          simp only [ne_eq, decide_not, Bool.not_eq_true', decide_eq_false_iff_not]
          intro hx2; exact hno (hx2 ▸ hx)
        have h2 : body.dropWhile (fun c => decide (c ≠ '}')) = [] := by
          rw [List.dropWhile_eq_nil_iff]
          intro x hx
          simp only [ne_eq, decide_not, Bool.not_eq_true', decide_eq_false_iff_not]
          intro hx2; exact hno (hx2 ▸ hx)
        show (body, []) = (body.takeWhile (fun c => decide (c ≠ '}')),
          (body.dropWhile (fun c => decide (c ≠ '}'))).drop 1)
        rw [h1, h2]
        rfl
    · unfold var_ref read_varname
      split
      · rename_i h; injection h with h; exact absurd h hc
      · rfl

theorem substenv_loop_expand (getenv : CStr → Option CStr) (max : Nat) :
    ∀ (n : Nat) (str : CStr) (j : Nat),
      j + ((pieces read_varname n str).map (Piece.render getenv)).flatten.length ≤ max - 1 →
      substenv_loop getenv max n str j
        = some ((pieces read_varname n str).map (Piece.render getenv)).flatten := by
  intro n
  induction n with
  | zero => intro str j _; rfl
  | succ n ih =>
    intro str j hfit
    cases str with
    | nil => rfl
    | cons c str =>
      unfold substenv_loop
      by_cases hj : j < max - 1
      · rw [if_pos hj]
        by_cases hc : c = '$'
        · rw [if_pos hc]
          have hp : pieces read_varname (n + 1) (c :: str)
              = .var (read_varname str).1 :: pieces read_varname n (read_varname str).2 := by
            simp [pieces, hc]
          rw [hp] at hfit ⊢
          simp only [List.map_cons, List.flatten_cons, List.length_append, Piece.render] at hfit ⊢
          cases hv : getenv (read_varname str).1 with
          | none =>
            rw [hv] at hfit
            simp only [Option.getD_none, List.length_nil, Nat.zero_add, List.nil_append]
              at hfit ⊢
            exact ih _ j hfit
          | some val =>
            rw [hv] at hfit
            simp only [Option.getD_some] at hfit ⊢
            rw [if_neg (by omega), ih _ (j + val.length) (by omega)]
            rfl
        · rw [if_neg hc]
          have hp : pieces read_varname (n + 1) (c :: str)
              = .lit c :: pieces read_varname n str := by
            simp [pieces, hc]
          rw [hp] at hfit ⊢
          simp only [List.map_cons, List.flatten_cons, List.length_append, Piece.render,
            List.length_singleton] at hfit ⊢
          rw [ih str (j + 1) (by omega)]
          rfl
      · rw [if_neg hj]
        have hlen : ((pieces read_varname (n + 1) (c :: str)).map
            (Piece.render getenv)).flatten.length = 0 := by omega
        rw [List.length_eq_zero.mp hlen]

theorem pieces_plain (ref : CStr → CStr × CStr) (getenv : CStr → Option CStr) :
    ∀ (n : Nat) (text : CStr), text.length ≤ n → (∀ c ∈ text, c ≠ '$') →
      ((pieces ref n text).map (Piece.render getenv)).flatten = text := by
  intro n
  induction n with
  | zero =>
    intro text hn _
    rw [List.length_eq_zero.mp (Nat.le_zero.mp hn)]
    rfl
  | succ n ih =>
    intro text hn hd
    cases text with
    | nil => rfl
    | cons c text =>
      have hc : c ≠ '$' := hd c (List.mem_cons_self _ _)
      simp only [pieces, hc, if_false, List.map_cons, List.flatten_cons, Piece.render]
      rw [ih text (by simpa using hn) (fun d hd1 => hd d (List.mem_cons_of_mem _ hd1))]
      rfl

/-- C13 (counterexample): in the text `$` `{` `abc` the brace is not closed, so
it holds no reference of the brace form, and with a reference of the plain form
read at the `$` (its name is empty) the characters `{abc` are copied. `substenv`
returns the empty text: it takes everything after the open brace as the name. -/
theorem C13_counterexample :
    expand_with var_ref_closed emptyEnv "$\x7babc".toList = "\x7babc".toList ∧
    (expand_with var_ref_closed emptyEnv "$\x7babc".toList).length ≤ 64 - 1 ∧
    substenv emptyEnv "$\x7babc".toList 64 = some [] ∧
    substenv emptyEnv "$\x7babc".toList 64
      ≠ some (expand_with var_ref_closed emptyEnv "$\x7babc".toList) := by
  refine ⟨by decide, by decide, by decide, by decide⟩

/-- C13: when the expanded text fits the bound (fewer than `max` characters),
`substenv` returns the text in which every `$NAME` (NAME the longest, possibly
empty, run of letters, digits and underscores) and every `$` `{NAME}` (NAME
what stands before the next closing brace, or the rest of the text when there
is none) is replaced by the value of NAME, or by nothing when NAME is unset;
the other characters are copied in order and the values are not read again. A
text without `$` is its own expansion. -/
theorem C13_substenv_expands (getenv : CStr → Option CStr) (text : CStr) (max : Nat)
    (hfit : (expand getenv text).length < max) :
    substenv getenv text max = some (expand getenv text) ∧
    ((∀ c ∈ text, c ≠ '$') → expand getenv text = text) := by
  unfold expand expand_with at hfit ⊢
  rw [var_ref_eq] at hfit ⊢
  refine ⟨?_, fun hd => pieces_plain _ getenv _ text le_rfl hd⟩
  unfold substenv
  exact substenv_loop_expand getenv max text.length text 0 (by omega)

/-- C13 (witness): `a$X-$` `{Y}` `b$` with `X` set to `$Y` and `Y` to `z`
becomes `a$Y-zb`: the value of `X` is not expanded again and the last `$`,
a reference with the empty name, leaves nothing. -/
theorem C13_substenv_expands_witness :
    (expand nestedEnv "a$X-$\x7bY\x7db$".toList).length < 64 ∧
    substenv nestedEnv "a$X-$\x7bY\x7db$".toList 64
      = some (expand nestedEnv "a$X-$\x7bY\x7db$".toList) ∧
    expand nestedEnv "a$X-$\x7bY\x7db$".toList = "a$Y-zb".toList :=
  ⟨by decide, (C13_substenv_expands nestedEnv "a$X-$\x7bY\x7db$".toList 64 (by decide)).1,
    by decide⟩

/-! ## Lines of commands joined by `;`, `|`, `&&`, `||` -/

theorem add_fd_commands (L : Limits) (c : command_line_t) (fd : Int) :
    (add_fd L c fd).2.commands = c.commands := by
  unfold add_fd
  split
  · rfl
  · split <;> rfl

theorem pipe_left_light (L : Limits) (s : PlanState) (n : Nat) (b : Int) :
    (s.pipe_left L n b).cmdl.num_commands = s.cmdl.num_commands ∧
    (∀ j, ((s.pipe_left L n b).cmdl.commands j).argv = (s.cmdl.commands j).argv) := by
  unfold PlanState.pipe_left PlanState.register PlanState.assign
  refine ⟨(add_fd_skel L _ b).2, fun j => ?_⟩
  simp only [add_fd_commands]
  by_cases hj : j = n
  · subst hj; simp
  · simp [Function.update, hj]

theorem pipe_right_light (L : Limits) (s : PlanState) (n : Nat) (a : Int)
    (hnum : s.cmdl.num_commands = n + 1) (hcap : n + 1 < L.MAX_CMDS) :
    ((s.pipe_right L n a).current_proc = some (n + 1)) ∧
    (s.pipe_right L n a).cmdl.num_commands = n + 2 ∧
    (s.pipe_right L n a).argv_index = 0 ∧
    ((s.pipe_right L n a).cmdl.commands (n + 1)).argv = [] ∧
    (∀ j, j ≤ n → ((s.pipe_right L n a).cmdl.commands j).argv = (s.cmdl.commands j).argv) := by
  obtain ⟨q1, q2, q3, _, _, _, q7, q8, _⟩ :=
    new_proc_fields L s .UNCONDITIONAL (by rw [hnum]; exact hcap)
  rw [hnum] at q1 q2 q7 q8
  unfold PlanState.pipe_right PlanState.register PlanState.assign
  refine ⟨q1, ?_, q3, ?_, fun j hj => ?_⟩
  · rw [← q2]; exact (add_fd_skel L _ a).2
  · simp only [add_fd_commands, Function.update_same]
    rw [q7]; rfl
  · simp only [add_fd_commands]
    rw [Function.update_noteq (by omega), q8 j (by omega)]

theorem new_proc_light (L : Limits) (s : PlanState) (mode : control_flow_mode_t) (n : Nat)
    (hnum : s.cmdl.num_commands = n + 1) (hcap : n + 1 < L.MAX_CMDS) :
    (s.new_proc L mode).current_proc = some (n + 1) ∧
    (s.new_proc L mode).cmdl.num_commands = n + 2 ∧
    (s.new_proc L mode).argv_index = 0 ∧
    ((s.new_proc L mode).cmdl.commands (n + 1)).argv = [] ∧
    (∀ j, j ≤ n → ((s.new_proc L mode).cmdl.commands j).argv = (s.cmdl.commands j).argv) := by
  obtain ⟨q1, q2, q3, _, _, _, q7, q8, _⟩ :=
    new_proc_fields L s mode (by rw [hnum]; exact hcap)
  rw [hnum] at q1 q2 q7 q8
  refine ⟨q1, q2, q3, by rw [q7]; rfl, fun j hj => by rw [q8 j (by omega)]⟩

theorem joint_step (L : Limits) (os : PlanOS) (jt : Joint) (s : PlanState) (t : CStr)
    (tl : List CStr) (n m : Nat) (hrest : s.rest = jt.tokens ++ t :: tl) (ht : plain_word t)
    (hcur : s.current_proc = some n) (hnum : s.cmdl.num_commands = n + 1)
    (hcap : n + 1 < L.MAX_CMDS) (hpipe : ∀ k, (os.sys_pipe k).isSome = true) :
    ∃ s1 : PlanState, plan_loop L os (m + 1) s = plan_loop L os m s1 ∧ s1.rest = t :: tl ∧
      s1.current_proc = some (n + 1) ∧ s1.cmdl.num_commands = n + 2 ∧ s1.argv_index = 0 ∧
      (s1.cmdl.commands (n + 1)).argv = [] ∧
      ∀ j, j ≤ n → (s1.cmdl.commands j).argv = (s.cmdl.commands j).argv := by
  have hnp := fun mode => new_proc_light L s mode n hnum hcap
  cases jt with
  | semi =>
    have hr : s.rest = [';'] :: t :: tl := hrest
    exact ⟨{ s.new_proc L .UNCONDITIONAL with rest := t :: tl },
      plan_loop_semicolon L os m s t tl hr, rfl, hnp _⟩
  | and_then =>
    have hr : s.rest = ['&'] :: ['&'] :: t :: tl := hrest
    refine ⟨{ s.new_proc L .ON_SUCCESS with rest := t :: tl }, ?_, rfl, hnp _⟩
    rw [plan_loop_cons L os m s ['&'] (['&'] :: t :: tl) hr]
    have : plan_step L os s ['&'] = (s.new_proc L .ON_SUCCESS).advance 2 := by
      unfold plan_step; simp [hr]
    rw [this]
    simp [PlanState.advance, PlanState.new_proc, hr]
  | or_else =>
    have hr : s.rest = ['|'] :: ['|'] :: t :: tl := hrest
    refine ⟨{ s.new_proc L .ON_FAILURE with rest := t :: tl }, ?_, rfl, hnp _⟩
    rw [plan_loop_cons L os m s ['|'] (['|'] :: t :: tl) hr]
    have : plan_step L os s ['|'] = (s.new_proc L .ON_FAILURE).advance 2 := by
      unfold plan_step; simp [hr]
    rw [this]
    simp [PlanState.advance, PlanState.new_proc, hr]
  | pipe =>
    have hr : s.rest = ['|'] :: t :: tl := hrest
    obtain ⟨⟨a, b⟩, hab⟩ := Option.isSome_iff_exists.mp (hpipe s.calls)
    have hstep := plan_step_pipe L os s t tl n a b hr
      (plain_word_ne t '|' ht (by simp)) hcur hnum hcap hab
    obtain ⟨l1, l2⟩ := pipe_left_light L s n b
    obtain ⟨r1, r2, r3, r4, r5⟩ := pipe_right_light L (s.pipe_left L n b) n a
      (by rw [l1]; exact hnum) hcap
    refine ⟨{ (s.pipe_left L n b).pipe_right L n a with rest := t :: tl }, ?_, rfl, r1, r2, r3,
      r4, fun j hj => by rw [← l2 j]; exact r5 j hj⟩
    rw [plan_loop_cons L os m s ['|'] (t :: tl) hr, hstep]

theorem join_mixed_cons (w : CStr) (ws : List CStr) (more : List (Joint × List CStr)) :
    join_mixed (w :: ws) more = w :: join_mixed ws more := by
  cases more with
  | nil => rfl
  | cons p more => rfl

theorem plan_mixed (L : Limits) (os : PlanOS) (hpipe : ∀ k, (os.sys_pipe k).isSome = true) :
    ∀ (more : List (Joint × List CStr)) (g : List CStr) (s : PlanState) (n extra : Nat),
      (g ≠ [] ∧ g.length ≤ L.MAX_ARGS - 1 ∧ ∀ w ∈ g, plain_word w) →
      (∀ p ∈ more, p.2 ≠ [] ∧ p.2.length ≤ L.MAX_ARGS - 1 ∧ ∀ w ∈ p.2, plain_word w) →
      s.rest = join_mixed g more → s.current_proc = some n → s.cmdl.num_commands = n + 1 →
      s.argv_index = 0 → (s.cmdl.commands n).argv = [] → n + 1 + more.length ≤ L.MAX_CMDS →
      (plan_loop L os (s.rest.length + extra) s).ret = some 0 ∧
      (plan_loop L os (s.rest.length + extra) s).cmdl.num_commands = n + 1 + more.length ∧
      (∀ j, j < n → ((plan_loop L os (s.rest.length + extra) s).cmdl.commands j).argv
        = (s.cmdl.commands j).argv) ∧
      ((plan_loop L os (s.rest.length + extra) s).cmdl.commands n).argv = g ∧
      (∀ k p, more.get? k = some p →
        ((plan_loop L os (s.rest.length + extra) s).cmdl.commands (n + 1 + k)).argv = p.2) := by
  intro more
  induction more with
  | nil =>
    intro g s n extra hg _ hrest hcur hnum hidx hfresh _
    have hrest1 : s.rest = g ++ [] := by simpa [join_mixed] using hrest
    have hw := plan_loop_words L os n g s [] extra hrest1 hg.2.2 (by simp) hcur
      (by rw [hidx]; omega)
    have hlen : s.rest.length + extra = g.length + extra := by rw [hrest1]; simp
    obtain ⟨f1, f2, f3, f4, f5, f6, f7, f8, f9⟩ := with_words_fields n g s
    have hnil : (s.with_words n g).rest = [] := by rw [f1, hrest1]; simp
    rw [hlen, hw, plan_loop_nil L os extra _ hnil]
    obtain ⟨p1, _⟩ :=
      push_args_fields g (s.cmdl.commands n) s.argv_index (by rw [hfresh, hidx]; rfl)
    refine ⟨rfl, by simp [f6, hnum], fun j hj => by rw [f9 j (by omega)], ?_, ?_⟩
    · show ((s.with_words n g).cmdl.commands n).argv = g
      rw [f8, p1, hfresh]; rfl
    · intro k p hk; simp at hk
  | cons q more ih =>
    intro g s n extra hg hmore hrest hcur hnum hidx hfresh hcap
    obtain ⟨jt, g1⟩ := q
    have hg1 := hmore (jt, g1) (by simp)
    obtain ⟨w1, ws1, rfl⟩ : ∃ w1 ws1, g1 = w1 :: ws1 := by
      cases g1 with
      | nil => exact absurd rfl hg1.1
      | cons w1 ws1 => exact ⟨w1, ws1, rfl⟩
    have hrest1 : s.rest = g ++ (jt.tokens ++ w1 :: join_mixed ws1 more) := by
      rw [hrest]; simp [join_mixed, join_mixed_cons]
    have hhead : (jt.tokens ++ w1 :: join_mixed ws1 more).head? ≠ some ['>'] := by
      cases jt <;> simp [Joint.tokens]
    have hjl : 1 ≤ jt.tokens.length := by cases jt <;> simp [Joint.tokens]
    have hw := plan_loop_words L os n g s _
      ((w1 :: join_mixed ws1 more).length + (extra + jt.tokens.length - 1) + 1) hrest1 hg.2.2
      hhead hcur (by rw [hidx]; omega)
    have hlen : s.rest.length + extra
        = g.length + ((w1 :: join_mixed ws1 more).length + (extra + jt.tokens.length - 1) + 1) := by
      rw [hrest1]; simp only [List.length_append, List.length_cons]; omega
    obtain ⟨f1, f2, f3, f4, f5, f6, f7, f8, f9⟩ := with_words_fields n g s
    have hrest2 : (s.with_words n g).rest = jt.tokens ++ w1 :: join_mixed ws1 more := by
      rw [f1, hrest1]; simp
    obtain ⟨s1, e1, e2, e3, e4, e5, e6, e7⟩ := joint_step L os jt (s.with_words n g) w1
      (join_mixed ws1 more) n ((w1 :: join_mixed ws1 more).length + (extra + jt.tokens.length - 1))
      hrest2 (hg1.2.2 w1 (by simp)) (by rw [f3]; exact hcur) (by rw [f6]; exact hnum)
      (by simp only [List.length_cons] at hcap; omega) hpipe
    have hih := ih (w1 :: ws1) s1 (n + 1) (extra + jt.tokens.length - 1) hg1
      (fun p hp => hmore p (by simp [hp])) (by rw [e2, join_mixed_cons]) e3 e4 e5 e6
      (by simp only [List.length_cons] at hcap ⊢; omega)
    rw [e2] at hih
    rw [hlen, hw, e1]
    obtain ⟨i1, i2, i3, i4, i5⟩ := hih
    obtain ⟨p1, _⟩ :=
      push_args_fields g (s.cmdl.commands n) s.argv_index (by rw [hfresh, hidx]; rfl)
    refine ⟨i1, ?_, fun j hj => ?_, ?_, fun k p hk => ?_⟩
    · rw [i2]; simp only [List.length_cons]; omega
    · rw [i3 j (by omega), e7 j (by omega), f9 j (by omega)]
    · rw [i3 n (by omega), e7 n le_rfl, f8, p1, hfresh]; rfl
    · cases k with
      | zero =>
        simp at hk; subst hk
        exact i4
      | succ k =>
        have := i5 k p (by simpa using hk)
        rw [show n + 1 + (k + 1) = n + 1 + 1 + k by omega]
        exact this

/-- C14 (the code at the failing input): `a ; ; b` is planned with return value
0 and three nodes, the second of which has no argument (`argv[0]` and `path`
are NULL); it is no built-in, so `launch_command_line` forks for it and the
child calls `execvp` on the NULL `argv[0]`. `> out` is planned with return value
0 and one node without argument, which is launched too. The planner does avoid
the empty node after a final `;` (`a ;` has one node). -/
theorem C14_empty_node_planned :
    (demoParse "a ; ; b").ret = some 0 ∧
    (demoParse "a ; ; b").cmdl.num_commands = 3 ∧
    (demoNode "a ; ; b" 1).argv = [] ∧
    (demoNode "a ; ; b" 1).path = none ∧
    is_builtin (demoNode "a ; ; b" 1) = false ∧
    (demoRun "a ; ; b").st.trace.map (fun e => e.idx) = [0, 1, 2] ∧
    (demoParse "> out").ret = some 0 ∧
    (demoParse "> out").cmdl.num_commands = 1 ∧
    (demoNode "> out" 0).argv = [] ∧
    launched (demoRun "> out") 0 ∧
    (demoParse "a ;").cmdl.num_commands = 1 := by
  refine ⟨by decide, by decide, by decide, by decide, by decide, by decide, by decide,
    by decide, by decide, by decide, by decide⟩

/-- When the tokens of a line are a non-empty group of plain
words followed by pairs of one operator among `;`, `|`, `&&`, `||` and a
further non-empty group of plain words, with at most `MAX_ARGS - 1` words per
group, at most `MAX_CMDS` groups and every `pipe` call succeeding,
`parse_command_line` on an initialised command line returns 0 with one node
per group, and every node has a non-empty argument vector: its group. -/
theorem mixed_line_nodes (L : Limits) (os : PlanOS) (getenv : CStr → Option CStr)
    (line : CStr) (g : List CStr) (more : List (Joint × List CStr))
    (htok : tokenize L getenv line = some (join_mixed g more))
    (hg : g ≠ [] ∧ g.length ≤ L.MAX_ARGS - 1 ∧ ∀ w ∈ g, plain_word w)
    (hmore : ∀ p ∈ more, p.2 ≠ [] ∧ p.2.length ≤ L.MAX_ARGS - 1 ∧ ∀ w ∈ p.2, plain_word w)
    (hk : 1 + more.length ≤ L.MAX_CMDS)
    (hpipes : ∀ n, (os.sys_pipe n).isSome = true) :
    (parse_command_line L os getenv (init_command_line L) line).ret = some 0 ∧
    (parse_command_line L os getenv (init_command_line L) line).cmdl.num_commands
      = 1 + more.length ∧
    (∀ i, i < (parse_command_line L os getenv (init_command_line L) line).cmdl.num_commands →
      ((parse_command_line L os getenv (init_command_line L) line).cmdl.commands i).argv ≠ []) ∧
    ((parse_command_line L os getenv (init_command_line L) line).cmdl.commands 0).argv = g ∧
    (∀ k p, more.get? k = some p →
      ((parse_command_line L os getenv (init_command_line L) line).cmdl.commands (1 + k)).argv
        = p.2) := by
  obtain ⟨text, h⟩ := parse_eq_plan L os getenv (init_command_line L) line _ htok
  rw [h]
  obtain ⟨w, ws, rfl⟩ : ∃ w ws, g = w :: ws := by
    cases g with
    | nil => exact absurd rfl hg.1
    | cons w ws => exact ⟨w, ws, rfl⟩
  obtain ⟨tl, hJ⟩ : ∃ tl, join_mixed (w :: ws) more = w :: tl :=
    ⟨_, join_mixed_cons w ws more⟩
  have hc0 : ({ init_command_line L with command_line := text } :
      command_line_t).num_commands < L.MAX_CMDS := by
    show 0 < L.MAX_CMDS
    omega
  have hlt0 : ({ init_command_line L with command_line := text, tokens := w :: tl } :
      command_line_t).num_commands < L.MAX_CMDS := hc0
  rw [hJ, plan_cons_eq L os _ w tl hc0]
  have hcore := plan_mixed L os hpipes more (w :: ws)
    { cmdl := (add_processus L
        { init_command_line L with command_line := text, tokens := w :: tl } .UNCONDITIONAL).2,
      calls := 0, rest := w :: tl, argv_index := 0,
      current_proc := some (init_command_line L).num_commands } 0 0 hg hmore
    hJ.symm rfl (add_processus_num L _ .UNCONDITIONAL hlt0) rfl
    (by rw [add_processus_commands L _ .UNCONDITIONAL hlt0]; simp [init_command_line]; rfl)
    (by omega)
  simp only [Nat.add_zero, Nat.zero_add] at hcore
  obtain ⟨c1, c2, _, c4, c5⟩ := hcore
  refine ⟨c1, c2, fun i hi => ?_, c4, c5⟩
  rw [c2] at hi
  cases i with
  | zero => rw [c4]; exact hg.1
  | succ i =>
    cases hp : more.get? i with
    | none => rw [List.get?_eq_none] at hp; omega
    | some p =>
      rw [show i + 1 = 1 + i by omega, c5 i p hp]
      exact (hmore p (List.get?_mem hp)).1

/-- An instance: the line `a b | c && d ; e || f` has five nodes, none empty. -/
theorem mixed_line_nodes_example :
    tokenize demoLimits emptyEnv "a b | c && d ; e || f".toList
      = some (join_mixed [['a'], ['b']]
          [(.pipe, [['c']]), (.and_then, [['d']]), (.semi, [['e']]), (.or_else, [['f']])]) ∧
    (demoParse "a b | c && d ; e || f").ret = some 0 ∧
    (demoParse "a b | c && d ; e || f").cmdl.num_commands = 1 + 4 ∧
    (∀ i, i < (demoParse "a b | c && d ; e || f").cmdl.num_commands →
      (demoNode "a b | c && d ; e || f" i).argv ≠ []) :=
  have h := mixed_line_nodes demoLimits demoPlanOS emptyEnv "a b | c && d ; e || f".toList
    [['a'], ['b']]
    [(.pipe, [['c']]), (.and_then, [['d']]), (.semi, [['e']]), (.or_else, [['f']])]
    (by decide) (by decide) (by decide) (by decide) (fun n => rfl)
  ⟨by decide, h.1, h.2.1, h.2.2.1⟩

/-! ## Operators arrive as tokens of their own -/

theorem iso_mono : ∀ (t : CStr) (b : Bool), Isolated b t → Isolated true t := by
  intro t b h
  cases t with
  | nil => trivial
  | cons c t =>
    unfold Isolated at h ⊢
    split
    · rename_i hc
      rw [if_pos hc] at h
      exact ⟨rfl, h.2⟩
    · rename_i hc
      rw [if_neg hc] at h
      exact h

theorem iso_of_false (t : CStr) (b : Bool) (h : Isolated false t) : Isolated b t := by
  cases t with
  | nil => trivial
  | cons c t =>
    unfold Isolated at h ⊢
    split
    · rename_i hc
      rw [if_pos hc] at h
      exact absurd h.1 (by simp)
    · rename_i hc
      rw [if_neg hc] at h
      exact h

theorem iso_initial : ∀ (x y : CStr) (b : Bool), Isolated b (x ++ y) → Isolated b x := by
  intro x
  induction x with
  | nil => intro y b _; trivial
  | cons c x ih =>
    intro y b h
    rw [List.cons_append] at h
    unfold Isolated at h ⊢
    split
    · rename_i hc
      rw [if_pos hc] at h
      refine ⟨h.1, ?_, ih y false h.2.2⟩
      cases x with
      | nil => exact Or.inl rfl
      | cons d x =>
        right
        rcases h.2.1 with h1 | h1
        · simp at h1
        · simpa using h1
    · rename_i hc
      rw [if_neg hc] at h
      exact ih y _ h

theorem iso_final : ∀ (x : CStr) (d : Char) (y : CStr) (b : Bool),
    Isolated b (x ++ d :: y) → Isolated (decide (d = ' ')) y := by
  intro x
  induction x with
  | nil =>
    intro d y b h
    rw [List.nil_append] at h
    unfold Isolated at h
    split at h
    · rename_i hc
      exact iso_of_false _ _ h.2.2
    · exact h
  | cons c x ih =>
    intro d y b h
    rw [List.cons_append] at h
    unfold Isolated at h
    split at h
    · exact ih d y false h.2.2
    · exact ih d y _ h

theorem isspace_not_op (c : Char) (h : isspace c = true) : c ∉ opchars := by
  intro hc
  simp only [opchars, List.mem_cons, List.mem_singleton, List.not_mem_nil, or_false] at hc
  rcases hc with rfl | rfl | rfl | rfl | rfl | rfl <;> simp [isspace] at h

theorem iso_drop_space : ∀ (t : CStr) (b : Bool), Isolated b t →
    Isolated true (t.dropWhile isspace) := by
  intro t
  induction t with
  | nil => intro b _; trivial
  | cons c t ih =>
    intro b h
    by_cases hs : isspace c = true
    · rw [List.dropWhile_cons_of_pos hs]
      unfold Isolated at h
      rw [if_neg (isspace_not_op c hs)] at h
      exact ih _ h
    · rw [List.dropWhile_cons_of_neg hs]
      exact iso_mono _ b h

theorem iso_trim (t : CStr) (h : Isolated true t) : Isolated true (trim t) := by
  unfold trim
  apply iso_drop_space _ true
  have hsplit := List.takeWhile_append_dropWhile
    (fun c => isspace c || decide (c = '\n')) t.reverse
  have ht : t = (t.reverse.dropWhile (fun c => isspace c || decide (c = '\n'))).reverse
      ++ (t.reverse.takeWhile (fun c => isspace c || decide (c = '\n'))).reverse := by
    rw [← List.reverse_append, hsplit, List.reverse_reverse]
  rw [ht] at h
  exact iso_initial _ _ true h

theorem iso_clean_loop : ∀ (src : CStr) (sf b b1 : Bool), Isolated b src →
    (b = true → b1 = true) → (sf = true → b1 = true) → Isolated b1 (clean_loop sf src) := by
  intro src
  induction src with
  | nil => intro sf b b1 _ _ _; trivial
  | cons c src ih =>
    intro sf b b1 h hb hsf
    unfold clean_loop
    by_cases hs : isspace c = true
    · rw [if_pos hs]
      have hnop := isspace_not_op c hs
      unfold Isolated at h
      rw [if_neg hnop] at h
      by_cases hsf1 : sf = true
      · rw [if_pos hsf1]
        exact ih true _ b1 h (fun _ => hsf hsf1) (fun _ => hsf hsf1)
      · rw [if_neg hsf1]
        unfold Isolated
        rw [if_neg (by decide)]
        exact ih true _ _ h (fun _ => rfl) (fun _ => rfl)
    · rw [if_neg hs]
      have hsp : c ≠ ' ' := by
        intro hc; rw [hc] at hs; exact hs (by decide)
      unfold Isolated at h ⊢
      by_cases hop : c ∈ opchars
      · rw [if_pos hop] at h ⊢
        refine ⟨hb h.1, ?_, ih false false false h.2.2 (by simp) (by simp)⟩
        rcases h.2.1 with h1 | h1
        · left; rw [h1]; rfl
        · right
          cases src with
          | nil => simp at h1
          | cons d src =>
            simp only [List.head?_cons, Option.some.injEq] at h1
            subst h1
            rfl
      · rw [if_neg hop] at h ⊢
        simp only [hsp, decide_False] at h ⊢
        exact ih false false false h (by simp) (by simp)

theorem iso_separate_loop (max : Nat) : ∀ (str : CStr) (j : Nat) (b : Bool),
    Isolated b (separate_loop opchars max str j) := by
  intro str
  induction str with
  | nil => intro j b; trivial
  | cons c str ih =>
    intro j b
    unfold separate_loop
    split
    · by_cases hop : c ∈ opchars
      · have hc : opchars.contains c = true := by simpa using hop
        rw [if_pos hc]
        unfold Isolated
        rw [if_neg (by decide)]
        unfold Isolated
        rw [if_pos hop]
        refine ⟨by decide, Or.inr rfl, ?_⟩
        unfold Isolated
        rw [if_neg (by decide)]
        exact ih _ _
      · have hc : ¬ opchars.contains c = true := by simpa using hop
        rw [if_neg hc]
        unfold Isolated
        rw [if_neg hop]
        exact ih _ _
    · trivial

theorem iso_clean (src : CStr) (h : Isolated true src) : Isolated true (clean src) := by
  unfold clean
  exact iso_trim _ (iso_clean_loop src false true true h (fun _ => rfl) (fun _ => rfl))

theorem separate_s_isolated (str : CStr) (max : Nat) (out : CStr)
    (h : separate_s str opchars max = some out) : Isolated true out := by
  unfold separate_s at h
  simp only [ge_iff_le] at h
  split at h
  · cases h
  · injection h with h
    rw [← h]
    exact iso_clean _ (iso_separate_loop max str 0 true)

theorem iso_plain_append : ∀ (v out : CStr) (b : Bool), (∀ c ∈ v, c ∉ opchars) →
    Isolated false out → Isolated b (v ++ out) := by
  intro v
  induction v with
  | nil => intro out b _ h; exact iso_of_false _ b h
  | cons c v ih =>
    intro out b hv h
    rw [List.cons_append]
    unfold Isolated
    rw [if_neg (hv c (List.mem_cons_self _ _))]
    exact ih out _ (fun d hd => hv d (List.mem_cons_of_mem _ hd)) h

theorem iso_drop_name : ∀ (t : CStr), Isolated false t →
    Isolated false (t.dropWhile isnamechar) := by
  intro t
  induction t with
  | nil => intro _; trivial
  | cons c t ih =>
    intro h
    by_cases hs : isnamechar c = true
    · rw [List.dropWhile_cons_of_pos hs]
      have hnop : c ∉ opchars := by
        intro hc
        simp only [opchars, List.mem_cons, List.mem_singleton, List.not_mem_nil, or_false] at hc
        rcases hc with rfl | rfl | rfl | rfl | rfl | rfl <;> revert hs <;> decide
      have hsp : c ≠ ' ' := by
        intro hc; rw [hc] at hs; revert hs; decide
      unfold Isolated at h
      rw [if_neg hnop] at h
      simp only [hsp, decide_False] at h
      exact ih h
    · rw [List.dropWhile_cons_of_neg hs]
      exact h

theorem iso_after_name (str : CStr) (h : Isolated false str) :
    Isolated false (read_varname str).2 := by
  unfold read_varname
  split
  · rename_i body
    show Isolated false ((body.dropWhile (fun c => decide (c ≠ '}'))).drop 1)
    have hb : Isolated false body := by
      unfold Isolated at h
      rw [if_neg (by decide)] at h
      exact h
    cases hd : body.dropWhile (fun c => decide (c ≠ '}')) with
    | nil => trivial
    | cons d y =>
      have hsplit := List.takeWhile_append_dropWhile (fun c => decide (c ≠ '}')) body
      rw [hd] at hsplit
      rw [← hsplit] at hb
      have hdc : d = '}' := by
        have := List.head_dropWhile_not (fun c => decide (c ≠ '}')) body
          (by rw [hd]; simp)
        simp only [hd, List.head_cons] at this
        simpa using this
      have := iso_final _ d y false hb
      rw [hdc] at this
      exact this
  · exact iso_drop_name _ h

theorem iso_substenv_loop (getenv : CStr → Option CStr) (max : Nat)
    (henv : ∀ name val, getenv name = some val → ∀ c ∈ val, c ∉ opchars) :
    ∀ (n : Nat) (str : CStr) (j : Nat) (b b1 : Bool) (out : CStr), Isolated b str →
      (b = true → b1 = true) → substenv_loop getenv max n str j = some out →
      Isolated b1 out := by
  intro n
  induction n with
  | zero =>
    intro str j b b1 out _ _ h
    simp only [substenv_loop] at h
    injection h with h
    rw [← h]; trivial
  | succ n ih =>
    intro str j b b1 out hstr hb h
    cases str with
    | nil =>
      simp only [substenv_loop] at h
      injection h with h
      rw [← h]; trivial
    | cons c str =>
      unfold substenv_loop at h
      by_cases hj : j < max - 1
      · rw [if_pos hj] at h
        by_cases hc : c = '$'
        · rw [if_pos hc] at h
          subst hc
          have hrest : Isolated false (read_varname str).2 := by
            apply iso_after_name
            unfold Isolated at hstr
            rw [if_neg (by decide)] at hstr
            exact hstr
          cases hv : getenv (read_varname str).1 with
          | none =>
            rw [hv] at h
            exact iso_of_false _ _ (ih _ j false false out hrest (by simp) h)
          | some val =>
            rw [hv] at h
            simp only [] at h
            split at h
            · cases h
            · cases hr : substenv_loop getenv max n (read_varname str).2 (j + val.length) with
              | none => rw [hr] at h; simp at h
              | some out1 =>
                rw [hr] at h
                simp only [Option.map_some', Option.some.injEq] at h
                rw [← h]
                exact iso_plain_append val out1 b1 (henv _ val hv)
                  (ih _ _ false false out1 hrest (by simp) hr)
        · rw [if_neg hc] at h
          cases hr : substenv_loop getenv max n str (j + 1) with
          | none => rw [hr] at h; simp at h
          | some out1 =>
            rw [hr] at h
            simp only [Option.map_some', Option.some.injEq] at h
            rw [← h]
            unfold Isolated at hstr ⊢
            by_cases hop : c ∈ opchars
            · rw [if_pos hop] at hstr ⊢
              refine ⟨hb hstr.1, ?_, ih str (j + 1) false false out1 hstr.2.2 (by simp) hr⟩
              rcases hstr.2.1 with h1 | h1
              · left
                rw [h1] at hr
                cases n <;> simp [substenv_loop] at hr <;> exact hr
              · cases str with
                | nil => simp at h1
                | cons d str =>
                  simp only [List.head?_cons, Option.some.injEq] at h1
                  subst h1
                  cases n with
                  | zero =>
                    simp only [substenv_loop, Option.some.injEq] at hr
                    left; exact hr.symm
                  | succ n =>
                    unfold substenv_loop at hr
                    by_cases hj1 : j + 1 < max - 1
                    · rw [if_pos hj1, if_neg (by decide)] at hr
                      cases hr2 : substenv_loop getenv max n str (j + 1 + 1) with
                      | none => rw [hr2] at hr; simp at hr
                      | some out2 =>
                        rw [hr2] at hr
                        simp only [Option.map_some', Option.some.injEq] at hr
                        right; rw [← hr]; rfl
                    · rw [if_neg hj1] at hr
                      injection hr with hr
                      left; exact hr.symm
            · rw [if_neg hop] at hstr ⊢
              exact ih str (j + 1) _ _ out1 hstr (fun hh => hh) hr
      · rw [if_neg hj] at h
        injection h with h
        rw [← h]; trivial

theorem strtok_all_good : ∀ (t cur : CStr),
    ((∀ c ∈ cur, c ∉ opchars) ∧ ∃ b : Bool, (b = true → cur = []) ∧ Isolated b t) ∨
      ((∃ c, c ∈ opchars ∧ cur = [c]) ∧ (t = [] ∨ t.head? = some ' ') ∧ Isolated false t) →
    ∀ tok ∈ strtok_all ' ' t cur, GoodToken tok := by
  intro t
  induction t with
  | nil =>
    intro cur h tok htok
    unfold strtok_all at htok
    split at htok
    · simp at htok
    · rw [List.mem_singleton] at htok
      subst htok
      rcases h with ⟨hplain, _⟩ | ⟨⟨c, hc, rfl⟩, _⟩
      · intro c hc hop
        exact absurd hop (hplain c (List.mem_reverse.mp hc))
      · intro d hd _
        simp only [List.reverse_cons, List.reverse_nil, List.nil_append, List.mem_singleton] at hd ⊢
        rw [hd]
  | cons d t ih =>
    intro cur h tok htok
    have hcur : cur ≠ [] → GoodToken cur.reverse := by
      intro _
      rcases h with ⟨hplain, _⟩ | ⟨⟨c, hc, rfl⟩, _⟩
      · intro c hc hop
        exact absurd hop (hplain c (List.mem_reverse.mp hc))
      · intro e he _
        simp only [List.reverse_cons, List.reverse_nil, List.nil_append, List.mem_singleton] at he ⊢
        rw [he]
    unfold strtok_all at htok
    by_cases hd : d = ' '
    · rw [if_pos hd] at htok
      subst hd
      have hnext : Isolated true t := by
        rcases h with ⟨_, b, _, hiso⟩ | ⟨_, _, hiso⟩
        · unfold Isolated at hiso
          rw [if_neg (by decide)] at hiso
          exact hiso
        · unfold Isolated at hiso
          rw [if_neg (by decide)] at hiso
          exact hiso
      have hrec := ih [] (Or.inl ⟨by simp, true, fun _ => rfl, hnext⟩)
      split at htok
      · exact hrec tok htok
      · rename_i hne
        rcases List.mem_cons.mp htok with h1 | h1
        · rw [h1]
          exact hcur (by intro hc; rw [hc] at hne; exact hne rfl)
        · exact hrec tok h1
    · rw [if_neg hd] at htok
      rcases h with ⟨hplain, b, hb, hiso⟩ | ⟨_, hsp, _⟩
      · unfold Isolated at hiso
        by_cases hop : d ∈ opchars
        · rw [if_pos hop] at hiso
          have hc0 := hb hiso.1
          subst hc0
          exact ih [d] (Or.inr ⟨⟨d, hop, rfl⟩, hiso.2.1, hiso.2.2⟩) tok htok
        · rw [if_neg hop] at hiso
          simp only [hd, decide_False] at hiso
          refine ih (d :: cur) (Or.inl ⟨?_, false, by simp, hiso⟩) tok htok
          intro c hc
          rcases List.mem_cons.mp hc with h1 | h1
          · rw [h1]; exact hop
          · exact hplain c h1
      · exfalso
        rcases hsp with h1 | h1
        · cases h1
        · simp only [List.head?_cons, Option.some.injEq] at h1
          exact hd h1

theorem tokenize_good (L : Limits) (getenv : CStr → Option CStr) (line : CStr) (ts : List CStr)
    (henv : ∀ name val, getenv name = some val → ∀ c ∈ val, c ∉ opchars)
    (htok : tokenize L getenv line = some ts) : ∀ tok ∈ ts, GoodToken tok := by
  unfold tokenize normalise at htok
  cases hs : separate_s (clean (trim (List.take (L.MAX_CMD_LINE - 1) line)))
      [';', '|', '&', '<', '>', '!'] L.MAX_CMD_LINE with
  | none => simp [hs] at htok
  | some sep =>
    simp only [hs] at htok
    cases hv : substenv getenv sep L.MAX_CMD_LINE with
    | none => simp [hv] at htok
    | some text =>
      simp only [hv, Option.map_some', Option.some.injEq] at htok
      have h1 : Isolated true sep := separate_s_isolated _ _ _ hs
      have h2 : Isolated true text :=
        iso_substenv_loop getenv L.MAX_CMD_LINE henv _ sep 0 true true text h1 (fun h => h) hv
      intro tok htk
      rw [← htok] at htk
      unfold strcut at htk
      exact strtok_all_good text [] (Or.inl ⟨by simp, true, fun _ => rfl, h2⟩) tok
        (List.mem_of_mem_take htk)

/-- C12 (counterexample): with `X` set to `a;b` the line `echo $X` reaches the
planner as the two tokens `echo` and `a;b`; the second holds `;` and is not
that character alone. Substitution runs after the operators were separated. -/
theorem C12_counterexample :
    tokenize demoLimits opEnv "echo $X".toList = some ["echo".toList, "a;b".toList] ∧
    ';' ∈ "a;b".toList ∧ "a;b".toList ≠ [';'] := by
  refine ⟨by decide, by decide, by decide⟩

/-- C12 (amended): when no value of the environment holds one of the characters
`;`, `|`, `&`, `<`, `>`, `!`, every token that `parse_command_line` hands to the
planner and that holds one of these characters is that character alone. This
holds for every line that is normalised without failure, truncated or not. -/
theorem C12_operators_alone (L : Limits) (os : PlanOS) (getenv : CStr → Option CStr)
    (c : command_line_t) (line : CStr) (ts : List CStr)
    (henv : ∀ name val, getenv name = some val → plain_word val)
    (htok : tokenize L getenv line = some ts) :
    (∃ text, parse_command_line L os getenv c line
      = plan L os { c with command_line := text } ts) ∧
    (∀ tok ∈ ts, ∀ d ∈ tok, d ∈ [';', '|', '&', '<', '>', '!'] → tok = [d]) :=
  ⟨parse_eq_plan L os getenv c line ts htok, tokenize_good L getenv line ts henv htok⟩

/-- C12 (witness): with `X` set to `a b`, the line `echo $X;ls>out&&!x`. -/
theorem C12_operators_alone_witness :
    tokenize demoLimits wordEnv "echo $X;ls>out&&!x".toList
      = some [['e', 'c', 'h', 'o'], ['a'], ['b'], [';'], ['l', 's'], ['>'], ['o', 'u', 't'],
          ['&'], ['&'], ['!'], ['x']] ∧
    (∀ tok ∈ [['e', 'c', 'h', 'o'], ['a'], ['b'], [';'], ['l', 's'], ['>'], ['o', 'u', 't'],
          ['&'], ['&'], ['!'], ['x']],
      ∀ d ∈ tok, d ∈ [';', '|', '&', '<', '>', '!'] → tok = [d]) :=
  ⟨by decide,
    (C12_operators_alone demoLimits demoPlanOS wordEnv (init_command_line demoLimits)
      "echo $X;ls>out&&!x".toList _
      (by
        intro name val h
        unfold wordEnv at h
        split at h
        · injection h with h; rw [← h]; decide
        · cases h)
      (by decide)).2⟩

/-! ## Normalising a normalised line -/

theorem rdrop_cons_keep {p : Char → Bool} (c : Char) (y : CStr)
    (h : List.rdropWhile p y ≠ []) : List.rdropWhile p (c :: y) = c :: List.rdropWhile p y := by
  unfold List.rdropWhile at h ⊢
  rw [List.reverse_cons, List.dropWhile_append]
  have : (List.dropWhile p y.reverse).isEmpty = false := by
    cases hd : List.dropWhile p y.reverse with
    | nil => rw [hd] at h; exact absurd rfl h
    | cons a l => rfl
  rw [this]
  simp

theorem rdrop_cons_word {p : Char → Bool} (c : Char) (y : CStr) (hc : p c = false) :
    List.rdropWhile p (c :: y) = c :: List.rdropWhile p y := by
  by_cases h : List.rdropWhile p y = []
  · unfold List.rdropWhile at h ⊢
    rw [List.reverse_cons, List.dropWhile_append]
    have h1 : List.dropWhile p y.reverse = [] := by simpa using h
    rw [h1]
    simp [List.dropWhile, hc]
  · exact rdrop_cons_keep c y h

theorem loose_of_true : ∀ (t : CStr) (b : Bool), Loose true t → Loose b t := by
  intro t b h
  cases t with
  | nil => trivial
  | cons c t =>
    unfold Loose at h ⊢
    split
    · rename_i hc
      rw [if_pos hc] at h
      exact absurd h.1 (by simp)
    · rename_i hc
      rw [if_neg hc] at h
      exact h

theorem loose_to_false : ∀ (t : CStr) (b : Bool), Loose b t → Loose false t := by
  intro t b h
  cases b with
  | false => exact h
  | true => exact loose_of_true t false h

theorem loose_clean_loop : ∀ (x : CStr) (sf : Bool), Loose sf (clean_loop sf x) := by
  intro x
  induction x with
  | nil => intro sf; trivial
  | cons c x ih =>
    intro sf
    unfold clean_loop
    split
    · split
      · rename_i h; rw [h]; exact ih true
      · rename_i h
        unfold Loose
        rw [if_pos rfl]
        exact ⟨by simpa using h, ih true⟩
    · rename_i hs
      have hc : c ≠ ' ' := by intro hc; rw [hc] at hs; exact hs (by decide)
      unfold Loose
      rw [if_neg hc]
      exact ⟨by simpa using hs, ih false⟩

theorem clean_loop_of_loose : ∀ (t : CStr) (b : Bool), Loose b t → clean_loop b t = t := by
  intro t
  induction t with
  | nil => intro b _; rfl
  | cons c t ih =>
    intro b h
    unfold Loose at h
    unfold clean_loop
    by_cases hc : c = ' '
    · rw [if_pos hc] at h
      subst hc
      rw [if_pos (by decide), h.1]
      simp only [Bool.false_eq_true, if_false]
      rw [ih true h.2]
    · rw [if_neg hc] at h
      rw [if_neg (by rw [h.1]; simp), ih false h.2]

theorem loose_initial : ∀ (x y : CStr) (b : Bool), Loose b (x ++ y) → Loose b x := by
  intro x
  induction x with
  | nil => intro y b _; trivial
  | cons c x ih =>
    intro y b h
    rw [List.cons_append] at h
    unfold Loose at h ⊢
    split
    · rename_i hc
      rw [if_pos hc] at h
      exact ⟨h.1, ih y true h.2⟩
    · rename_i hc
      rw [if_neg hc] at h
      exact ⟨h.1, ih y false h.2⟩

theorem loose_drop_space : ∀ (y : CStr) (b : Bool), Loose b y →
    Loose false (y.dropWhile isspace) := by
  intro y
  induction y with
  | nil => intro b _; trivial
  | cons c y ih =>
    intro b h
    by_cases hs : isspace c = true
    · rw [List.dropWhile_cons_of_pos hs]
      unfold Loose at h
      split at h
      · exact ih true h.2
      · rw [hs] at h; exact absurd h.1 (by simp)
    · rw [List.dropWhile_cons_of_neg hs]
      exact loose_to_false _ b h

theorem trailing_eq_isspace (c : Char) : (isspace c || decide (c = '\n')) = isspace c := by
  by_cases h : c = '\n'
  · subst h; decide
  · simp [h]

theorem head_drop_space : ∀ (y : CStr) (c : Char),
    (y.dropWhile isspace).head? = some c → isspace c = false := by
  intro y
  induction y with
  | nil => intro c h; simp at h
  | cons d y ih =>
    intro c h
    by_cases hs : isspace d = true
    · rw [List.dropWhile_cons_of_pos hs] at h
      exact ih c h
    · rw [List.dropWhile_cons_of_neg hs] at h
      simp only [List.head?_cons, Option.some.injEq] at h
      rw [← h]
      simpa using hs

theorem last_append_ne_nil : ∀ (a d : CStr), d ≠ [] → (a ++ d).getLast? = d.getLast? := by
  intro a
  induction a with
  | nil => intro d _; rfl
  | cons x a ih =>
    intro d hd
    cases had : a ++ d with
    | nil =>
      have := List.append_eq_nil.mp had
      exact absurd this.2 hd
    | cons z l =>
      rw [List.cons_append, had, List.getLast?_cons_cons, ← had]
      exact ih d hd

theorem rdrop_initial (p : Char → Bool) (y : CStr) :
    y = List.rdropWhile p y ++ (y.reverse.takeWhile p).reverse := by
  have hsplit := List.takeWhile_append_dropWhile p y.reverse
  unfold List.rdropWhile
  rw [← List.reverse_append, hsplit, List.reverse_reverse]

theorem tidy_trim (y : CStr) (h : Loose false y) : Tidy (trim y) := by
  have htrim : trim y = List.dropWhile isspace
      (List.rdropWhile (fun c => isspace c || decide (c = '\n')) y) := rfl
  rw [htrim]
  have hr : Loose false (List.rdropWhile (fun c => isspace c || decide (c = '\n')) y) := by
    have hy := rdrop_initial (fun c => isspace c || decide (c = '\n')) y
    rw [hy] at h
    exact loose_initial _ _ false h
  refine ⟨loose_drop_space _ false hr, head_drop_space _, ?_⟩
  intro c hc
  by_cases hd : List.dropWhile isspace
      (List.rdropWhile (fun c => isspace c || decide (c = '\n')) y) = []
  · rw [hd] at hc; simp at hc
  · have hsplit := List.takeWhile_append_dropWhile isspace
      (List.rdropWhile (fun c => isspace c || decide (c = '\n')) y)
    have hlast := last_append_ne_nil
      (List.takeWhile isspace (List.rdropWhile (fun c => isspace c || decide (c = '\n')) y)) _ hd
    rw [hsplit] at hlast
    rw [← hlast] at hc
    have hne : List.rdropWhile (fun c => isspace c || decide (c = '\n')) y ≠ [] := by
      intro h0; rw [h0] at hc; simp at hc
    have hnot := List.rdropWhile_last_not (fun c => isspace c || decide (c = '\n')) y hne
    rw [List.getLast?_eq_getLast _ hne] at hc
    injection hc with hc
    rw [hc, trailing_eq_isspace] at hnot
    simpa using hnot

theorem trim_of_tidy (t : CStr) (h : Tidy t) : trim t = t := by
  have htrim : trim t = List.dropWhile isspace
      (List.rdropWhile (fun c => isspace c || decide (c = '\n')) t) := rfl
  have h1 : List.rdropWhile (fun c => isspace c || decide (c = '\n')) t = t := by
    rw [List.rdropWhile_eq_self_iff]
    intro hl
    have := h.2.2 _ (List.getLast?_eq_getLast _ hl)
    rw [trailing_eq_isspace, this]
    simp
  rw [htrim, h1]
  cases t with
  | nil => rfl
  | cons c t =>
    have := h.2.1 c rfl
    rw [List.dropWhile_cons_of_neg (by rw [this]; simp)]

theorem tidy_clean (x : CStr) : Tidy (clean x) :=
  tidy_trim _ (loose_clean_loop x false)

theorem clean_of_tidy (t : CStr) (h : Tidy t) : clean t = t := by
  unfold clean
  rw [clean_loop_of_loose t false h.1]
  exact trim_of_tidy t h

theorem lastOk_tail (c : Char) (t : CStr) (h : LastOk (c :: t)) : LastOk t := by
  cases t with
  | nil => intro d hd; simp at hd
  | cons e t =>
    intro d hd
    exact h d (by rw [List.getLast?_cons_cons]; exact hd)

theorem lastOk_space (t : CStr) (h : LastOk (' ' :: t)) : t ≠ [] := by
  intro h0
  subst h0
  have := h ' ' rfl
  revert this
  decide

theorem clean_separate_core (max : Nat) :
    ∀ (t : CStr) (sf : Bool) (j : Nat), Loose sf t → Isolated sf t → LastOk t →
      j + 3 * t.length ≤ max - 2 →
      List.rdropWhile (fun c => isspace c || decide (c = '\n'))
        (clean_loop sf (separate_loop opchars max t j)) = t := by
  intro t
  induction t with
  | nil => intro sf j _ _ _ _; rfl
  | cons c t ih =>
    intro sf j hloose hiso hlast hj
    simp only [List.length_cons] at hj
    have hj0 : j < max - 2 := by omega
    unfold separate_loop
    rw [if_pos hj0]
    unfold Loose at hloose
    unfold Isolated at hiso
    by_cases hc : c = ' '
    · subst hc
      rw [if_pos rfl] at hloose
      rw [if_neg (by decide)] at hiso
      rw [if_neg (by decide), hloose.1]
      have hne := lastOk_space t hlast
      have hrec := ih true (j + 1) hloose.2 hiso (lastOk_tail _ t hlast) (by omega)
      show List.rdropWhile _ (' ' :: clean_loop true (separate_loop opchars max t (j + 1))) = _
      rw [rdrop_cons_keep _ _ (by rw [hrec]; exact hne), hrec]
    · rw [if_neg hc] at hloose
      have hpc : (isspace c || decide (c = '\n')) = false := by
        rw [trailing_eq_isspace]; exact hloose.1
      have hcl : ∀ (b : Bool) (x : CStr), clean_loop b (c :: x) = c :: clean_loop false x := by
        intro b x
        rw [clean_loop, if_neg (by rw [hloose.1]; simp)]
      by_cases hop : c ∈ opchars
      · rw [if_pos hop] at hiso
        rw [if_pos (by simpa using hop), hiso.1]
        have hE : clean_loop true (' ' :: c :: ' ' :: separate_loop opchars max t (j + 3))
            = c :: ' ' :: clean_loop true (separate_loop opchars max t (j + 3)) := by
          show clean_loop true (c :: ' ' :: separate_loop opchars max t (j + 3)) = _
          rw [hcl]
          rfl
        rw [hE]
        rcases hiso.2.1 with ht | ht
        · subst ht
          show List.rdropWhile _ [c, ' '] = [c]
          rw [rdrop_cons_word c _ hpc]
          rfl
        · cases t with
          | nil => simp at ht
          | cons d t =>
            simp only [List.head?_cons, Option.some.injEq] at ht
            subst ht
            have hrec := ih false (j + 3) hloose.2 hiso.2.2 (lastOk_tail _ _ hlast) (by omega)
            have hS : ' ' :: clean_loop true (separate_loop opchars max (' ' :: t) (j + 3))
                = clean_loop false (separate_loop opchars max (' ' :: t) (j + 3)) := by
              simp only [List.length_cons] at hj
              unfold separate_loop
              rw [if_pos (by omega), if_neg (by decide)]
              rfl
            rw [hS, rdrop_cons_word c _ hpc, hrec]
      · rw [if_neg hop] at hiso
        simp only [hc, decide_False] at hiso
        rw [if_neg (by simpa using hop), hcl]
        have hrec := ih false (j + 1) hloose.2 hiso (lastOk_tail _ t hlast) (by omega)
        rw [rdrop_cons_word c _ hpc, hrec]

theorem clean_loop_false_true (x : CStr) :
    clean_loop false x = clean_loop true x ∨ clean_loop false x = ' ' :: clean_loop true x := by
  cases x with
  | nil => exact Or.inl rfl
  | cons d x =>
    by_cases hs : isspace d = true
    · right
      unfold clean_loop
      rw [if_pos hs, if_pos hs]
      rfl
    · left
      unfold clean_loop
      rw [if_neg hs, if_neg hs]

theorem clean_separate_of_tidy (max : Nat) (t : CStr) (ht : Tidy t) (hiso : Isolated true t)
    (hlen : 3 * t.length ≤ max - 2) : clean (separate_loop opchars max t 0) = t := by
  have hl : Loose true t := by
    cases t with
    | nil => trivial
    | cons c t =>
      have hc := ht.2.1 c rfl
      have h1 := ht.1
      unfold Loose at h1 ⊢
      have hne : c ≠ ' ' := by intro h; rw [h] at hc; revert hc; decide
      rw [if_neg hne] at h1 ⊢
      exact h1
  have hcore := clean_separate_core max t true 0 hl hiso ht.2.2 (by omega)
  have hdrop : List.dropWhile isspace t = t := by
    cases t with
    | nil => rfl
    | cons c t =>
      have := ht.2.1 c rfl
      rw [List.dropWhile_cons_of_neg (by rw [this]; simp)]
  have htrim : ∀ z, trim z = List.dropWhile isspace
      (List.rdropWhile (fun c => isspace c || decide (c = '\n')) z) := fun _ => rfl
  unfold clean
  rw [htrim]
  rcases clean_loop_false_true (separate_loop opchars max t 0) with h | h
  · rw [h, hcore, hdrop]
  · rw [h]
    by_cases h0 : t = []
    · subst h0
      have : List.rdropWhile (fun c => isspace c || decide (c = '\n'))
          (' ' :: clean_loop true (separate_loop opchars max [] 0)) = [] := by
        rw [List.rdropWhile_eq_nil_iff]
        intro x hx
        rcases List.mem_cons.mp hx with h1 | h1
        · rw [h1]; rfl
        · exact (List.rdropWhile_eq_nil_iff.mp hcore) x h1
      rw [this]
      rfl
    · rw [rdrop_cons_keep _ _ (by rw [hcore]; exact h0), hcore,
        List.dropWhile_cons_of_pos (by decide), hdrop]

theorem mem_trim (x : CStr) (c : Char) (h : c ∈ trim x) : c ∈ x := by
  unfold trim at h
  have h1 := (List.dropWhile_sublist isspace).subset h
  have h2 := (List.dropWhile_sublist _).subset (List.mem_reverse.mp h1)
  exact List.mem_reverse.mp h2

theorem mem_clean_loop : ∀ (x : CStr) (sf : Bool) (c : Char), c ∈ clean_loop sf x →
    c ∈ x ∨ c = ' ' := by
  intro x
  induction x with
  | nil => intro sf c h; simp [clean_loop] at h
  | cons d x ih =>
    intro sf c h
    rw [clean_loop] at h
    split at h
    · split at h
      · rcases ih true c h with h1 | h1
        · exact Or.inl (List.mem_cons_of_mem _ h1)
        · exact Or.inr h1
      · rcases List.mem_cons.mp h with h1 | h1
        · exact Or.inr h1
        · rcases ih true c h1 with h2 | h2
          · exact Or.inl (List.mem_cons_of_mem _ h2)
          · exact Or.inr h2
    · rcases List.mem_cons.mp h with h1 | h1
      · left; rw [h1]; exact List.mem_cons_self _ _
      · rcases ih false c h1 with h2 | h2
        · exact Or.inl (List.mem_cons_of_mem _ h2)
        · exact Or.inr h2

theorem mem_separate_loop (s : CStr) (max : Nat) : ∀ (x : CStr) (j : Nat) (c : Char),
    c ∈ separate_loop s max x j → c ∈ x ∨ c = ' ' := by
  intro x
  induction x with
  | nil => intro j c h; simp [separate_loop] at h
  | cons d x ih =>
    intro j c h
    rw [separate_loop] at h
    split at h
    · split at h
      · simp only [List.mem_cons] at h
        rcases h with h1 | h1 | h1 | h1
        · exact Or.inr h1
        · left; rw [h1]; exact List.mem_cons_self _ _
        · exact Or.inr h1
        · rcases ih _ c h1 with h2 | h2
          · exact Or.inl (List.mem_cons_of_mem _ h2)
          · exact Or.inr h2
      · rcases List.mem_cons.mp h with h1 | h1
        · left; rw [h1]; exact List.mem_cons_self _ _
        · rcases ih _ c h1 with h2 | h2
          · exact Or.inl (List.mem_cons_of_mem _ h2)
          · exact Or.inr h2
    · simp at h

theorem mem_clean (x : CStr) (c : Char) (h : c ∈ clean x) : c ∈ x ∨ c = ' ' :=
  mem_clean_loop x false c (mem_trim _ c h)

theorem separate_s_no_dollar (line : CStr) (max m : Nat) (t : CStr)
    (hd : ∀ c ∈ line, c ≠ '$')
    (h : separate_s (clean (trim (line.take m))) opchars max = some t) :
    ∀ c ∈ t, c ≠ '$' := by
  unfold separate_s at h
  simp only [ge_iff_le] at h
  split at h
  · cases h
  · injection h with h
    intro c hc hdollar
    subst hdollar
    rw [← h] at hc
    have hsp : ¬ '$' = ' ' := by decide
    rcases mem_clean _ _ hc with h1 | h1
    · rcases mem_separate_loop _ _ _ _ _ h1 with h2 | h2
      · rcases mem_clean _ _ h2 with h3 | h3
        · exact hd _ (List.mem_of_mem_take (mem_trim _ _ h3)) rfl
        · exact hsp h3
      · exact hsp h2
    · exact hsp h1

theorem normalise_of_tidy (L : Limits) (getenv : CStr → Option CStr) (t : CStr)
    (ht : Tidy t) (hiso : Isolated true t) (hd : ∀ c ∈ t, c ≠ '$')
    (hlen : 3 * t.length + 2 ≤ L.MAX_CMD_LINE) : normalise L getenv t = some t := by
  unfold normalise
  rw [List.take_of_length_le (by omega), trim_of_tidy t ht, clean_of_tidy t ht]
  have hbuf := separate_loop_length opchars L.MAX_CMD_LINE t 0
  have hs : separate_s t opchars L.MAX_CMD_LINE = some t := by
    unfold separate_s
    simp only [ge_iff_le]
    rw [if_neg (by omega), clean_separate_of_tidy L.MAX_CMD_LINE t ht hiso (by omega)]
  rw [hs]
  exact substenv_plain getenv L.MAX_CMD_LINE t hd (by omega)

/-- C11 (counterexample): normalising `a $ b` in an environment without
variables gives `a  b` with two spaces (the `$`, a reference with the empty
name, leaves nothing), and normalising that gives `a b`. With `X` set to `a;b`,
`$X` gives `a;b` and that gives `a ; b`: what substitution leaves is neither
cleaned nor separated. Under the tiny limits (8 bytes per line) `a;b` gives
`a ; b` and that gives `a ;`: `separate_s` stops without failing when its
buffer is nearly full. -/
theorem C11_counterexample :
    normalise demoLimits emptyEnv "a $ b".toList = some "a  b".toList ∧
    normalise demoLimits emptyEnv "a  b".toList = some "a b".toList ∧
    normalise demoLimits opEnv "$X".toList = some "a;b".toList ∧
    normalise demoLimits opEnv "a;b".toList = some "a ; b".toList ∧
    normalise tinyLimits emptyEnv "a;b".toList = some "a ; b".toList ∧
    normalise tinyLimits emptyEnv "a ; b".toList = some "a ;".toList := by
  refine ⟨by decide, by decide, by decide, by decide, by decide, by decide⟩

/-- C11 (amended): for a line without `$` on which the normaliser (bounded
copy, `trim`, `clean`, `separate_s`, `substenv`) succeeds with the text `out`,
normalising `out` returns `out` unchanged, provided `out` is short enough for
`separate_s` to work on it again without dropping characters (three bytes for
each character and two more fit in `MAX_CMD_LINE`). -/
theorem C11_normalise_idempotent (L : Limits) (getenv : CStr → Option CStr) (line out : CStr)
    (h : normalise L getenv line = some out) (hd : ∀ c ∈ line, c ≠ '$')
    (hlen : 3 * out.length + 2 ≤ L.MAX_CMD_LINE) :
    normalise L getenv out = some out := by
  unfold normalise at h
  cases hs : separate_s (clean (trim (List.take (L.MAX_CMD_LINE - 1) line)))
      [';', '|', '&', '<', '>', '!'] L.MAX_CMD_LINE with
  | none => simp [hs] at h
  | some t =>
    simp only [hs] at h
    have hnd := separate_s_no_dollar line _ _ t hd hs
    have hlt := separate_s_length _ _ _ _ hs
    rw [substenv_plain getenv L.MAX_CMD_LINE t hnd (by omega)] at h
    injection h with h
    subst h
    have htidy : Tidy t := by
      unfold separate_s at hs
      simp only [ge_iff_le] at hs
      split at hs
      · cases hs
      · injection hs with hs
        rw [← hs]
        exact tidy_clean _
    exact normalise_of_tidy L getenv t htidy (separate_s_isolated _ _ _ hs) hnd hlen

/-- C11 (witness): `ls>out ;echo  hi&&x` is normalised to
`ls > out ; echo hi & & x`, which is normalised to itself. -/
theorem C11_normalise_idempotent_witness :
    normalise demoLimits emptyEnv "ls>out ;echo  hi&&x".toList
      = some "ls > out ; echo hi & & x".toList ∧
    normalise demoLimits emptyEnv "ls > out ; echo hi & & x".toList
      = some "ls > out ; echo hi & & x".toList :=
  ⟨by decide,
    C11_normalise_idempotent demoLimits emptyEnv "ls>out ;echo  hi&&x".toList
      "ls > out ; echo hi & & x".toList (by decide) (by decide) (by decide)⟩

/-! ## The substitution specification needs no more fuel -/

theorem pieces_fuel (ref : CStr → CStr × CStr) (href : ∀ s, (ref s).2.length ≤ s.length) :
    ∀ (n : Nat) (str : CStr) (k : Nat), str.length ≤ n →
      pieces ref (n + k) str = pieces ref n str := by
  intro n
  induction n with
  | zero =>
    intro str k h
    have : str = [] := List.length_eq_zero.mp (Nat.le_zero.mp h)
    subst this
    cases k <;> rfl
  | succ n ih =>
    intro str k h
    cases str with
    | nil => rw [show n + 1 + k = (n + k) + 1 by omega]; rfl
    | cons c str =>
      rw [show n + 1 + k = (n + k) + 1 by omega]
      simp only [List.length_cons] at h
      unfold pieces
      split
      · rw [ih _ k (le_trans (href str) (by omega))]
      · rw [ih _ k (by omega)]

theorem expand_fuel (getenv : CStr → Option CStr) (text : CStr) (k : Nat) :
    ((pieces var_ref (text.length + k) text).map (Piece.render getenv)).flatten
      = expand getenv text := by
  unfold expand expand_with
  rw [pieces_fuel var_ref (by rw [var_ref_eq]; exact read_varname_length) _ text k le_rfl]

/-! ## The token `!` -/

theorem plan_step_bang (L : Limits) (os : PlanOS) (s : PlanState) :
    plan_step L os s ['!'] =
      if s.argv_index = 0 then
        s.write (fun p => { p with invert := true }) (fun s1 => s1.advance 1)
      else plan_argument L s ['!'] := by
  unfold plan_step
  simp only [show (['!'] : CStr) ≠ [';'] by decide, show (['!'] : CStr) ≠ ['|'] by decide,
    show (['!'] : CStr) ≠ ['&'] by decide, show (['!'] : CStr) ≠ ['<'] by decide,
    show (['!'] : CStr) ≠ ['>'] by decide, show (['!'] : CStr) ≠ ['2'] by decide,
    if_false, false_and, true_and]

/-- C21: in a planning that ends with return value 0, an iteration of the loop
at a token `!` works on an existing node `i`. When `argv_index = 0` it sets the
invert flag of node `i`, leaves every other field of the node (its argument
vector too) and `argv_index` as they were, and goes on with the next token.
When `argv_index > 0` it stores `!` as argument number `argv_index` (behind the
arguments read so far), adds one to `argv_index` and leaves the invert flag as
it was. No other node changes. -/
theorem C21_bang (L : Limits) (os : PlanOS) (n : Nat) (s : PlanState) (tl : List CStr)
    (hrest : s.rest = ['!'] :: tl) (hret : (plan_loop L os (n + 1) s).ret = some 0) :
    ∃ i s1, s.current_proc = some i ∧ plan_loop L os (n + 1) s = plan_loop L os n s1 ∧
      s1.rest = tl ∧ s1.current_proc = some i ∧
      (∀ j, j ≠ i → s1.cmdl.commands j = s.cmdl.commands j) ∧
      (s.argv_index = 0 → s1.argv_index = 0 ∧
        s1.cmdl.commands i = { s.cmdl.commands i with invert := true }) ∧
      (0 < s.argv_index → s1.argv_index = s.argv_index + 1 ∧
        (s1.cmdl.commands i).argv = (s.cmdl.commands i).argv.take s.argv_index ++ [['!']] ∧
        ((s.cmdl.commands i).argv.length = s.argv_index →
          (s1.cmdl.commands i).argv = (s.cmdl.commands i).argv ++ [['!']]) ∧
        (s1.cmdl.commands i).invert = (s.cmdl.commands i).invert) := by
  rw [plan_loop_cons L os n s ['!'] tl hrest, plan_step_bang] at hret ⊢
  cases hcur : s.current_proc with
  | none =>
    exfalso
    by_cases h0 : s.argv_index = 0
    · rw [if_pos h0] at hret
      simp [PlanState.write, hcur] at hret
    · rw [if_neg h0] at hret
      unfold plan_argument at hret
      by_cases ha : s.argv_index < L.MAX_ARGS - 1
      · rw [if_pos ha] at hret
        simp [PlanState.write, hcur] at hret
      · rw [if_neg ha] at hret
        simp [PlanState.leave] at hret
  | some i =>
    by_cases h0 : s.argv_index = 0
    · rw [if_pos h0, write_eq s i _ _ hcur]
      refine ⟨i, { s.assign i (fun p => { p with invert := true }) with rest := tl }, rfl, ?_,
        rfl, hcur, ?_, ?_, ?_⟩
      · simp [PlanState.advance, PlanState.assign, hrest]
      · intro j hj
        simp [PlanState.assign, Function.update, hj]
      · intro _
        exact ⟨h0, by simp [PlanState.assign]⟩
      · intro h; omega
    · rw [if_neg h0] at hret ⊢
      by_cases ha : s.argv_index < L.MAX_ARGS - 1
      · rw [plan_argument_eq L s ['!'] i hcur ha]
        refine ⟨i, s.with_word i ['!'], rfl, rfl, ?_, hcur, ?_, ?_, ?_⟩
        · simp [PlanState.with_word, hrest]
        · intro j hj
          simp [PlanState.with_word, Function.update, hj]
        · intro h; exact absurd h h0
        · intro _
          refine ⟨rfl, ?_, ?_, ?_⟩
          · simp [PlanState.with_word, push_arg]
          · intro hlen
            simp [PlanState.with_word, push_arg, ← hlen]
          · simp [PlanState.with_word, push_arg]
      · exfalso
        unfold plan_argument at hret
        rw [if_neg ha] at hret
        simp [PlanState.leave] at hret

/-- C21 (witness): the line `! a ! b`. The first `!` is met with no argument
read, the second after one; the node ends with the invert flag set and the
arguments `a`, `!`, `b`. -/
theorem C21_bang_witness :
    tokenize demoLimits emptyEnv "! a ! b".toList = some [['!'], ['a'], ['!'], ['b']] ∧
    (demoNode "! a ! b" 0).invert = true ∧
    (demoNode "! a ! b" 0).argv = [['a'], ['!'], ['b']] ∧
    (demoNode "a ! b" 0).invert = false ∧
    (∃ i s1, (planStart demoLimits [['!'], ['a'], ['!'], ['b']]).current_proc = some i ∧
      plan_loop demoLimits demoPlanOS (3 + 1) (planStart demoLimits [['!'], ['a'], ['!'], ['b']])
        = plan_loop demoLimits demoPlanOS 3 s1 ∧
      s1.rest = [['a'], ['!'], ['b']] ∧ s1.current_proc = some i ∧
      (∀ j, j ≠ i → s1.cmdl.commands j
        = (planStart demoLimits [['!'], ['a'], ['!'], ['b']]).cmdl.commands j) ∧
      ((planStart demoLimits [['!'], ['a'], ['!'], ['b']]).argv_index = 0 →
        s1.argv_index = 0 ∧
        s1.cmdl.commands i
          = { (planStart demoLimits [['!'], ['a'], ['!'], ['b']]).cmdl.commands i with
              invert := true })) :=
  ⟨by decide, by decide, by decide, by decide,
    match C21_bang demoLimits demoPlanOS 3 (planStart demoLimits [['!'], ['a'], ['!'], ['b']])
      [['a'], ['!'], ['b']] rfl (by decide) with
    | ⟨i, s1, h1, h2, h3, h4, h5, h6, _⟩ => ⟨i, s1, h1, h2, h3, h4, h5, h6⟩⟩

/-! ## Back references of the command nodes -/

theorem cf_write {s : PlanState} (f : processus_t → processus_t)
    (k : PlanState → PlanStep) (h : CfInv s.cmdl) (hf : ∀ p, (f p).cf = p.cf)
    (hk : ∀ s2 : PlanState, CfInv s2.cmdl → CfOk (k s2)) :
    CfOk (s.write f k) := by
  unfold PlanState.write
  split
  · exact h
  · rename_i i _
    apply hk
    intro j hj
    show (Function.update s.cmdl.commands i (f (s.cmdl.commands i)) j).cf = some j
    by_cases e : j = i
    · subst e
      rw [Function.update_same, hf]
      exact h j hj
    · rw [Function.update_noteq e]
      exact h j hj

theorem cf_add_processus (L : Limits) (c : command_line_t) (mode : control_flow_mode_t)
    (h : CfInv c) : CfInv (add_processus L c mode).2 := by
  by_cases hfull : L.MAX_CMDS ≤ c.num_commands
  · rw [add_processus_full L c mode hfull]; exact h
  · have hlt : c.num_commands < L.MAX_CMDS := by omega
    intro j hj
    rw [add_processus_num L c mode hlt] at hj
    rw [add_processus_commands L c mode hlt]
    by_cases e : j = c.num_commands
    · rw [if_pos e, e]
    · rw [if_neg e]
      exact h j (by omega)

theorem cf_new_proc {L : Limits} {s : PlanState} (mode : control_flow_mode_t)
    (h : CfInv s.cmdl) : CfInv (s.new_proc L mode).cmdl :=
  cf_add_processus L s.cmdl mode h

theorem cf_register {L : Limits} {s : PlanState} (fd : Int) (h : CfInv s.cmdl) :
    CfInv (s.register L fd).cmdl := by
  intro j hj
  show ((add_fd L s.cmdl fd).2.commands j).cf = some j
  rw [add_fd_commands]
  exact h j (by rw [← (add_fd_skel L s.cmdl fd).2]; exact hj)

theorem cf_plan_argument (L : Limits) (s : PlanState) (token : CStr) (h : CfInv s.cmdl) :
    CfOk (plan_argument L s token) := by
  unfold plan_argument
  split
  · exact cf_write _ _ h (fun _ => rfl) (fun s2 h2 => h2)
  · exact h

theorem cf_plan_stdout (L : Limits) (os : PlanOS) (s : PlanState) (flags : OpenFlags) (f : Nat)
    (h : CfInv s.cmdl) : CfOk (plan_stdout L os s flags f) := by
  unfold plan_stdout
  split
  · exact h
  · simp only []
    split
    · exact h
    · exact cf_write _ _ h (fun _ => rfl) (fun s2 h2 => cf_register _ h2)

theorem cf_plan_stderr (L : Limits) (os : PlanOS) (s : PlanState) (flags : OpenFlags) (f : Nat)
    (h : CfInv s.cmdl) : CfOk (plan_stderr L os s flags f) := by
  unfold plan_stderr
  split
  · exact h
  · split
    · exact cf_write _ _ h (fun _ => rfl) (fun s2 h2 => h2)
    · simp only []
      split
      · exact cf_write _ _ h (fun _ => rfl) (fun s2 h2 => cf_register _ h2)
      · exact h

theorem cf_plan_step (L : Limits) (os : PlanOS) (s : PlanState) (token : CStr)
    (h : CfInv s.cmdl) : CfOk (plan_step L os s token) := by
  unfold plan_step
  simp only []
  split_ifs
  all_goals first
    | exact cf_plan_stdout L os s _ _ h
    | exact cf_plan_stderr L os s _ _ h
    | exact cf_plan_argument L s token h
    | exact cf_new_proc (s := s) _ h
    | exact h
    | exact cf_write _ _ h (fun _ => rfl) (fun s2 h2 => h2)
    | exact cf_write _ _ h (fun _ => rfl) (fun s2 h2 => cf_new_proc (s := s2) _ h2)
    | skip
  · split
    · exact h
    · rename_i pfd hpfd
      refine cf_write _ _ h (fun _ => rfl) (fun s2 h2 => ?_)
      have h3 : CfInv ((s2.register L pfd.2).new_proc L .UNCONDITIONAL).cmdl :=
        cf_new_proc (s := s2.register L pfd.2) _ (cf_register _ h2)
      split
      · exact h3
      · exact cf_write _ _ h3 (fun _ => rfl) (fun s3 h4 => cf_register _ h4)
  · split
    · exact h
    · split
      · exact cf_write _ _ h (fun _ => rfl) (fun s2 h2 => h2)
      · exact cf_write _ _ h (fun _ => rfl) (fun s2 h2 => cf_register _ h2)

theorem cf_plan_loop (L : Limits) (os : PlanOS) :
    ∀ (n : Nat) (s : PlanState), CfInv s.cmdl → CfInv (plan_loop L os n s).cmdl := by
  intro n
  induction n with
  | zero => intro s hs; exact hs
  | succ n ih =>
    intro s hs
    unfold plan_loop
    split
    · exact hs
    · rename_i token tl hrest
      have hok := cf_plan_step L os s token hs
      cases hstep : plan_step L os s token with
      | stop r =>
        rw [hstep] at hok
        exact hok
      | next s1 =>
        rw [hstep] at hok
        exact ih s1 hok

theorem cf_plan (L : Limits) (os : PlanOS) (c : command_line_t) (tokens : List CStr)
    (hc : CfInv c) : CfInv (plan L os c tokens).cmdl := by
  unfold plan
  cases tokens with
  | nil => exact hc
  | cons t ts =>
    simp only []
    have h2 : CfInv (add_processus L { c with tokens := t :: ts } .UNCONDITIONAL).2 :=
      cf_add_processus L _ _ hc
    split
    · exact h2
    · exact cf_plan_loop L os _ _ h2

theorem cf_parse (L : Limits) (os : PlanOS) (getenv : CStr → Option CStr) (line : CStr) :
    CfInv (parse_command_line L os getenv (init_command_line L) line).cmdl := by
  have h0 : CfInv (init_command_line L) := fun j hj => absurd hj (Nat.not_lt_zero _)
  unfold parse_command_line
  simp only []
  split
  · exact h0
  · split
    · exact h0
    · exact cf_plan L os _ _ h0

/-- C22: in a line planned from an initialised command line (whatever
`parse_command_line` returned), for every node index `i < num_commands`: flow
node `i` refers to command node `i` and command node `i` refers back to flow
node `i`; at least two of the three links of flow node `i` are NULL, so at most
one is set, and never both `on_success_next` and `on_failure_next`; a link that
is set points to flow node `i + 1`, which exists; the last flow node has no
link. -/
theorem C22_flow_shape (L : Limits) (pos : PlanOS) (getenv : CStr → Option CStr)
    (line : CStr) (i : Nat)
    (hi : i < (parse_command_line L pos getenv (init_command_line L) line).cmdl.num_commands) :
    ((parse_command_line L pos getenv (init_command_line L) line).cmdl.flow i).proc = some i ∧
    ((parse_command_line L pos getenv (init_command_line L) line).cmdl.commands i).cf = some i ∧
    ((((parse_command_line L pos getenv (init_command_line L) line).cmdl.flow
          i).unconditionnal_next = none ∧
        ((parse_command_line L pos getenv (init_command_line L) line).cmdl.flow
          i).on_success_next = none) ∨
      (((parse_command_line L pos getenv (init_command_line L) line).cmdl.flow
          i).unconditionnal_next = none ∧
        ((parse_command_line L pos getenv (init_command_line L) line).cmdl.flow
          i).on_failure_next = none) ∨
      (((parse_command_line L pos getenv (init_command_line L) line).cmdl.flow
          i).on_success_next = none ∧
        ((parse_command_line L pos getenv (init_command_line L) line).cmdl.flow
          i).on_failure_next = none)) ∧
    ¬ (((parse_command_line L pos getenv (init_command_line L) line).cmdl.flow
          i).on_success_next ≠ none ∧
        ((parse_command_line L pos getenv (init_command_line L) line).cmdl.flow
          i).on_failure_next ≠ none) ∧
    (∀ t,
      ((parse_command_line L pos getenv (init_command_line L) line).cmdl.flow
          i).unconditionnal_next = some t ∨
        ((parse_command_line L pos getenv (init_command_line L) line).cmdl.flow
          i).on_success_next = some t ∨
        ((parse_command_line L pos getenv (init_command_line L) line).cmdl.flow
          i).on_failure_next = some t →
      t = i + 1 ∧
        i + 1 < (parse_command_line L pos getenv (init_command_line L) line).cmdl.num_commands) ∧
    (i + 1 = (parse_command_line L pos getenv (init_command_line L) line).cmdl.num_commands →
      no_link ((parse_command_line L pos getenv (init_command_line L) line).cmdl.flow i)) := by
  have hflow := parse_flow_inv L pos getenv line
  have hcf := cf_parse L pos getenv line
  generalize (parse_command_line L pos getenv (init_command_line L) line).cmdl = c
    at hflow hcf hi ⊢
  obtain ⟨hp, h1, h0⟩ := hflow i
  refine ⟨hp hi, hcf i hi, ?_⟩
  by_cases hlt : i + 1 < c.num_commands
  · have hne : ¬ i + 1 = c.num_commands := by omega
    rcases h1 hlt with ⟨a, b, d⟩ | ⟨a, b, d⟩ | ⟨a, b, d⟩
    · refine ⟨Or.inr (Or.inr ⟨b, d⟩), fun h => h.1 b, ?_, fun h => absurd h hne⟩
      intro t ht
      rw [a, b, d] at ht
      simp at ht
      exact ⟨ht.symm, hlt⟩
    · refine ⟨Or.inr (Or.inl ⟨a, d⟩), fun h => h.2 d, ?_, fun h => absurd h hne⟩
      intro t ht
      rw [a, b, d] at ht
      simp at ht
      exact ⟨ht.symm, hlt⟩
    · refine ⟨Or.inl ⟨a, b⟩, fun h => h.1 b, ?_, fun h => absurd h hne⟩
      intro t ht
      rw [a, b, d] at ht
      simp at ht
      exact ⟨ht.symm, hlt⟩
  · obtain ⟨a, b, d⟩ := h0 (by omega)
    refine ⟨Or.inl ⟨a, b⟩, fun h => h.1 b, ?_, fun _ => ⟨a, b, d⟩⟩
    intro t ht
    rw [a, b, d] at ht
    simp at ht

/-- C22 (witness): node 1 of `false || echo a && echo b ; echo c`, whose only
link is `on_success_next`, to node 2. -/
theorem C22_flow_shape_witness :
    (demoParse "false || echo a && echo b ; echo c").cmdl.num_commands = 4 ∧
    ((demoParse "false || echo a && echo b ; echo c").cmdl.flow 1).on_success_next = some 2 ∧
    ((demoParse "false || echo a && echo b ; echo c").cmdl.flow 1).proc = some 1 ∧
    ((demoParse "false || echo a && echo b ; echo c").cmdl.commands 1).cf = some 1 ∧
    ¬ (((demoParse "false || echo a && echo b ; echo c").cmdl.flow 1).on_success_next ≠ none ∧
      ((demoParse "false || echo a && echo b ; echo c").cmdl.flow 1).on_failure_next ≠ none) :=
  have h := C22_flow_shape demoLimits demoPlanOS emptyEnv
    "false || echo a && echo b ; echo c".toList 1 (by decide)
  ⟨by decide, by decide, h.1, h.2.1, h.2.2.2.1⟩

/-! ## What the shell closes after a launch -/

/-- C25: the line `ls 2>&1` is planned with return value 0 and an empty
registry; `launch_processus` on its node then closes descriptor 1, the standard
output of the shell itself, in the parent branch, because the stderr assignment
1 differs from 2. The built-in path does the same for `pwd 2>&1`. For
`ls < in > out 2> err` the descriptors closed are the three registered ones. -/
theorem C25_shell_stdout_closed :
    (demoParse "ls 2>&1").ret = some 0 ∧
    (∀ x ∈ (demoParse "ls 2>&1").cmdl.opened_descriptors, x = -1) ∧
    is_builtin (demoNode "ls 2>&1" 0) = false ∧
    (launch_processus demoExecOS 0 (demoNode "ls 2>&1" 0)).closed_fds = [1] ∧
    (demoParse "pwd 2>&1").ret = some 0 ∧
    (∀ x ∈ (demoParse "pwd 2>&1").cmdl.opened_descriptors, x = -1) ∧
    is_builtin (demoNode "pwd 2>&1" 0) = true ∧
    (launch_processus demoExecOS 0 (demoNode "pwd 2>&1" 0)).closed_fds = [1] ∧
    (launch_processus demoExecOS 0 (demoNode "ls < in > out 2> err" 0)).closed_fds = [3, 5, 7] ∧
    (demoParse "ls < in > out 2> err").cmdl.opened_descriptors.take 3 = [3, 5, 7] := by
  refine ⟨by decide, by decide, by decide, by decide, by decide, by decide, by decide,
    by decide, by decide, by decide⟩

/-! ## Words of a text -/

theorem runs_from_nil (sep : Char → Bool) (acc : CStr) :
    runs_from sep [] acc = if acc.isEmpty then [] else [acc.reverse] := by
  unfold runs_from
  rw [List.splitOnP.go]
  cases acc with
  | nil => rfl
  | cons a acc =>
    rw [List.filter_cons_of_pos (by simp)]
    rfl

theorem runs_from_cons (sep : Char → Bool) (c : Char) (t acc : CStr) :
    runs_from sep (c :: t) acc =
      if sep c then (if acc.isEmpty then runs_from sep t [] else acc.reverse :: runs_from sep t [])
      else runs_from sep t (c :: acc) := by
  unfold runs_from
  rw [List.splitOnP.go]
  by_cases h : sep c = true
  · rw [if_pos h, if_pos h]
    cases acc with
    | nil => rfl
    | cons a acc =>
      rw [List.filter_cons_of_pos (by simp)]
      rfl
  · rw [if_neg h, if_neg h]

theorem runs_eq_from (sep : Char → Bool) (str : CStr) : runs sep str = runs_from sep str [] := rfl

theorem runs_from_clean_loop : ∀ (y : CStr) (sf : Bool) (cur : CStr), (sf = true → cur = []) →
    runs_from isspace (clean_loop sf y) cur = runs_from isspace y cur := by
  intro y
  induction y with
  | nil => intro sf cur _; rfl
  | cons c y ih =>
    intro sf cur hsf
    rw [clean_loop]
    by_cases hs : isspace c = true
    · rw [if_pos hs, runs_from_cons isspace c, if_pos hs]
      by_cases hsf1 : sf = true
      · rw [if_pos hsf1, hsf hsf1, ih true [] (fun _ => rfl)]
        rfl
      · rw [if_neg hsf1, runs_from_cons, if_pos (by decide), ih true [] (fun _ => rfl)]
    · rw [if_neg hs, runs_from_cons, if_neg hs, runs_from_cons isspace c, if_neg hs,
        ih false _ (by simp)]

theorem runs_from_drop_space : ∀ (y : CStr),
    runs_from isspace (y.dropWhile isspace) [] = runs_from isspace y [] := by
  intro y
  induction y with
  | nil => rfl
  | cons c y ih =>
    by_cases hs : isspace c = true
    · rw [List.dropWhile_cons_of_pos hs, runs_from_cons isspace c, if_pos hs, ih]
      rfl
    · rw [List.dropWhile_cons_of_neg hs]

theorem runs_from_append_seps (sep : Char → Bool) : ∀ (a w cur : CStr),
    (∀ c ∈ w, sep c = true) → runs_from sep (a ++ w) cur = runs_from sep a cur := by
  intro a
  induction a with
  | nil =>
    intro w
    induction w with
    | nil => intro cur _; rfl
    | cons d w ihw =>
      intro cur hw
      rw [List.nil_append, runs_from_cons, if_pos (hw d (List.mem_cons_self _ _))]
      have hrec := ihw [] (fun c hc => hw c (List.mem_cons_of_mem _ hc))
      rw [List.nil_append] at hrec
      rw [hrec, runs_from_nil, runs_from_nil]
      cases cur <;> rfl
  | cons c a ih =>
    intro w cur hw
    rw [List.cons_append, runs_from_cons, runs_from_cons sep c a, ih w [] hw, ih w (c :: cur) hw]

theorem runs_trim (x : CStr) : runs isspace (trim x) = runs isspace x := by
  have htrim : trim x = List.dropWhile isspace
      (List.rdropWhile (fun c => isspace c || decide (c = '\n')) x) := rfl
  rw [runs_eq_from, runs_eq_from, htrim, runs_from_drop_space]
  have hx := rdrop_initial (fun c => isspace c || decide (c = '\n')) x
  conv_rhs => rw [hx]
  rw [runs_from_append_seps]
  intro c hc
  have := List.mem_takeWhile_imp (List.mem_reverse.mp hc)
  rw [trailing_eq_isspace] at this
  exact this

theorem runs_clean (x : CStr) : runs isspace (clean x) = runs isspace x := by
  unfold clean
  rw [runs_trim, runs_eq_from, runs_eq_from, runs_from_clean_loop _ false [] (by simp)]

theorem loose_space : ∀ (t : CStr) (b : Bool), Loose b t →
    ∀ c ∈ t, isspace c = true → c = ' ' := by
  intro t
  induction t with
  | nil => intro b _ c hc; simp at hc
  | cons d t ih =>
    intro b h c hc hs
    unfold Loose at h
    rcases List.mem_cons.mp hc with h1 | h1
    · subst h1
      by_contra hne
      rw [if_neg hne] at h
      rw [h.1] at hs
      exact absurd hs (by simp)
    · split at h
      · exact ih true h.2 c h1 hs
      · exact ih false h.2 c h1 hs

theorem loose_no_double : ∀ (a : CStr) (b : Bool) (r : CStr),
    ¬ Loose b (a ++ ' ' :: ' ' :: r) := by
  intro a
  induction a with
  | nil =>
    intro b r h
    rw [List.nil_append] at h
    unfold Loose at h
    rw [if_pos rfl] at h
    have h2 := h.2
    unfold Loose at h2
    rw [if_pos rfl] at h2
    exact absurd h2.1 (by simp)
  | cons c a ih =>
    intro b r h
    rw [List.cons_append] at h
    unfold Loose at h
    split at h
    · exact ih true r h.2
    · exact ih false r h.2

/-- C23: for every string, the result of `trim` followed by `clean` neither
starts nor ends with a white-space character, holds no white-space character
other than the space, holds no two spaces in a row, and has the same maximal
runs of characters that are no white space as the input, in the same order. -/
theorem C23_trim_clean (str : CStr) :
    (∀ c, (clean (trim str)).head? = some c → isspace c = false) ∧
    (∀ c, (clean (trim str)).getLast? = some c → isspace c = false) ∧
    (∀ c ∈ clean (trim str), isspace c = true → c = ' ') ∧
    (∀ a r, clean (trim str) ≠ a ++ ' ' :: ' ' :: r) ∧
    runs isspace (clean (trim str)) = runs isspace str := by
  have ht := tidy_clean (trim str)
  refine ⟨ht.2.1, ht.2.2, loose_space _ false ht.1, ?_, ?_⟩
  · intro a r h
    have h1 := ht.1
    rw [h] at h1
    exact loose_no_double a false r h1
  · rw [runs_clean, runs_trim]

/-- C23 (witness): a string with leading, doubled and trailing white space of
several kinds. -/
theorem C23_trim_clean_witness :
    clean (trim " \t ls   -l\t\tdir \n".toList) = "ls -l dir".toList ∧
    runs isspace " \t ls   -l\t\tdir \n".toList = ["ls".toList, "-l".toList, "dir".toList] ∧
    runs isspace (clean (trim " \t ls   -l\t\tdir \n".toList))
      = runs isspace " \t ls   -l\t\tdir \n".toList :=
  ⟨by decide, by decide, (C23_trim_clean " \t ls   -l\t\tdir \n".toList).2.2.2.2⟩

/-! ## Tokens -/

theorem strtok_all_runs (sep : Char) : ∀ (str cur : CStr),
    strtok_all sep str cur = runs_from (fun c => decide (c = sep)) str cur := by
  intro str
  induction str with
  | nil =>
    intro cur
    rw [runs_from_nil]
    rfl
  | cons c str ih =>
    intro cur
    rw [runs_from_cons, strtok_all]
    by_cases h : c = sep
    · have hd : decide (c = sep) = true := by simpa using h
      rw [if_pos h, hd, ih]
      rfl
    · have hd : ¬ decide (c = sep) = true := by simpa using h
      rw [if_neg h, if_neg hd, ih]

theorem runs_from_good (sep : Char → Bool) : ∀ (str acc : CStr),
    (∀ c ∈ acc, sep c = false) →
    ∀ tok ∈ runs_from sep str acc, tok ≠ [] ∧ ∀ c ∈ tok, sep c = false := by
  intro str
  induction str with
  | nil =>
    intro acc hacc tok htok
    rw [runs_from_nil] at htok
    cases acc with
    | nil => simp at htok
    | cons a acc =>
      simp only [List.isEmpty_cons, Bool.false_eq_true, if_false, List.mem_singleton] at htok
      subst htok
      exact ⟨by simp, fun c hc => hacc c (List.mem_reverse.mp hc)⟩
  | cons d str ih =>
    intro acc hacc tok htok
    rw [runs_from_cons] at htok
    by_cases hd : sep d = true
    · rw [if_pos hd] at htok
      have hrec := ih [] (by simp)
      cases acc with
      | nil => exact hrec tok htok
      | cons a acc =>
        simp only [List.isEmpty_cons, Bool.false_eq_true, if_false, List.mem_cons] at htok
        rcases htok with h1 | h1
        · subst h1
          exact ⟨by simp, fun c hc => hacc c (List.mem_reverse.mp hc)⟩
        · exact hrec tok h1
    · rw [if_neg hd] at htok
      refine ih (d :: acc) ?_ tok htok
      intro c hc
      rcases List.mem_cons.mp hc with h1 | h1
      · rw [h1]; simpa using hd
      · exact hacc c h1

/-- C24 (counterexample): with the bound 2147483650 the cast `(int)max` is
negative, the loop of `strcut` stores nothing and 0 is returned, although the
text `a b` has two runs and `max - 1` is far above two. -/
theorem C24_counterexample :
    strcut "a b".toList ' ' 2147483650 = [] ∧
    runs (fun c => decide (c = ' ')) "a b".toList = [['a'], ['b']] ∧
    min (runs (fun c => decide (c = ' ')) "a b".toList).length (2147483650 - 1) = 2 ∧
    int_of_size 2147483650 = -2147483646 := by
  refine ⟨by decide, by decide, by decide, by decide⟩

/-- C24 (amended): for every string and every bound `max` from 1 up to the
greatest `int` (2147483647), `strcut` with the separator space stores the first
`min n (max - 1)` of the `n` maximal runs of characters other than the space,
in order, and returns that count; every token is non-empty and holds no space;
a string of spaces only, or an empty one, gives no token. -/
theorem C24_strcut_runs (str : CStr) (max : Nat) (_hmax1 : 1 ≤ max)
    (hmax : max ≤ 2147483647) :
    strcut str ' ' max
      = (runs (fun c => decide (c = ' ')) str).take
          (min (runs (fun c => decide (c = ' ')) str).length (max - 1)) ∧
    (strcut str ' ' max).length
      = min (runs (fun c => decide (c = ' ')) str).length (max - 1) ∧
    (∀ tok ∈ strcut str ' ' max, tok ≠ [] ∧ ' ' ∉ tok) ∧
    ((∀ c ∈ str, c = ' ') → strcut str ' ' max = []) := by
  have hcut : strcut str ' ' max = (runs (fun c => decide (c = ' ')) str).take (max - 1) := by
    rw [strcut_of_int str ' ' max hmax, strtok_all_runs]
    rfl
  refine ⟨?_, ?_, ?_, ?_⟩
  · rw [hcut, List.take_eq_take]
    simp [Nat.min_comm]
  · rw [hcut, List.length_take]
    exact Nat.min_comm _ _
  · intro tok htok
    rw [hcut] at htok
    have h := runs_from_good (fun c => decide (c = ' ')) str [] (by simp) tok
      (List.mem_of_mem_take htok)
    refine ⟨h.1, fun hsp => ?_⟩
    have := h.2 ' ' hsp
    simp at this
  · intro hall
    rw [hcut, runs_eq_from]
    have := runs_from_append_seps (fun c => decide (c = ' ')) [] str []
      (fun c hc => by simpa using hall c hc)
    rw [List.nil_append] at this
    rw [this, runs_from_nil]
    simp

/-- C24 (witness): the text `  ls  -l dir ` with the bound 3 gives the first two
of its three runs. -/
theorem C24_strcut_runs_witness :
    runs (fun c => decide (c = ' ')) "  ls  -l dir ".toList
      = ["ls".toList, "-l".toList, "dir".toList] ∧
    strcut "  ls  -l dir ".toList ' ' 3 = ["ls".toList, "-l".toList] ∧
    (strcut "  ls  -l dir ".toList ' ' 3).length
      = min (runs (fun c => decide (c = ' ')) "  ls  -l dir ".toList).length (3 - 1) :=
  ⟨by decide, by decide,
    (C24_strcut_runs "  ls  -l dir ".toList 3 (by decide) (by decide)).2.1⟩

end MiniShell
